import Mathlib

/-!
# linux_tree: a verification development for `main.go`

The program prints a directory tree.  This file embeds its functions in Lean
(`formatSize`, `dirTreeFilter`, `dirTreePrint`, `dirTree`, `printError`,
`main`, the `sortedFiles` methods) together with the library routines they
call, and proves properties of them.

Conventions of the embedding

* Go `int` is the 64-bit signed integer.  Sizes are embedded as `Int`; the
  constants of `formatSize` reach `1024^5 = 2^50`, far from overflow, so no
  wrap-around is involved in any comparison.  Indices, lengths and the two
  counters are embedded as `Nat`: they only count entries of the file system
  and stay far below `2^63`.
* Go strings are embedded as Lean `String`; the order `<` on strings is the
  lexicographic order of code points, which for valid UTF-8 is the byte order
  Go compares by.
* The file system is a function from a path to the result of `os.Open`
  followed by `Readdir(0)` on it.  Recursion over it takes a fuel argument,
  and a run that exhausts the fuel has no result (`none`).
* Standard output is the list of the write operations performed, in order.
-/

namespace LinuxTree

/-! ## Types of `main.go` and of the Go library -/

/-- The struct `counts`. -/
structure counts where
  dirs : Nat
  files : Nat
deriving DecidableEq

/-- The struct `flags`. -/
structure flags where
  f : Bool
  h : Bool
  d : Bool
deriving DecidableEq

/-- What the program reads from an `os.FileInfo`: `Name()`, `Size()`,
`Mode()` (the `FileMode` bits, a `uint32`) and `IsDir()`. -/
structure FileInfo where
  Name : String
  Size : Int
  Mode : Nat
  IsDir : Bool
deriving DecidableEq, Inhabited

/-- The struct `sortedFiles`. -/
structure sortedFiles where
  list : List FileInfo
deriving DecidableEq

/-- The file system: `some d` when `os.Open(path)` and then `Readdir(0)`
succeed with the entries `d` (in the order the system delivers them), `none`
when either fails. -/
abbrev FS := String → Option (List FileInfo)

/-- The colour objects built by `color.New` in `dirTreePrint`. -/
inductive Color where
  | hiBlueBold
  | hiCyanBold
  | hiGreenBold
  | plain
deriving DecidableEq

/-- One write to standard output: `fmt.Printf` of a text, `Println` of a
text through a colour object (the text followed by a line terminator), or
`Print` of a text through a colour object (the text alone). -/
inductive Write where
  | printf (text : String)
  | println (c : Color) (text : String)
  | print (c : Color) (text : String)
deriving DecidableEq

/-- The constant `filepath.Separator` (Unix). -/
def Separator : Char := '/'

/-! ## `formatSize` -/

/-- The number of tenths that `fmt.Sprintf("%.1f", float64(size)/float64(unit))`
prints, for `0 < size ≤ 2^53` and `unit` a power of two.  Under these bounds
the conversion `float64(size)` is exact and so is the division by a power of
two, so the formatted value is the rational `size / unit`; Go formats it by
exact decimal conversion, rounding to the nearest tenth with ties going to the
even digit.  `q` is the number of whole tenths, `r` the remainder. -/
def roundTenths (size unit : Nat) : Nat :=
  let q := 10 * size / unit
  let r := 10 * size % unit
  if 2 * r < unit then q
  else if unit < 2 * r then q + 1
  else if q % 2 = 0 then q else q + 1

/-- Text of `fmt.Sprintf("%.1f", float64(size)/float64(unit))`: the integer
part, a point, one decimal digit. -/
def sprintf1f (size unit : Nat) : String :=
  toString (roundTenths size unit / 10) ++ "." ++ toString (roundTenths size unit % 10)

/-- The function `formatSize` of `main.go`. -/
def formatSize (size : Int) : String :=
  let kilo : Int := 1024
  let mega := kilo * 1024
  let giga := mega * 1024
  let tera := giga * 1024
  let peta := tera * 1024
  if size ≤ kilo then
    toString size
  else if size > kilo ∧ size ≤ mega then
    sprintf1f size.toNat kilo.toNat ++ "K"
  else if size > mega ∧ size ≤ giga then
    sprintf1f size.toNat mega.toNat ++ "M"
  else if size > giga ∧ size ≤ tera then
    sprintf1f size.toNat giga.toNat ++ "G"
  else if size > tera ∧ size ≤ peta then
    sprintf1f size.toNat tera.toNat ++ "T"
  else
    ">1P"

/-- The unit letter the spec's table gives for the `k`-th magnitude step. -/
def unitSuffix : Nat → String
  | 1 => "K"
  | 2 => "M"
  | 3 => "G"
  | _ => "T"

/-! ## The methods of `sortedFiles` -/

/-- The lower-case mappings of the letters outside ASCII, as the table
`unicode.CaseRanges` of the Go library holds them (the simple lower-case
mappings of the Unicode Character Database, version 14.0; later versions keep
these mappings and add some for new letters).  An entry `(lo, hi, stride,
target)` maps the code points `lo`, `lo + stride`, ... up to `hi` to `target`,
`target + stride`, ...; a code point in no entry is its own lower case. -/
def lowerRanges : List (Nat × Nat × Nat × Nat) :=
  [(0xC0, 0xD6, 1, 0xE0), (0xD8, 0xDE, 1, 0xF8), (0x100, 0x12E, 2, 0x101),
   (0x130, 0x130, 1, 0x69), (0x132, 0x136, 2, 0x133), (0x139, 0x147, 2, 0x13A),
   (0x14A, 0x176, 2, 0x14B), (0x178, 0x178, 1, 0xFF), (0x179, 0x17D, 2, 0x17A),
   (0x181, 0x181, 1, 0x253), (0x182, 0x184, 2, 0x183), (0x186, 0x186, 1, 0x254),
   (0x187, 0x187, 1, 0x188), (0x189, 0x18A, 1, 0x256), (0x18B, 0x18B, 1, 0x18C),
   (0x18E, 0x18E, 1, 0x1DD), (0x18F, 0x18F, 1, 0x259), (0x190, 0x190, 1, 0x25B),
   (0x191, 0x191, 1, 0x192), (0x193, 0x193, 1, 0x260), (0x194, 0x194, 1, 0x263),
   (0x196, 0x196, 1, 0x269), (0x197, 0x197, 1, 0x268), (0x198, 0x198, 1, 0x199),
   (0x19C, 0x19C, 1, 0x26F), (0x19D, 0x19D, 1, 0x272), (0x19F, 0x19F, 1, 0x275),
   (0x1A0, 0x1A4, 2, 0x1A1), (0x1A6, 0x1A6, 1, 0x280), (0x1A7, 0x1A7, 1, 0x1A8),
   (0x1A9, 0x1A9, 1, 0x283), (0x1AC, 0x1AC, 1, 0x1AD), (0x1AE, 0x1AE, 1, 0x288),
   (0x1AF, 0x1AF, 1, 0x1B0), (0x1B1, 0x1B2, 1, 0x28A), (0x1B3, 0x1B5, 2, 0x1B4),
   (0x1B7, 0x1B7, 1, 0x292), (0x1B8, 0x1B8, 1, 0x1B9), (0x1BC, 0x1BC, 1, 0x1BD),
   (0x1C4, 0x1C4, 1, 0x1C6), (0x1C5, 0x1C5, 1, 0x1C6), (0x1C7, 0x1C7, 1, 0x1C9),
   (0x1C8, 0x1C8, 1, 0x1C9), (0x1CA, 0x1CA, 1, 0x1CC), (0x1CB, 0x1DB, 2, 0x1CC),
   (0x1DE, 0x1EE, 2, 0x1DF), (0x1F1, 0x1F1, 1, 0x1F3), (0x1F2, 0x1F4, 2, 0x1F3),
   (0x1F6, 0x1F6, 1, 0x195), (0x1F7, 0x1F7, 1, 0x1BF), (0x1F8, 0x21E, 2, 0x1F9),
   (0x220, 0x220, 1, 0x19E), (0x222, 0x232, 2, 0x223), (0x23A, 0x23A, 1, 0x2C65),
   (0x23B, 0x23B, 1, 0x23C), (0x23D, 0x23D, 1, 0x19A), (0x23E, 0x23E, 1, 0x2C66),
   (0x241, 0x241, 1, 0x242), (0x243, 0x243, 1, 0x180), (0x244, 0x244, 1, 0x289),
   (0x245, 0x245, 1, 0x28C), (0x246, 0x24E, 2, 0x247), (0x370, 0x372, 2, 0x371),
   (0x376, 0x376, 1, 0x377), (0x37F, 0x37F, 1, 0x3F3), (0x386, 0x386, 1, 0x3AC),
   (0x388, 0x38A, 1, 0x3AD), (0x38C, 0x38C, 1, 0x3CC), (0x38E, 0x38F, 1, 0x3CD),
   (0x391, 0x3A1, 1, 0x3B1), (0x3A3, 0x3AB, 1, 0x3C3), (0x3CF, 0x3CF, 1, 0x3D7),
   (0x3D8, 0x3EE, 2, 0x3D9), (0x3F4, 0x3F4, 1, 0x3B8), (0x3F7, 0x3F7, 1, 0x3F8),
   (0x3F9, 0x3F9, 1, 0x3F2), (0x3FA, 0x3FA, 1, 0x3FB), (0x3FD, 0x3FF, 1, 0x37B),
   (0x400, 0x40F, 1, 0x450), (0x410, 0x42F, 1, 0x430), (0x460, 0x480, 2, 0x461),
   (0x48A, 0x4BE, 2, 0x48B), (0x4C0, 0x4C0, 1, 0x4CF), (0x4C1, 0x4CD, 2, 0x4C2),
   (0x4D0, 0x52E, 2, 0x4D1), (0x531, 0x556, 1, 0x561), (0x10A0, 0x10C5, 1, 0x2D00),
   (0x10C7, 0x10C7, 1, 0x2D27), (0x10CD, 0x10CD, 1, 0x2D2D), (0x13A0, 0x13EF, 1, 0xAB70),
   (0x13F0, 0x13F5, 1, 0x13F8), (0x1C90, 0x1CBA, 1, 0x10D0), (0x1CBD, 0x1CBF, 1, 0x10FD),
   (0x1E00, 0x1E94, 2, 0x1E01), (0x1E9E, 0x1E9E, 1, 0xDF), (0x1EA0, 0x1EFE, 2, 0x1EA1),
   (0x1F08, 0x1F0F, 1, 0x1F00), (0x1F18, 0x1F1D, 1, 0x1F10), (0x1F28, 0x1F2F, 1, 0x1F20),
   (0x1F38, 0x1F3F, 1, 0x1F30), (0x1F48, 0x1F4D, 1, 0x1F40), (0x1F59, 0x1F5F, 2, 0x1F51),
   (0x1F68, 0x1F6F, 1, 0x1F60), (0x1F88, 0x1F8F, 1, 0x1F80), (0x1F98, 0x1F9F, 1, 0x1F90),
   (0x1FA8, 0x1FAF, 1, 0x1FA0), (0x1FB8, 0x1FB9, 1, 0x1FB0), (0x1FBA, 0x1FBB, 1, 0x1F70),
   (0x1FBC, 0x1FBC, 1, 0x1FB3), (0x1FC8, 0x1FCB, 1, 0x1F72), (0x1FCC, 0x1FCC, 1, 0x1FC3),
   (0x1FD8, 0x1FD9, 1, 0x1FD0), (0x1FDA, 0x1FDB, 1, 0x1F76), (0x1FE8, 0x1FE9, 1, 0x1FE0),
   (0x1FEA, 0x1FEB, 1, 0x1F7A), (0x1FEC, 0x1FEC, 1, 0x1FE5), (0x1FF8, 0x1FF9, 1, 0x1F78),
   (0x1FFA, 0x1FFB, 1, 0x1F7C), (0x1FFC, 0x1FFC, 1, 0x1FF3), (0x2126, 0x2126, 1, 0x3C9),
   (0x212A, 0x212A, 1, 0x6B), (0x212B, 0x212B, 1, 0xE5), (0x2132, 0x2132, 1, 0x214E),
   (0x2160, 0x216F, 1, 0x2170), (0x2183, 0x2183, 1, 0x2184), (0x24B6, 0x24CF, 1, 0x24D0),
   (0x2C00, 0x2C2F, 1, 0x2C30), (0x2C60, 0x2C60, 1, 0x2C61), (0x2C62, 0x2C62, 1, 0x26B),
   (0x2C63, 0x2C63, 1, 0x1D7D), (0x2C64, 0x2C64, 1, 0x27D), (0x2C67, 0x2C6B, 2, 0x2C68),
   (0x2C6D, 0x2C6D, 1, 0x251), (0x2C6E, 0x2C6E, 1, 0x271), (0x2C6F, 0x2C6F, 1, 0x250),
   (0x2C70, 0x2C70, 1, 0x252), (0x2C72, 0x2C72, 1, 0x2C73), (0x2C75, 0x2C75, 1, 0x2C76),
   (0x2C7E, 0x2C7F, 1, 0x23F), (0x2C80, 0x2CE2, 2, 0x2C81), (0x2CEB, 0x2CED, 2, 0x2CEC),
   (0x2CF2, 0x2CF2, 1, 0x2CF3), (0xA640, 0xA66C, 2, 0xA641), (0xA680, 0xA69A, 2, 0xA681),
   (0xA722, 0xA72E, 2, 0xA723), (0xA732, 0xA76E, 2, 0xA733), (0xA779, 0xA77B, 2, 0xA77A),
   (0xA77D, 0xA77D, 1, 0x1D79), (0xA77E, 0xA786, 2, 0xA77F), (0xA78B, 0xA78B, 1, 0xA78C),
   (0xA78D, 0xA78D, 1, 0x265), (0xA790, 0xA792, 2, 0xA791), (0xA796, 0xA7A8, 2, 0xA797),
   (0xA7AA, 0xA7AA, 1, 0x266), (0xA7AB, 0xA7AB, 1, 0x25C), (0xA7AC, 0xA7AC, 1, 0x261),
   (0xA7AD, 0xA7AD, 1, 0x26C), (0xA7AE, 0xA7AE, 1, 0x26A), (0xA7B0, 0xA7B0, 1, 0x29E),
   (0xA7B1, 0xA7B1, 1, 0x287), (0xA7B2, 0xA7B2, 1, 0x29D), (0xA7B3, 0xA7B3, 1, 0xAB53),
   (0xA7B4, 0xA7C2, 2, 0xA7B5), (0xA7C4, 0xA7C4, 1, 0xA794), (0xA7C5, 0xA7C5, 1, 0x282),
   (0xA7C6, 0xA7C6, 1, 0x1D8E), (0xA7C7, 0xA7C9, 2, 0xA7C8), (0xA7D0, 0xA7D0, 1, 0xA7D1),
   (0xA7D6, 0xA7D8, 2, 0xA7D7), (0xA7F5, 0xA7F5, 1, 0xA7F6), (0xFF21, 0xFF3A, 1, 0xFF41),
   (0x10400, 0x10427, 1, 0x10428), (0x104B0, 0x104D3, 1, 0x104D8), (0x10570, 0x1057A, 1, 0x10597),
   (0x1057C, 0x1058A, 1, 0x105A3), (0x1058C, 0x10592, 1, 0x105B3), (0x10594, 0x10595, 1, 0x105BB),
   (0x10C80, 0x10CB2, 1, 0x10CC0), (0x118A0, 0x118BF, 1, 0x118C0), (0x16E40, 0x16E5F, 1, 0x16E60),
   (0x1E900, 0x1E921, 1, 0x1E922)]

/-- The library function `unicode.ToLower`: below `0x80` the letters `A`..`Z`
go to `a`..`z`, from `0x80` on the table decides. -/
def unicodeToLower (c : Char) : Char :=
  if c.toNat < 128 then c.toLower
  else
    match lowerRanges.find? fun r =>
        decide (r.1 ≤ c.toNat ∧ c.toNat ≤ r.2.1 ∧ (c.toNat - r.1) % r.2.2.1 = 0) with
    | some r => Char.ofNat (r.2.2.2 + (c.toNat - r.1))
    | none => c

/-- The library function `strings.ToLower`: every character of the string
is replaced by its lower case, `unicode.ToLower` of it.  (A Go string that is
not valid UTF-8 is no `String`; file names are taken to be valid.) -/
def ToLower (s : String) : String := ⟨s.data.map unicodeToLower⟩

/-- The element `s.list[i]`. -/
def sortedFiles.elem (s : sortedFiles) (i : Nat) : FileInfo := s.list.getD i default

/-- The method `Len`. -/
def sortedFiles.Len (s : sortedFiles) : Nat := s.list.length

/-- Lexicographic comparison of two sequences of characters by code point. -/
def lexLess : List Char → List Char → Bool
  | _, [] => false
  | [], _ :: _ => true
  | x :: xs, y :: ys =>
    if x.toNat < y.toNat then true
    else if y.toNat < x.toNat then false
    else lexLess xs ys

/-- The comparison `s < t` of two Go strings. -/
def stringLess (s t : String) : Bool := lexLess s.data t.data

/-- The sort key of an entry: `strings.ToLower(v.Name())`. -/
def lowerName (v : FileInfo) : String := ToLower v.Name

/-- The method `Less`. -/
def sortedFiles.Less (s : sortedFiles) (i j : Nat) : Bool :=
  stringLess (ToLower (s.elem i).Name) (ToLower (s.elem j).Name)

/-- The method `Swap`: `s.list[i], s.list[j] = s.list[j], s.list[i]`. -/
def sortedFiles.Swap (s : sortedFiles) (i j : Nat) : sortedFiles :=
  ⟨(s.list.set i (s.elem j)).set j (s.elem i)⟩


/-! ## The library function `sort.Sort`

`dirTree` sorts with `sort.Sort` of Go's standard library, which reaches the
data only through `Len`, `Less` and `Swap`.  What follows is the algorithm of
package `sort` since Go 1.19 (pattern-defeating quicksort, file
`zsortinterface.go`), with the loops written as recursive functions.  A loop
that is not a plain count-down carries a fuel argument, set by its caller to a
number of iterations the loop cannot exceed; that the fuel is enough shows in
the theorems, which prove the result sorted.  (Releases before 1.19 sort with
another quicksort; the library promises of `sort.Sort` that the result is
sorted, and not that the sort is stable.) -/

/-- Inner loop of `insertionSort`:
`for j := i; j > a && data.Less(j, j-1); j-- { data.Swap(j, j-1) }`. -/
def insertDown (a : Nat) : Nat → sortedFiles → sortedFiles
  | 0, data => data
  | j + 1, data =>
    if j + 1 > a ∧ data.Less (j + 1) j then insertDown a j (data.Swap (j + 1) j) else data

/-- Outer loop of `insertionSort`: `for i := ...; i < b; i++`, from `i` on. -/
def insertionSortLoop (a b : Nat) : Nat → Nat → sortedFiles → sortedFiles
  | 0, _, data => data
  | fuel + 1, i, data =>
    if i < b then insertionSortLoop a b fuel (i + 1) (insertDown a i data) else data

/-- The function `insertionSort`: sorts `data[a:b]`. -/
def insertionSort (data : sortedFiles) (a b : Nat) : sortedFiles :=
  insertionSortLoop a b (b - a) (a + 1) data

/-- The function `siftDown` (its `lo` is the starting `root`). -/
def siftDown (hi first : Nat) : Nat → Nat → sortedFiles → sortedFiles
  | 0, _, data => data
  | fuel + 1, root, data =>
    let child := 2 * root + 1
    if child ≥ hi then data
    else
      let child :=
        if child + 1 < hi ∧ data.Less (first + child) (first + child + 1) then child + 1
        else child
      if ¬ data.Less (first + root) (first + child) then data
      else siftDown hi first fuel child (data.Swap (first + root) (first + child))

/-- First loop of `heapSort`: `for i := (hi - 1) / 2; i >= 0; i--`, the
argument being `i + 1`. -/
def heapBuild (hi first : Nat) : Nat → sortedFiles → sortedFiles
  | 0, data => data
  | i + 1, data => heapBuild hi first i (siftDown hi first hi i data)

/-- Second loop of `heapSort`: `for i := hi - 1; i >= 0; i--`, the argument
being `i + 1`. -/
def heapPop (first : Nat) : Nat → sortedFiles → sortedFiles
  | 0, data => data
  | i + 1, data => heapPop first i (siftDown i first i 0 (data.Swap first (first + i)))

/-- The function `heapSort`. -/
def heapSort (data : sortedFiles) (a b : Nat) : sortedFiles :=
  let first := a
  let hi := b - a
  heapPop first hi (heapBuild hi first ((hi - 1) / 2 + 1) data)

/-- The type `sortedHint`. -/
inductive sortedHint where
  | unknownHint
  | increasingHint
  | decreasingHint
deriving DecidableEq

/-- The function `order2`; the counter `*swaps` is passed and returned. -/
def order2 (data : sortedFiles) (a b swaps : Nat) : Nat × Nat × Nat :=
  if data.Less b a then (b, a, swaps + 1) else (a, b, swaps)

/-- The function `median`. -/
def median (data : sortedFiles) (a b c swaps : Nat) : Nat × Nat :=
  let (a, b, swaps) := order2 data a b swaps
  let (b, _, swaps) := order2 data b c swaps
  let (_, b, swaps) := order2 data a b swaps
  (b, swaps)

/-- The function `medianAdjacent`. -/
def medianAdjacent (data : sortedFiles) (a swaps : Nat) : Nat × Nat :=
  median data (a - 1) a (a + 1) swaps

/-- The function `choosePivot`. -/
def choosePivot (data : sortedFiles) (a b : Nat) : Nat × sortedHint :=
  let shortestNinther := 50
  let maxSwaps := 4 * 3
  let l := b - a
  let swaps := 0
  let i := a + l / 4 * 1
  let j := a + l / 4 * 2
  let k := a + l / 4 * 3
  let (j, swaps) :=
    if l ≥ 8 then
      if l ≥ shortestNinther then
        let (i, swaps) := medianAdjacent data i swaps
        let (j, swaps) := medianAdjacent data j swaps
        let (k, swaps) := medianAdjacent data k swaps
        median data i j k swaps
      else median data i j k swaps
    else (j, swaps)
  if swaps = 0 then (j, sortedHint.increasingHint)
  else if swaps = maxSwaps then (j, sortedHint.decreasingHint)
  else (j, sortedHint.unknownHint)

/-- Loop of `reverseRange`: `for i < j { data.Swap(i, j); i++; j-- }`. -/
def reverseLoop : Nat → Nat → Nat → sortedFiles → sortedFiles
  | 0, _, _, data => data
  | fuel + 1, i, j, data =>
    if i < j then reverseLoop fuel (i + 1) (j - 1) (data.Swap i j) else data

/-- The function `reverseRange`. -/
def reverseRange (data : sortedFiles) (a b : Nat) : sortedFiles :=
  reverseLoop (b - a) a (b - 1) data

/-- The method `Next` of `xorshift` (the state is a `uint64`).  It only
decides which elements `breakPatterns` exchanges. -/
def xorshiftNext (r : Nat) : Nat :=
  let r := r ^^^ (r <<< 13 % 2 ^ 64)
  let r := r ^^^ (r >>> 7)
  let r := r ^^^ (r <<< 17 % 2 ^ 64)
  r

/-- Number of binary digits of `x`, by halving at most `fuel` times. -/
def bitsLenAux : Nat → Nat → Nat
  | 0, _ => 0
  | fuel + 1, x => if x = 0 then 0 else bitsLenAux fuel (x / 2) + 1

/-- The library function `bits.Len`: the number of bits needed to write `x`. -/
def bitsLen (x : Nat) : Nat := bitsLenAux x x

/-- The function `nextPowerOfTwo`. -/
def nextPowerOfTwo (length : Nat) : Nat := 1 <<< bitsLen length

/-- Loop of `breakPatterns`: `for i := 0; i < 3; i++`, with `3 - i` rounds
left.  Round `i` exchanges the element at `idx + i`, one of the three around
the middle `a + (length/4)*2` from which `choosePivot` takes a candidate, with
the element at `a + other`. -/
def breakLoop (a length modulus idx : Nat) : Nat → Nat → Nat → sortedFiles → sortedFiles
  | 0, _, _, data => data
  | left + 1, i, random, data =>
    let random := xorshiftNext random
    let other := random &&& (modulus - 1)
    let other := if other ≥ length then other - length else other
    breakLoop a length modulus idx left (i + 1) random (data.Swap (idx + i) (a + other))

/-- The function `breakPatterns`. -/
def breakPatterns (data : sortedFiles) (a b : Nat) : sortedFiles :=
  let length := b - a
  if length ≥ 8 then
    let random := length
    let modulus := nextPowerOfTwo length
    let idx := a + (length / 4) * 2 - 1
    breakLoop a length modulus idx 3 0 random data
  else data

/-- The loop `for i < b && !data.Less(i, i-1) { i++ }` of
`partialInsertionSort`. -/
def scanSorted (data : sortedFiles) (b : Nat) : Nat → Nat → Nat
  | 0, i => i
  | fuel + 1, i => if i < b ∧ ¬ data.Less i (i - 1) then scanSorted data b fuel (i + 1) else i

/-- The loop `for j := i - 1; j >= 1; j--` of `partialInsertionSort`, which
breaks when `!data.Less(j, j-1)` and swaps otherwise; the argument is `j`. -/
def shiftLeft : Nat → sortedFiles → sortedFiles
  | 0, data => data
  | j + 1, data => if ¬ data.Less (j + 1) j then data else shiftLeft j (data.Swap (j + 1) j)

/-- The loop `for j := i + 1; j < b; j++` of `partialInsertionSort`, which
breaks when `!data.Less(j, j-1)` and swaps otherwise. -/
def shiftRight (b : Nat) : Nat → Nat → sortedFiles → sortedFiles
  | 0, _, data => data
  | fuel + 1, j, data =>
    if j < b then
      if ¬ data.Less j (j - 1) then data
      else shiftRight b fuel (j + 1) (data.Swap j (j - 1))
    else data

/-- Outer loop of `partialInsertionSort`: `for j := 0; j < maxSteps; j++`,
with `maxSteps - j` rounds left. -/
def partialInsertionLoop (a b : Nat) : Nat → Nat → sortedFiles → sortedFiles × Bool
  | 0, _, data => (data, false)
  | left + 1, i, data =>
    let shortestShifting := 50
    let i := scanSorted data b (b - a) i
    if i = b then (data, true)
    else if b - a < shortestShifting then (data, false)
    else
      let data := data.Swap i (i - 1)
      let data := if i - a ≥ 2 then shiftLeft (i - 1) data else data
      let data := if b - i ≥ 2 then shiftRight b (b - a) (i + 1) data else data
      partialInsertionLoop a b left i data

/-- The function `partialInsertionSort`. -/
def partialInsertionSort (data : sortedFiles) (a b : Nat) : sortedFiles × Bool :=
  let maxSteps := 5
  partialInsertionLoop a b maxSteps (a + 1) data

/-- The loop `for i <= j && data.Less(i, a) { i++ }`. -/
def scanLess (data : sortedFiles) (a j : Nat) : Nat → Nat → Nat
  | 0, i => i
  | fuel + 1, i => if i ≤ j ∧ data.Less i a then scanLess data a j fuel (i + 1) else i

/-- The loop `for i <= j && !data.Less(j, a) { j-- }`. -/
def scanNotLess (data : sortedFiles) (a i : Nat) : Nat → Nat → Nat
  | 0, j => j
  | fuel + 1, j => if i ≤ j ∧ ¬ data.Less j a then scanNotLess data a i fuel (j - 1) else j

/-- The loop `for i <= j && !data.Less(a, i) { i++ }`. -/
def scanNotGreater (data : sortedFiles) (a j : Nat) : Nat → Nat → Nat
  | 0, i => i
  | fuel + 1, i => if i ≤ j ∧ ¬ data.Less a i then scanNotGreater data a j fuel (i + 1) else i

/-- The loop `for i <= j && data.Less(a, j) { j-- }`. -/
def scanGreater (data : sortedFiles) (a i : Nat) : Nat → Nat → Nat
  | 0, j => j
  | fuel + 1, j => if i ≤ j ∧ data.Less a j then scanGreater data a i fuel (j - 1) else j

/-- The endless `for` loop of `partition`; returns the data and the final `j`. -/
def partitionLoop (a b : Nat) : Nat → Nat → Nat → sortedFiles → sortedFiles × Nat
  | 0, _, j, data => (data, j)
  | fuel + 1, i, j, data =>
    let i := scanLess data a j (b - a) i
    let j := scanNotLess data a i (b - a) j
    if i > j then (data, j)
    else partitionLoop a b fuel (i + 1) (j - 1) (data.Swap i j)

/-- The function `partition`; returns the data, `newpivot` and
`alreadyPartitioned`. -/
def partition (data : sortedFiles) (a b pivot : Nat) : sortedFiles × Nat × Bool :=
  let data := data.Swap a pivot
  let i := a + 1
  let j := b - 1
  let i := scanLess data a j (b - a) i
  let j := scanNotLess data a i (b - a) j
  if i > j then (data.Swap j a, j, true)
  else
    let data := data.Swap i j
    let i := i + 1
    let j := j - 1
    let (data, j) := partitionLoop a b (b - a) i j data
    (data.Swap j a, j, false)

/-- The `for` loop of `partitionEqual`; returns the data and the final `i`. -/
def partitionEqualLoop (a b : Nat) : Nat → Nat → Nat → sortedFiles → sortedFiles × Nat
  | 0, i, _, data => (data, i)
  | fuel + 1, i, j, data =>
    let i := scanNotGreater data a j (b - a) i
    let j := scanGreater data a i (b - a) j
    if i > j then (data, i)
    else partitionEqualLoop a b fuel (i + 1) (j - 1) (data.Swap i j)

/-- The function `partitionEqual`; returns the data and `newpivot`. -/
def partitionEqual (data : sortedFiles) (a b pivot : Nat) : sortedFiles × Nat :=
  let data := data.Swap a pivot
  partitionEqualLoop a b (b - a) (a + 1) (b - 1) data

/-- The function `pdqsort`, with the local variables `wasBalanced` and
`wasPartitioned` of its loop as arguments: a `continue` of the loop is a call
with the current values, the recursive call of the source starts from `true`,
`true`.  Every round shortens `data[a:b]`, so `b - a + 1` is enough fuel. -/
def pdqsort : Nat → sortedFiles → Nat → Nat → Nat → Bool → Bool → sortedFiles
  | 0, data, _, _, _, _, _ => data
  | fuel + 1, data, a, b, limit, wasBalanced, wasPartitioned =>
    let maxInsertion := 12
    let length := b - a
    if length ≤ maxInsertion then insertionSort data a b
    else if limit = 0 then heapSort data a b
    else
      let (data, limit) :=
        if ¬ wasBalanced then (breakPatterns data a b, limit - 1) else (data, limit)
      let (pivot, hint) := choosePivot data a b
      let (data, pivot, hint) :=
        if hint = sortedHint.decreasingHint then
          (reverseRange data a b, (b - 1) - (pivot - a), sortedHint.increasingHint)
        else (data, pivot, hint)
      let (data, done) :=
        if wasBalanced ∧ wasPartitioned ∧ hint = sortedHint.increasingHint then
          partialInsertionSort data a b
        else (data, false)
      if done then data
      else if a > 0 ∧ ¬ data.Less (a - 1) pivot then
        let (data, mid) := partitionEqual data a b pivot
        pdqsort fuel data mid b limit wasBalanced wasPartitioned
      else
        let (data, mid, alreadyPartitioned) := partition data a b pivot
        let wasPartitioned := alreadyPartitioned
        let leftLen := mid - a
        let rightLen := b - mid
        let balanceThreshold := length / 8
        if leftLen < rightLen then
          let wasBalanced := decide (leftLen ≥ balanceThreshold)
          let data := pdqsort fuel data a mid limit true true
          pdqsort fuel data (mid + 1) b limit wasBalanced wasPartitioned
        else
          let wasBalanced := decide (rightLen ≥ balanceThreshold)
          let data := pdqsort fuel data (mid + 1) b limit true true
          pdqsort fuel data a mid limit wasBalanced wasPartitioned

/-- The library function `sort.Sort`. -/
def goSort (data : sortedFiles) : sortedFiles :=
  let n := data.Len
  if n ≤ 1 then data
  else
    let limit := bitsLen n
    pdqsort (n + 1) data 0 n limit true true

/-! ## Printing an entry -/

/-- The library method `FileMode.String` (package `io/fs`): one letter of
`"dalTLDpSugct?"` for every type bit that is set, from bit 31 downwards, or
`-` when none is, followed by the nine permission letters. -/
def FileModeString (m : Nat) : String :=
  let str := "dalTLDpSugct?".data
  let buf := (str.enum.filter fun p => m.testBit (32 - 1 - p.1)).map Prod.snd
  let buf := if buf.length = 0 then ['-'] else buf
  let rwx := "rwxrwxrwx".data
  ⟨buf ++ rwx.enum.map fun p => if m.testBit (9 - 1 - p.1) then p.2 else '-'⟩

/-- The library function `strings.HasPrefix`. -/
def HasPrefix (s pre : String) : Bool := pre.data.isPrefixOf s.data

/-- The library function `strings.Contains`. -/
def Contains (s substr : String) : Bool := s.data.tails.any fun t => substr.data.isPrefixOf t

/-- The verb `%4s`: the text, with spaces before it up to a width of 4. -/
def pad4 (s : String) : String := ⟨List.replicate (4 - s.length) ' ' ++ s.data⟩

/-- The function `dirTreePrint`; `out` is what standard output holds before
the call, the result what it holds after. -/
def dirTreePrint (v : FileInfo) (sep fullPath : String) (flags : flags) (out : List Write) :
    List Write :=
  let colorSet :=
    if v.IsDir then Color.hiBlueBold
    else if HasPrefix (FileModeString v.Mode) "L" then Color.hiCyanBold
    else if Contains (FileModeString v.Mode) "x" then Color.hiGreenBold
    else Color.plain
  let name := if flags.f then fullPath else v.Name
  let out := out ++ [Write.printf sep]
  let out :=
    if flags.h then out ++ [Write.printf ("[" ++ pad4 (formatSize v.Size) ++ "]  ")] else out
  out ++ [Write.println colorSet name]

/-! ## Filtering and walking -/

/-- The function `dirTreeFilter`. -/
def dirTreeFilter (list : List FileInfo) (flags : flags) : List FileInfo :=
  if ¬ flags.d then list
  else list.foldl (fun tmpList v => if v.IsDir then tmpList ++ [v] else tmpList) []

/-- The `for k, v := range sorted.list` loop of `dirTree`, from index `k` on
with the entries `v :: rest` still to visit.  `walk` is the recursive call of
`dirTree`; the state is the counters and standard output.  The two child
prefixes are the literals of the source, in which the second and the third
character are no-break spaces (U+00A0, written `\u00a0` here) and the fourth
is a blank; the two glyphs end in a blank. -/
def dirTreeLoop (walk : String → String → counts × List Write → Option (counts × List Write))
    (dirName sep : String) (flags : flags) (count : Nat) :
    Nat → List FileInfo → counts × List Write → Option (counts × List Write)
  | _, [], st => some st
  | k, v :: rest, (c, out) =>
    let sepNext := if count = 1 ∨ k = count - 1 then "└── " else "├── "
    let fullPath := dirName ++ String.singleton Separator ++ v.Name
    let out := dirTreePrint v (sep ++ sepNext) fullPath flags out
    if v.IsDir then
      let c := { c with dirs := c.dirs + 1 }
      let sepNext := if k = count - 1 then sep ++ " \u00a0\u00a0 " else sep ++ "│\u00a0\u00a0 "
      match walk fullPath sepNext (c, out) with
      | none => none
      | some st => dirTreeLoop walk dirName sep flags count (k + 1) rest st
    else
      dirTreeLoop walk dirName sep flags count (k + 1) rest ({ c with files := c.files + 1 }, out)

/-- The function `dirTree`.  The first argument is the fuel: the number of
nested calls still allowed.  `fs dirName` is the outcome of `os.Open(dirName)`
and `r.Readdir(0)`; on failure the function returns with the state as it was.
(The deferred `r.Close()` is taken to succeed.) -/
def dirTree (fs : FS) : Nat → String → String → flags → counts × List Write →
    Option (counts × List Write)
  | 0, _, _, _, _ => none
  | fuel + 1, dirName, sep, flags, st =>
    match fs dirName with
    | none => some st
    | some d =>
      let sorted : sortedFiles := ⟨[] ++ d⟩
      let sorted := goSort sorted
      let sorted : sortedFiles := ⟨dirTreeFilter sorted.list flags⟩
      let count := sorted.list.length
      dirTreeLoop (fun p s st => dirTree fs fuel p s flags st) dirName sep flags count 0
        sorted.list st

/-- The directories below `dirName` are nested less than `n` deep: a walk
from `dirName` makes fewer than `n` nested calls below the first. -/
def depthWithin (fs : FS) : Nat → String → Bool
  | 0, _ => false
  | n + 1, dirName =>
    match fs dirName with
    | none => true
    | some d =>
      d.all fun v => !v.IsDir || depthWithin fs n (dirName ++ String.singleton Separator ++ v.Name)

/-! ## Vocabulary of the statements -/

/-- The characters of the sort key of the entry at index `i`. -/
def keyAt (s : sortedFiles) (i : Nat) : List Char := (ToLower (s.elem i).Name).data

/-- `data[a:b]` is in ascending order for `Less`: no later element is less
than an earlier one. -/
def SortedOn (a b : Nat) (s : sortedFiles) : Prop :=
  ∀ i j, a ≤ i → i < j → j < b → s.Less j i = false

/-- `s'` comes from `s` by rearranging `data[a:b]`: the list is a permutation,
nothing outside `[a, b)` has moved and every element inside comes from
inside. -/
structure Within (a b : Nat) (s s' : sortedFiles) : Prop where
  len : s'.Len = s.Len
  perm : s'.list.Perm s.list
  outside : ∀ k, k < a ∨ b ≤ k → s'.elem k = s.elem k
  inside : ∀ k, a ≤ k → k < b → ∃ m, a ≤ m ∧ m < b ∧ s'.elem k = s.elem m

/-- The element before `data[a:b]`, when there is one, is not greater than
any element of `data[a:b]`. -/
def LowerBounded (a b : Nat) (s : sortedFiles) : Prop :=
  a = 0 ∨ ∀ k, a ≤ k → k < b → s.Less k (a - 1) = false

/-- The heap condition of `heapSort` on `data[first : first+hi]`, for the
nodes from `lo` on: no node from `lo` on is less than a child of its. -/
def HeapFrom (lo hi first : Nat) (s : sortedFiles) : Prop :=
  ∀ c, c < hi → 1 ≤ c → lo ≤ (c - 1) / 2 → s.Less (first + (c - 1) / 2) (first + c) = false

/-- The list `sorted.list` that the loop of `dirTree` ranges over, when
`Readdir` has delivered the entries `d`: the copy of `d`, sorted by
`sort.Sort`, then filtered by `dirTreeFilter`. -/
def sortedList (d : List FileInfo) (flags : flags) : List FileInfo :=
  dirTreeFilter (goSort ⟨[] ++ d⟩).list flags

/-- The state before any entry is visited: both counters zero, nothing
written. -/
def startState : counts × List Write := (⟨0, 0⟩, [])

/-- The state `st` advanced by an effect `e`: the counters are added, the
writes are appended. -/
def addState (st e : counts × List Write) : counts × List Write :=
  (⟨st.1.dirs + e.1.dirs, st.1.files + e.1.files⟩, st.2 ++ e.2)

/-- The effect of a call that returns: its final state when started from
`startState` (and no effect for a call without result). -/
def resultOf (r : Option (counts × List Write)) : counts × List Write := r.getD startState

/-- The branch glyph of the entry at index `k` of a listing of `count`
entries, as the spec has it: the last entry takes the corner. -/
def glyph (count k : Nat) : String := if k = count - 1 then "└── " else "├── "

/-- The prefix handed to the walk of the directory at index `k` of a listing
of `count` entries visited with prefix `sep`: `sep` followed by a blank, two
no-break spaces (U+00A0) and a blank for the last entry, and by a vertical
bar, two no-break spaces and a blank for any other. -/
def childSep (sep : String) (count k : Nat) : String :=
  if k = count - 1 then sep ++ " \u00a0\u00a0 " else sep ++ "│\u00a0\u00a0 "

/-- The path of the entry `v` of the directory `dirName`. -/
def fullPathOf (dirName : String) (v : FileInfo) : String :=
  dirName ++ String.singleton Separator ++ v.Name

/-- The effect of visiting the entry `v` at index `k`: its line, and for a
directory one more directory and the effect of the walk below it, for any
other entry one more file. -/
def entryEffect (walk : String → String → counts × List Write → Option (counts × List Write))
    (dirName sep : String) (flags : flags) (count k : Nat) (v : FileInfo) :
    counts × List Write :=
  if v.IsDir then
    addState (⟨1, 0⟩, dirTreePrint v (sep ++ glyph count k) (fullPathOf dirName v) flags [])
      (resultOf (walk (fullPathOf dirName v) (childSep sep count k) startState))
  else (⟨0, 1⟩, dirTreePrint v (sep ++ glyph count k) (fullPathOf dirName v) flags [])

/-- The effect of visiting the entries `l`, the first of them at index `k`,
one after the other. -/
def listingEffect (walk : String → String → counts × List Write → Option (counts × List Write))
    (dirName sep : String) (flags : flags) (count : Nat) :
    Nat → List FileInfo → counts × List Write
  | _, [] => startState
  | k, v :: rest =>
    addState (entryEffect walk dirName sep flags count k v)
      (listingEffect walk dirName sep flags count (k + 1) rest)

/-- A write that ends the line of a directory entry: a `Println` through the
colour object of directories. -/
def isDirLine : Write → Bool
  | Write.println Color.hiBlueBold _ => true
  | _ => false

/-- A write that ends the line of an entry that is not a directory. -/
def isFileLine : Write → Bool
  | Write.println Color.hiBlueBold _ => false
  | Write.println _ _ => true
  | _ => false

/-- A write that ends a line. -/
def isLine : Write → Bool
  | Write.println _ _ => true
  | _ => false

/-- The file system in which every path that cannot be opened or listed is a
readable empty directory instead. -/
def readableEmpty (fs : FS) : FS := fun path => some ((fs path).getD [])

/-- The entries of a listing whose sort key is `key`, in the order of the
listing. -/
def withKey (key : String) (l : List FileInfo) : List FileInfo :=
  l.filter fun v => decide (ToLower v.Name = key)

/-- The counters of an effect are the numbers of lines it wrote: `dirs` the
lines of directory entries, `files` the lines of the other entries. -/
def Counted (e : counts × List Write) : Prop :=
  e.1.dirs = e.2.countP isDirLine ∧ e.1.files = e.2.countP isFileLine

/-- A walk started from any state does what it does from the start state,
on top of that state. -/
def Framed (walk : String → String → counts × List Write → Option (counts × List Write)) :
    Prop :=
  ∀ p s st, walk p s st = (walk p s startState).map (addState st)

/-! ## Example data -/

/-- An entry that is a regular file of the given name, size 0. -/
def plainFile (name : String) : FileInfo := ⟨name, 0, 0o644, false⟩

/-- A listing of 13 names in which `m` is delivered before `M`. -/
def listing13 : List FileInfo :=
  ["l", "m", "M", "k", "j", "i", "h", "g", "f", "e", "d", "c", "b"].map plainFile

/-- The entries of the directory `.` of `exampleFS`, as delivered. -/
def exampleRoot : List FileInfo :=
  [⟨"b.txt", 10, 0o644, false⟩, ⟨"A", 4096, 2 ^ 31 + 0o755, true⟩,
    ⟨"locked", 4096, 2 ^ 31 + 0o700, true⟩]

/-- A small file system: the directory `.` holds a file and two directories,
of which `./A` holds one file and `./locked` cannot be read. -/
def exampleFS : FS := fun path =>
  if path = "." then some exampleRoot
  else if path = "./A" then some [⟨"x.sh", 2000, 0o755, false⟩]
  else none

/-- The options `-h` alone. -/
def exampleFlags : flags := ⟨false, true, false⟩

/-! ## The function `main` -/

/-- The function `printError`; `out` is what standard output holds before
the call. -/
def printError (dirName message : String) (out : List Write) : List Write :=
  out ++ [Write.print Color.hiBlueBold dirName, Write.printf (" [" ++ message ++ "]\n\n"),
    Write.printf ("0 directories, 0 files" ++ "\n")]

/-- The function `main`, after `flag.Parse`: `f`, `h`, `d` are the values of
the three options and `args` is `flag.Args()`.  `canOpen` tells whether
`os.Open` succeeds on a path.  The result is the exit status and what was
written to standard output.  (The deferred `r.Close()` is taken to succeed.) -/
def main (canOpen : String → Bool) (fs : FS) (fuel : Nat) (f h d : Bool) (args : List String) :
    Option (Nat × List Write) :=
  let dirName := match args with
    | [] => "."
    | a :: _ => a
  if ¬ canOpen dirName then
    some (1, printError dirName "error opening dir" [])
  else
    let flags : flags := ⟨f, h, d⟩
    let counts : counts := ⟨0, 0⟩
    let out := [Write.println Color.hiBlueBold dirName]
    match dirTree fs fuel dirName "" flags (counts, out) with
    | none => none
    | some (counts, out) =>
      if flags.d then
        some (0, out ++ [Write.printf ("\n" ++ toString counts.dirs ++ " directories\n")])
      else
        some (0, out ++ [Write.printf ("\n" ++ toString counts.dirs ++ " directories, " ++
          toString counts.files ++ " files\n")])

/-- The directory that `main` walks: the first argument, or `.` when there is
none. -/
def rootArg (args : List String) : String :=
  match args with
  | [] => "."
  | a :: _ => a

/-- The summary that ends the output of `main`, as the spec has it. -/
def summaryText (d : Bool) (c : counts) : String :=
  if d then "\n" ++ Nat.repr c.dirs ++ " directories\n"
  else "\n" ++ Nat.repr c.dirs ++ " directories, " ++ Nat.repr c.files ++ " files\n"

/-! ## Vocabulary of the statements on lines, styles and counters -/

/-- The colour object `colorSet` that `dirTreePrint` chooses for the entry
`v`. -/
def colorOf (v : FileInfo) : Color :=
  if v.IsDir then Color.hiBlueBold
  else if HasPrefix (FileModeString v.Mode) "L" then Color.hiCyanBold
  else if Contains (FileModeString v.Mode) "x" then Color.hiGreenBold
  else Color.plain

/-- The entry `v` is as `Readdir` delivers entries on Unix: `IsDir()` is the
bit `ModeDir` (bit 31) of the mode, and the bits `ModeAppend`, `ModeExclusive`
and `ModeTemporary` (bits 30, 29 and 28), which only Plan 9 has, are not
set. -/
def fromReaddir (v : FileInfo) : Bool :=
  (v.Mode.testBit 31 == v.IsDir) && !v.Mode.testBit 30 && !v.Mode.testBit 29 &&
    !v.Mode.testBit 28

/-- An entry that is a symbolic link with all permission bits, the execute
bits among them. -/
def executableLink : FileInfo := ⟨"ln", 0, 2 ^ 27 + 0o777, false⟩

/-- The size annotation that `dirTreePrint` writes under `-h`. -/
def sizeField (v : FileInfo) : String := "[" ++ pad4 (formatSize v.Size) ++ "]  "

/-- The texts of the lines of an output, the text `acc` being written on the
current line already: a line is what is written up to a `Println`, without
the line terminator.  (Text after the last `Println` is no line.) -/
def lineTextsFrom : String → List Write → List String
  | _, [] => []
  | acc, Write.printf t :: rest => lineTextsFrom (acc ++ t) rest
  | acc, Write.print _ t :: rest => lineTextsFrom (acc ++ t) rest
  | acc, Write.println _ t :: rest => (acc ++ t) :: lineTextsFrom "" rest

/-- The texts of the lines of an output. -/
def lineTexts (out : List Write) : List String := lineTextsFrom "" out

/-- An output with the names blanked: every `Println` keeps its colour and
loses its text. -/
def eraseNames (out : List Write) : List Write :=
  out.map fun w =>
    match w with
    | Write.println c _ => Write.println c ""
    | w => w

/-- Two file systems hold the same entries: a path can be listed in both or
in neither, and the two listings of a path are permutations of each other. -/
def SameEntries (fs1 fs2 : FS) : Prop :=
  ∀ p, ((fs1 p).isSome = (fs2 p).isSome) ∧ ∀ a ∈ fs1 p, ∀ b ∈ fs2 p, List.Perm a b

/-- No two entries of one directory have the same sort key. -/
def DistinctKeys (fs : FS) : Prop :=
  ∀ p, ∀ d ∈ fs p, (d.map fun v => ToLower v.Name).Nodup

/-- A directory `.` with the two files `a` and `A`, delivered in this
order. -/
def caseFS : FS := fun path =>
  if path = "." then some [plainFile "a", plainFile "A"] else none

/-- The directory of `caseFS`, delivered in the other order. -/
def caseFSrev : FS := fun path =>
  if path = "." then some [plainFile "A", plainFile "a"] else none

/-- A directory `.` with the two files `é` and `É`, delivered in this
order. -/
def accentFS : FS := fun path =>
  if path = "." then some [plainFile "é", plainFile "É"] else none

/-- The directory of `accentFS`, delivered in the other order. -/
def accentFSrev : FS := fun path =>
  if path = "." then some [plainFile "É", plainFile "é"] else none

/-- A directory `.` whose only entry is the directory `d`, which holds the
file `f`. -/
def lastDirFS : FS := fun path =>
  if path = "." then some [⟨"d", 4096, 2 ^ 31 + 0o755, true⟩]
  else if path = "./d" then some [plainFile "f"]
  else none

/-- The file system `exampleFS` with every listing delivered in reverse. -/
def exampleFSrev : FS := fun path => (exampleFS path).map List.reverse

/-- The number of directories below `dirName`, counted on the listings as
the file system delivers them, `n` levels deep. -/
def dirCount (fs : FS) : Nat → String → Nat
  | 0, _ => 0
  | n + 1, dirName =>
    match fs dirName with
    | none => 0
    | some d =>
      (d.map fun v => if v.IsDir then 1 + dirCount fs n (fullPathOf dirName v) else 0).sum

/-- The number of entries below `dirName` that are not directories, counted
on the listings as the file system delivers them, `n` levels deep. -/
def fileCount (fs : FS) : Nat → String → Nat
  | 0, _ => 0
  | n + 1, dirName =>
    match fs dirName with
    | none => 0
    | some d =>
      (d.map fun v => if v.IsDir then fileCount fs n (fullPathOf dirName v) else 1).sum

/-- The indentation segment below an entry: a blank, two no-break spaces
(U+00A0) and a blank when the entry was the last of its listing, a vertical
bar, two no-break spaces and a blank otherwise. -/
def segment (last : Bool) : String :=
  if last then " \u00a0\u00a0 " else "│\u00a0\u00a0 "

/-- The indentation of an entry whose ancestors, from the outermost on, were
or were not the last entries of their listings. -/
def segsOf (anc : List Bool) : String := String.join (anc.map segment)

/-- The tree as the indentation invariant describes it: the entries of
`dirName` in the order of the walk, each line written behind one segment for
every ancestor in `anc` and one glyph, each directory followed by its own
entries one level deeper. -/
def indentWalk (fs : FS) (flags : flags) : Nat → String → List Bool → List Write
  | 0, _, _ => []
  | n + 1, dirName, anc =>
    match fs dirName with
    | none => []
    | some d =>
      let l := sortedList d flags
      ((l.enum.map fun p =>
        dirTreePrint p.2 (segsOf anc ++ glyph l.length p.1) (fullPathOf dirName p.2) flags [] ++
          if p.2.IsDir then
            indentWalk fs flags n (fullPathOf dirName p.2) (anc ++ [decide (p.1 = l.length - 1)])
          else []).flatten)

/-- An output that consists of whole lines, each of which starts with `p`. -/
def LinesStartWith (p : String) (out : List Write) : Prop :=
  (∀ rest, lineTexts (out ++ rest) = lineTexts out ++ lineTexts rest) ∧
    ∀ t ∈ lineTexts out, HasPrefix t p = true

/-! # Theorems -/

/-! ## The order of the sort keys -/

theorem lexLess_nil_right (a : List Char) : lexLess a [] = false := by
  cases a <;> rfl

theorem lexLess_irrefl (a : List Char) : lexLess a a = false := by
  induction a with
  | nil => rfl
  | cons x xs ih => simp [lexLess, ih]

theorem lexLess_trans : ∀ (a b c : List Char),
    lexLess a b = true → lexLess b c = true → lexLess a c = true := by
  intro a
  induction a with
  | nil =>
    intro b c hab hbc
    cases c with
    | nil => simp [lexLess_nil_right] at hbc
    | cons z zs => rfl
  | cons x xs ih =>
    intro b c hab hbc
    cases b with
    | nil => simp [lexLess] at hab
    | cons y ys =>
      cases c with
      | nil => simp [lexLess] at hbc
      | cons z zs =>
        simp only [lexLess] at hab hbc ⊢
        split_ifs at hab hbc ⊢ <;> first | rfl | omega | exact ih _ _ hab hbc

theorem lexLess_negtrans : ∀ (a b c : List Char),
    lexLess a b = false → lexLess b c = false → lexLess a c = false := by
  intro a
  induction a with
  | nil =>
    intro b c hab hbc
    cases b with
    | nil => exact hbc
    | cons y ys => simp [lexLess] at hab
  | cons x xs ih =>
    intro b c hab hbc
    cases c with
    | nil => rfl
    | cons z zs =>
      cases b with
      | nil => simp [lexLess] at hbc
      | cons y ys =>
        simp only [lexLess] at hab hbc ⊢
        split_ifs at hab hbc ⊢ <;> first | rfl | omega | exact ih _ _ hab hbc

theorem lexLess_asymm (a b : List Char) (h : lexLess a b = true) : lexLess b a = false := by
  cases hba : lexLess b a with
  | false => rfl
  | true =>
    have := lexLess_trans a b a h hba
    rw [lexLess_irrefl] at this
    exact absurd this (by decide)

theorem lexLess_total : ∀ (a b : List Char),
    lexLess a b = false → lexLess b a = false → a = b := by
  intro a
  induction a with
  | nil =>
    intro b hab _
    cases b with
    | nil => rfl
    | cons y ys => simp [lexLess] at hab
  | cons x xs ih =>
    intro b hab hba
    cases b with
    | nil => simp [lexLess] at hba
    | cons y ys =>
      simp only [lexLess] at hab hba
      split_ifs at hab hba with h1 h2
      have hxy : x = y := by
        apply Char.ext
        apply UInt32.ext
        have : x.toNat = y.toNat := by omega
        exact this
      rw [hxy, ih ys hab hba]

/-- The method `Less` compares the sort keys. -/
theorem Less_eq (s : sortedFiles) (i j : Nat) :
    s.Less i j = lexLess (keyAt s i) (keyAt s j) := rfl

theorem Less_irrefl (s : sortedFiles) (i : Nat) : s.Less i i = false := lexLess_irrefl _

/-! ## `Swap` and the frame relation `Within` -/

theorem elem_eq_getElem?_getD (s : sortedFiles) (k : Nat) :
    s.elem k = (s.list[k]?).getD default := by
  simp [sortedFiles.elem]

theorem Len_Swap (s : sortedFiles) (i j : Nat) : (s.Swap i j).Len = s.Len := by
  simp [sortedFiles.Swap, sortedFiles.Len]

theorem elem_Swap (s : sortedFiles) (i j k : Nat) (hi : i < s.Len) (hj : j < s.Len) :
    (s.Swap i j).elem k = if k = j then s.elem i else if k = i then s.elem j else s.elem k := by
  simp only [sortedFiles.Len] at hi hj
  simp only [elem_eq_getElem?_getD, sortedFiles.Swap, List.getElem?_set, List.length_set]
  by_cases h1 : k = j
  · subst h1; simp [hj]
  · by_cases h2 : k = i
    · subst h2; simp [hi, h1, Ne.symm h1]
    · simp [h1, h2, Ne.symm h1, Ne.symm h2]

theorem keyAt_Swap (s : sortedFiles) (i j k : Nat) (hi : i < s.Len) (hj : j < s.Len) :
    keyAt (s.Swap i j) k = if k = j then keyAt s i else if k = i then keyAt s j else keyAt s k := by
  unfold keyAt
  rw [elem_Swap s i j k hi hj]
  split_ifs <;> rfl

theorem count_set_self_le (l : List FileInfo) (i : Nat) (h : i < l.length) (b : FileInfo) :
    (if l[i] == b then 1 else 0) ≤ l.count b := by
  split_ifs with hb
  · have hb' : l[i] = b := by simpa using hb
    have : b ∈ l := hb' ▸ List.getElem_mem h
    exact List.count_pos_iff.2 this
  · exact Nat.zero_le _

theorem perm_Swap (s : sortedFiles) (i j : Nat) (hi : i < s.Len) (hj : j < s.Len) :
    (s.Swap i j).list.Perm s.list := by
  simp only [sortedFiles.Len] at hi hj
  rw [List.perm_iff_count]
  intro b
  have ei : s.elem i = s.list[i] := by
    simp [sortedFiles.elem, List.getElem?_eq_getElem hi]
  have ej : s.elem j = s.list[j] := by
    simp [sortedFiles.elem, List.getElem?_eq_getElem hj]
  simp only [sortedFiles.Swap, ei, ej]
  rw [List.count_set _ _ _ _ (by simpa using hj), List.count_set _ _ _ _ hi]
  have h1 := count_set_self_le s.list i hi b
  have h2 := count_set_self_le s.list j hj b
  by_cases hij : i = j
  · subst hij
    simp only [List.getElem_set_self]
    omega
  · rw [List.getElem_set_ne hij]
    omega

theorem Within.refl (a b : Nat) (s : sortedFiles) : Within a b s s :=
  ⟨rfl, List.Perm.refl _, fun _ _ => rfl, fun k h1 h2 => ⟨k, h1, h2, rfl⟩⟩

theorem Within.trans {a b : Nat} {s s' s'' : sortedFiles}
    (h1 : Within a b s s') (h2 : Within a b s' s'') : Within a b s s'' := by
  refine ⟨h2.len.trans h1.len, h2.perm.trans h1.perm, ?_, ?_⟩
  · intro k hk
    rw [h2.outside k hk, h1.outside k hk]
  · intro k hk1 hk2
    obtain ⟨m, hm1, hm2, e⟩ := h2.inside k hk1 hk2
    obtain ⟨m', hm1', hm2', e'⟩ := h1.inside m hm1 hm2
    exact ⟨m', hm1', hm2', e.trans e'⟩

theorem Within.mono {a b a' b' : Nat} {s s' : sortedFiles}
    (h : Within a b s s') (ha : a' ≤ a) (hb : b ≤ b') : Within a' b' s s' := by
  refine ⟨h.len, h.perm, ?_, ?_⟩
  · intro k hk
    exact h.outside k (by omega)
  · intro k hk1 hk2
    by_cases hin : a ≤ k ∧ k < b
    · obtain ⟨m, hm1, hm2, e⟩ := h.inside k hin.1 hin.2
      exact ⟨m, by omega, by omega, e⟩
    · exact ⟨k, hk1, hk2, h.outside k (by omega)⟩

theorem Within.swap (a b : Nat) (s : sortedFiles) (i j : Nat)
    (hai : a ≤ i) (hib : i < b) (haj : a ≤ j) (hjb : j < b) (hb : b ≤ s.Len) :
    Within a b s (s.Swap i j) := by
  have hi : i < s.Len := by omega
  have hj : j < s.Len := by omega
  refine ⟨Len_Swap s i j, perm_Swap s i j hi hj, ?_, ?_⟩
  · intro k hk
    rw [elem_Swap s i j k hi hj, if_neg (by omega), if_neg (by omega)]
  · intro k hk1 hk2
    rw [elem_Swap s i j k hi hj]
    split_ifs
    · exact ⟨i, hai, hib, rfl⟩
    · exact ⟨j, haj, hjb, rfl⟩
    · exact ⟨k, hk1, hk2, rfl⟩

theorem Within.keyAt_outside {a b : Nat} {s s' : sortedFiles} (h : Within a b s s')
    (k : Nat) (hk : k < a ∨ b ≤ k) : keyAt s' k = keyAt s k := by
  unfold keyAt; rw [h.outside k hk]

theorem Within.keyAt_inside {a b : Nat} {s s' : sortedFiles} (h : Within a b s s')
    (k : Nat) (hk1 : a ≤ k) (hk2 : k < b) : ∃ m, a ≤ m ∧ m < b ∧ keyAt s' k = keyAt s m := by
  obtain ⟨m, hm1, hm2, e⟩ := h.inside k hk1 hk2
  exact ⟨m, hm1, hm2, by unfold keyAt; rw [e]⟩

/-- A bound that holds for every element of the range before a rearrangement
holds for every element after it. -/
theorem Within.forall_keyAt {a b : Nat} {s s' : sortedFiles} (h : Within a b s s')
    (P : List Char → Prop) (hP : ∀ k, a ≤ k → k < b → P (keyAt s k)) :
    ∀ k, a ≤ k → k < b → P (keyAt s' k) := by
  intro k hk1 hk2
  obtain ⟨m, hm1, hm2, e⟩ := h.keyAt_inside k hk1 hk2
  rw [e]; exact hP m hm1 hm2

theorem LowerBounded.within {a b : Nat} {s s' : sortedFiles} (hl : LowerBounded a b s)
    (h : Within a b s s') : LowerBounded a b s' := by
  rcases hl with h0 | hl
  · exact Or.inl h0
  · by_cases h0 : a = 0
    · exact Or.inl h0
    · right
      intro k hk1 hk2
      rw [Less_eq, h.keyAt_outside (a - 1) (by omega)]
      exact h.forall_keyAt (fun x => lexLess x (keyAt s (a - 1)) = false)
        (fun m hm1 hm2 => by simpa [Less_eq] using hl m hm1 hm2) k hk1 hk2

theorem LowerBounded.sub {a b a' b' : Nat} {s : sortedFiles} (hl : LowerBounded a b s)
    (ha : a' = a) (hb : b' ≤ b) : LowerBounded a' b' s := by
  subst ha
  rcases hl with h0 | hl
  · exact Or.inl h0
  · exact Or.inr fun k hk1 hk2 => hl k hk1 (by omega)

theorem SortedOn.within_outside {a b c d : Nat} {s s' : sortedFiles} (hs : SortedOn a b s)
    (h : Within c d s s') (hd : d ≤ a ∨ b ≤ c) : SortedOn a b s' := by
  intro i j hi hij hj
  rw [Less_eq, h.keyAt_outside j (by omega), h.keyAt_outside i (by omega), ← Less_eq]
  exact hs i j hi hij hj

/-! ## `insertionSort` -/

theorem insertDown_spec (a i : Nat) : ∀ (j : Nat) (s : sortedFiles), a ≤ j → j ≤ i → i < s.Len →
    (∀ p q, a ≤ p → p < q → q ≤ i → p ≠ j → q ≠ j → s.Less q p = false) →
    (∀ q, j < q → q ≤ i → s.Less j q = true) →
    Within a (i + 1) s (insertDown a j s) ∧ SortedOn a (i + 1) (insertDown a j s) := by
  intro j
  induction j with
  | zero =>
    intro s _ _ _ h1 h2
    refine ⟨Within.refl _ _ _, ?_⟩
    intro p q hp hpq hq
    by_cases hp0 : p = 0
    · subst hp0
      exact lexLess_asymm _ _ (h2 q hpq (by omega))
    · exact h1 p q hp hpq (by omega) hp0 (by omega)
  | succ j ih =>
    intro s haj hji hi h1 h2
    simp only [insertDown]
    split_ifs with hc
    · -- the element moves one place down
      obtain ⟨hja, hless⟩ := hc
      have hj1 : j + 1 < s.Len := by omega
      have hj0 : j < s.Len := by omega
      have hK : ∀ k, keyAt (s.Swap (j + 1) j) k =
          if k = j then keyAt s (j + 1) else if k = j + 1 then keyAt s j else keyAt s k :=
        fun k => keyAt_Swap s (j + 1) j k hj1 hj0
      have hw : Within a (i + 1) s (s.Swap (j + 1) j) :=
        Within.swap a (i + 1) s (j + 1) j (by omega) (by omega) (by omega) (by omega) (by omega)
      have := ih (s.Swap (j + 1) j) (by omega) (by omega) (by rw [Len_Swap]; exact hi) ?_ ?_
      · exact ⟨hw.trans this.1, this.2⟩
      · intro p q hp hpq hq hpj hqj
        rw [Less_eq, hK, hK, if_neg hqj, if_neg hpj]
        by_cases hq1 : q = j + 1
        · rw [if_pos hq1, if_neg (by omega)]
          have := h1 p j hp (by omega) (by omega) (by omega) (by omega)
          simpa [Less_eq] using this
        · rw [if_neg hq1]
          by_cases hp1 : p = j + 1
          · rw [if_pos hp1]
            have := h1 j q (by omega) (by omega) hq (by omega) hq1
            simpa [Less_eq] using this
          · rw [if_neg hp1]
            have := h1 p q hp hpq hq hp1 hq1
            simpa [Less_eq] using this
      · intro q hjq hq
        rw [Less_eq, hK, hK, if_pos rfl, if_neg (by omega)]
        by_cases hq1 : q = j + 1
        · rw [if_pos hq1]
          simpa [Less_eq] using hless
        · rw [if_neg hq1]
          have := h2 q (by omega) hq
          simpa [Less_eq] using this
    · -- the element stays
      refine ⟨Within.refl _ _ _, ?_⟩
      intro p q hp hpq hq
      by_cases hp1 : p = j + 1
      · subst hp1
        exact lexLess_asymm _ _ (h2 q hpq (by omega))
      · by_cases hq1 : q = j + 1
        · subst hq1
          have hnl : s.Less (j + 1) j = false := by
            by_contra hcon
            exact hc ⟨by omega, by simpa using hcon⟩
          by_cases hpj : p = j
          · subst hpj; exact hnl
          · have := h1 p j hp (by omega) (by omega) (by omega) (by omega)
            rw [Less_eq] at this hnl ⊢
            exact lexLess_negtrans _ _ _ hnl this
        · exact h1 p q hp hpq (by omega) hp1 hq1

theorem insertDown_sorted (a i : Nat) (s : sortedFiles) (hai : a ≤ i) (hi : i < s.Len)
    (hs : SortedOn a i s) :
    Within a (i + 1) s (insertDown a i s) ∧ SortedOn a (i + 1) (insertDown a i s) := by
  apply insertDown_spec a i i s hai (Nat.le_refl _) hi
  · intro p q hp hpq hq _ hqi
    exact hs p q hp hpq (by omega)
  · intro q h1 h2
    omega

theorem insertionSortLoop_spec (a b : Nat) : ∀ (fuel i : Nat) (s : sortedFiles),
    a ≤ i → i ≤ b → b ≤ s.Len → b - i ≤ fuel → SortedOn a i s →
    Within a b s (insertionSortLoop a b fuel i s) ∧ SortedOn a b (insertionSortLoop a b fuel i s) := by
  intro fuel
  induction fuel with
  | zero =>
    intro i s _ hib _ hf hs
    have : i = b := by omega
    subst this
    exact ⟨Within.refl _ _ _, hs⟩
  | succ fuel ih =>
    intro i s hai hib hb hf hs
    simp only [insertionSortLoop]
    split_ifs with hc
    · obtain ⟨hw, hs'⟩ := insertDown_sorted a i s hai (by omega) hs
      have := ih (i + 1) (insertDown a i s) (by omega) (by omega) (by rw [hw.len]; exact hb)
        (by omega) hs'
      exact ⟨(hw.mono (Nat.le_refl _) (by omega)).trans this.1, this.2⟩
    · have : i = b := by omega
      subst this
      exact ⟨Within.refl _ _ _, hs⟩

/-- `insertionSort` sorts `data[a:b]` and touches nothing else. -/
theorem insertionSort_spec (s : sortedFiles) (a b : Nat) (hb : b ≤ s.Len) :
    Within a b s (insertionSort s a b) ∧ SortedOn a b (insertionSort s a b) := by
  unfold insertionSort
  by_cases hab : a + 1 ≤ b
  · apply insertionSortLoop_spec a b (b - a) (a + 1) s (by omega) hab hb (by omega)
    intro p q hp hpq hq
    omega
  · have h0 : b - a = 0 := by omega
    rw [h0]
    simp only [insertionSortLoop]
    exact ⟨Within.refl _ _ _, fun p q hp hpq hq => by omega⟩

/-! ## `partition` -/

theorem scanLess_spec (s : sortedFiles) (a j : Nat) : ∀ (fuel i : Nat), j + 1 - i ≤ fuel →
    i ≤ scanLess s a j fuel i ∧ (i ≤ j + 1 → scanLess s a j fuel i ≤ j + 1) ∧
    (∀ k, i ≤ k → k < scanLess s a j fuel i → s.Less k a = true) ∧
    (scanLess s a j fuel i ≤ j → s.Less (scanLess s a j fuel i) a = false) := by
  intro fuel
  induction fuel with
  | zero =>
    intro i hf
    simp only [scanLess]
    exact ⟨Nat.le_refl _, fun h => h, fun k h1 h2 => by omega, fun h => by omega⟩
  | succ fuel ih =>
    intro i hf
    simp only [scanLess]
    split_ifs with hc
    · obtain ⟨h1, h2, h3, h4⟩ := ih (i + 1) (by omega)
      refine ⟨by omega, fun _ => h2 (by omega), ?_, h4⟩
      intro k hk1 hk2
      by_cases hki : k = i
      · subst hki; exact hc.2
      · exact h3 k (by omega) hk2
    · refine ⟨Nat.le_refl _, fun h => h, fun k h1 h2 => by omega, ?_⟩
      intro hij
      by_contra hcon
      exact hc ⟨hij, by simpa using hcon⟩

theorem scanNotLess_spec (s : sortedFiles) (a i : Nat) (hi : 1 ≤ i) : ∀ (fuel j : Nat),
    j + 1 - i ≤ fuel →
    scanNotLess s a i fuel j ≤ j ∧ (i ≤ j + 1 → i ≤ scanNotLess s a i fuel j + 1) ∧
    (∀ k, scanNotLess s a i fuel j < k → k ≤ j → s.Less k a = false) ∧
    (i ≤ scanNotLess s a i fuel j → s.Less (scanNotLess s a i fuel j) a = true) := by
  intro fuel
  induction fuel with
  | zero =>
    intro j hf
    simp only [scanNotLess]
    exact ⟨Nat.le_refl _, fun h => h, fun k h1 h2 => by omega, fun h => by omega⟩
  | succ fuel ih =>
    intro j hf
    simp only [scanNotLess]
    split_ifs with hc
    · obtain ⟨h1, h2, h3, h4⟩ := ih (j - 1) (by omega)
      refine ⟨by omega, fun _ => h2 (by omega), ?_, h4⟩
      intro k hk1 hk2
      by_cases hkj : k = j
      · subst hkj; simpa using hc.2
      · exact h3 k hk1 (by omega)
    · refine ⟨Nat.le_refl _, fun h => h, fun k h1 h2 => by omega, ?_⟩
      intro hij
      by_contra hcon
      exact hc ⟨hij, by simpa using hcon⟩

theorem partitionLoop_spec (a b : Nat) : ∀ (fuel i j : Nat) (s : sortedFiles),
    a < i → i ≤ j + 1 → j < b → b ≤ s.Len → j + 1 - i < fuel →
    (∀ k, a < k → k < i → s.Less k a = true) →
    (∀ k, j < k → k < b → s.Less k a = false) →
    Within (a + 1) b s (partitionLoop a b fuel i j s).1 ∧
    a ≤ (partitionLoop a b fuel i j s).2 ∧ (partitionLoop a b fuel i j s).2 < b ∧
    (∀ k, a < k → k ≤ (partitionLoop a b fuel i j s).2 →
      (partitionLoop a b fuel i j s).1.Less k a = true) ∧
    (∀ k, (partitionLoop a b fuel i j s).2 < k → k < b →
      (partitionLoop a b fuel i j s).1.Less k a = false) := by
  intro fuel
  induction fuel with
  | zero => intro i j s _ _ _ _ hf; omega
  | succ fuel ih =>
    intro i j s hai hij hjb hb hf hlo hhi
    simp only [partitionLoop]
    obtain ⟨hi1, hi2, hi3, hi4⟩ := scanLess_spec s a j (b - a) i (by omega)
    generalize scanLess s a j (b - a) i = i' at *
    have hi2 := hi2 hij
    obtain ⟨hj1, hj2, hj3, hj4⟩ := scanNotLess_spec s a i' (by omega) (b - a) j (by omega)
    generalize scanNotLess s a i' (b - a) j = j' at *
    have hj2 := hj2 hi2
    have hlo' : ∀ k, a < k → k < i' → s.Less k a = true := by
      intro k hk1 hk2
      by_cases hki : k < i
      · exact hlo k hk1 hki
      · exact hi3 k (by omega) hk2
    have hhi' : ∀ k, j' < k → k < b → s.Less k a = false := by
      intro k hk1 hk2
      by_cases hkj : j < k
      · exact hhi k hkj hk2
      · exact hj3 k hk1 (by omega)
    split_ifs with hc
    · refine ⟨Within.refl _ _ _, by omega, by omega, ?_, hhi'⟩
      intro k hk1 hk2
      exact hlo' k hk1 (by omega)
    · have hle : i' ≤ j' := by omega
      have h4 := hi4 (by omega)
      have h5 := hj4 hle
      have hne : i' ≠ j' := by
        intro he; rw [he] at h4; rw [h4] at h5; exact absurd h5 (by decide)
      have hi'L : i' < s.Len := by omega
      have hj'L : j' < s.Len := by omega
      have hK : ∀ k, keyAt (s.Swap i' j') k =
          if k = j' then keyAt s i' else if k = i' then keyAt s j' else keyAt s k :=
        fun k => keyAt_Swap s i' j' k hi'L hj'L
      have hw : Within (a + 1) b s (s.Swap i' j') :=
        Within.swap (a + 1) b s i' j' (by omega) (by omega) (by omega) (by omega) hb
      have := ih (i' + 1) (j' - 1) (s.Swap i' j') (by omega) (by omega) (by omega)
        (by rw [Len_Swap]; exact hb) (by omega) ?_ ?_
      · exact ⟨hw.trans this.1, this.2⟩
      · intro k hk1 hk2
        rw [Less_eq, hK, hK, if_neg (show ¬ a = j' by omega), if_neg (show ¬ a = i' by omega),
          if_neg (show ¬ k = j' by omega)]
        by_cases hki : k = i'
        · rw [if_pos hki]; simpa [Less_eq] using h5
        · rw [if_neg hki]
          simpa [Less_eq] using hlo' k hk1 (by omega)
      · intro k hk1 hk2
        rw [Less_eq, hK, hK]
        rw [if_neg (show ¬ a = j' by omega), if_neg (show ¬ a = i' by omega)]
        by_cases hkj : k = j'
        · rw [if_pos hkj]; simpa [Less_eq] using h4
        · rw [if_neg hkj, if_neg (show ¬ k = i' by omega)]
          simpa [Less_eq] using hhi' k (by omega) hk2

theorem partition_eq_loop (s : sortedFiles) (a b pivot : Nat) :
    ((partition s a b pivot).1, (partition s a b pivot).2.1) =
      (((partitionLoop a b (b - a + 1) (a + 1) (b - 1) (s.Swap a pivot)).1.Swap
          (partitionLoop a b (b - a + 1) (a + 1) (b - 1) (s.Swap a pivot)).2 a),
        (partitionLoop a b (b - a + 1) (a + 1) (b - 1) (s.Swap a pivot)).2) := by
  simp only [partition, partitionLoop]
  split_ifs <;> rfl

/-- `partition` rearranges `data[a:b]` around the pivot: the elements before
the returned index are less than the element at it, no element after it is. -/
theorem partition_spec (s : sortedFiles) (a b pivot : Nat) (hap : a ≤ pivot) (hpb : pivot < b)
    (hb : b ≤ s.Len) :
    Within a b s (partition s a b pivot).1 ∧
    a ≤ (partition s a b pivot).2.1 ∧ (partition s a b pivot).2.1 < b ∧
    (∀ k, a ≤ k → k < (partition s a b pivot).2.1 →
      (partition s a b pivot).1.Less k (partition s a b pivot).2.1 = true) ∧
    (∀ k, (partition s a b pivot).2.1 < k → k < b →
      (partition s a b pivot).1.Less k (partition s a b pivot).2.1 = false) := by
  have he := partition_eq_loop s a b pivot
  have he1 := congrArg Prod.fst he
  have he2 := congrArg Prod.snd he
  simp only at he1 he2
  rw [he1, he2]
  have hw0 : Within a b s (s.Swap a pivot) :=
    Within.swap a b s a pivot (Nat.le_refl _) (by omega) hap hpb hb
  obtain ⟨hw, h1, h2, h3, h4⟩ := partitionLoop_spec a b (b - a + 1) (a + 1) (b - 1)
    (s.Swap a pivot) (by omega) (by omega) (by omega) (by rw [Len_Swap]; exact hb) (by omega)
    (fun k hk1 hk2 => by omega) (fun k hk1 hk2 => by omega)
  generalize (partitionLoop a b (b - a + 1) (a + 1) (b - 1) (s.Swap a pivot)).1 = s1 at *
  generalize (partitionLoop a b (b - a + 1) (a + 1) (b - 1) (s.Swap a pivot)).2 = mid at *
  have hL1 : s1.Len = s.Len := by rw [hw.len, Len_Swap]
  have hK : ∀ k, keyAt (s1.Swap mid a) k =
      if k = a then keyAt s1 mid else if k = mid then keyAt s1 a else keyAt s1 k :=
    fun k => keyAt_Swap s1 mid a k (by omega) (by omega)
  refine ⟨?_, h1, h2, ?_, ?_⟩
  · exact (hw0.trans (hw.mono (by omega) (Nat.le_refl _))).trans
      (Within.swap a b s1 mid a h1 h2 (Nat.le_refl _) (by omega) (by omega))
  · intro k hk1 hk2
    rw [Less_eq, hK, hK]
    have hma : ¬ mid = a := by omega
    rw [if_neg hma, if_pos rfl]
    by_cases hka : k = a
    · rw [if_pos hka]
      simpa [Less_eq] using h3 mid (by omega) (Nat.le_refl _)
    · rw [if_neg hka, if_neg (show ¬ k = mid by omega)]
      simpa [Less_eq] using h3 k (by omega) (by omega)
  · intro k hk1 hk2
    rw [Less_eq, hK, hK, if_neg (show ¬ k = a by omega), if_neg (show ¬ k = mid by omega)]
    by_cases hma : mid = a
    · rw [if_pos hma, hma]
      simpa [Less_eq] using h4 k hk1 hk2
    · rw [if_neg hma, if_pos rfl]
      simpa [Less_eq] using h4 k hk1 hk2

/-! ## `partitionEqual` -/

theorem scanNotGreater_spec (s : sortedFiles) (a j : Nat) : ∀ (fuel i : Nat), j + 1 - i ≤ fuel →
    i ≤ scanNotGreater s a j fuel i ∧ (i ≤ j + 1 → scanNotGreater s a j fuel i ≤ j + 1) ∧
    (∀ k, i ≤ k → k < scanNotGreater s a j fuel i → s.Less a k = false) ∧
    (scanNotGreater s a j fuel i ≤ j → s.Less a (scanNotGreater s a j fuel i) = true) := by
  intro fuel
  induction fuel with
  | zero =>
    intro i hf
    simp only [scanNotGreater]
    exact ⟨Nat.le_refl _, fun h => h, fun k h1 h2 => by omega, fun h => by omega⟩
  | succ fuel ih =>
    intro i hf
    simp only [scanNotGreater]
    split_ifs with hc
    · obtain ⟨h1, h2, h3, h4⟩ := ih (i + 1) (by omega)
      refine ⟨by omega, fun _ => h2 (by omega), ?_, h4⟩
      intro k hk1 hk2
      by_cases hki : k = i
      · subst hki; simpa using hc.2
      · exact h3 k (by omega) hk2
    · refine ⟨Nat.le_refl _, fun h => h, fun k h1 h2 => by omega, ?_⟩
      intro hij
      by_contra hcon
      exact hc ⟨hij, by simpa using hcon⟩

theorem scanGreater_spec (s : sortedFiles) (a i : Nat) (hi : 1 ≤ i) : ∀ (fuel j : Nat),
    j + 1 - i ≤ fuel →
    scanGreater s a i fuel j ≤ j ∧ (i ≤ j + 1 → i ≤ scanGreater s a i fuel j + 1) ∧
    (∀ k, scanGreater s a i fuel j < k → k ≤ j → s.Less a k = true) ∧
    (i ≤ scanGreater s a i fuel j → s.Less a (scanGreater s a i fuel j) = false) := by
  intro fuel
  induction fuel with
  | zero =>
    intro j hf
    simp only [scanGreater]
    exact ⟨Nat.le_refl _, fun h => h, fun k h1 h2 => by omega, fun h => by omega⟩
  | succ fuel ih =>
    intro j hf
    simp only [scanGreater]
    split_ifs with hc
    · obtain ⟨h1, h2, h3, h4⟩ := ih (j - 1) (by omega)
      refine ⟨by omega, fun _ => h2 (by omega), ?_, h4⟩
      intro k hk1 hk2
      by_cases hkj : k = j
      · subst hkj; exact hc.2
      · exact h3 k hk1 (by omega)
    · refine ⟨Nat.le_refl _, fun h => h, fun k h1 h2 => by omega, ?_⟩
      intro hij
      by_contra hcon
      exact hc ⟨hij, by simpa using hcon⟩

theorem partitionEqualLoop_spec (a b : Nat) : ∀ (fuel i j : Nat) (s : sortedFiles),
    a < i → i ≤ j + 1 → j < b → b ≤ s.Len → j + 1 - i < fuel →
    (∀ k, a < k → k < i → s.Less a k = false) →
    (∀ k, j < k → k < b → s.Less a k = true) →
    Within (a + 1) b s (partitionEqualLoop a b fuel i j s).1 ∧
    a < (partitionEqualLoop a b fuel i j s).2 ∧ (partitionEqualLoop a b fuel i j s).2 ≤ b ∧
    (∀ k, a < k → k < (partitionEqualLoop a b fuel i j s).2 →
      (partitionEqualLoop a b fuel i j s).1.Less a k = false) ∧
    (∀ k, (partitionEqualLoop a b fuel i j s).2 ≤ k → k < b →
      (partitionEqualLoop a b fuel i j s).1.Less a k = true) := by
  intro fuel
  induction fuel with
  | zero => intro i j s _ _ _ _ hf; omega
  | succ fuel ih =>
    intro i j s hai hij hjb hb hf hlo hhi
    simp only [partitionEqualLoop]
    obtain ⟨hi1, hi2, hi3, hi4⟩ := scanNotGreater_spec s a j (b - a) i (by omega)
    generalize scanNotGreater s a j (b - a) i = i' at *
    have hi2 := hi2 hij
    obtain ⟨hj1, hj2, hj3, hj4⟩ := scanGreater_spec s a i' (by omega) (b - a) j (by omega)
    generalize scanGreater s a i' (b - a) j = j' at *
    have hj2 := hj2 hi2
    have hlo' : ∀ k, a < k → k < i' → s.Less a k = false := by
      intro k hk1 hk2
      by_cases hki : k < i
      · exact hlo k hk1 hki
      · exact hi3 k (by omega) hk2
    have hhi' : ∀ k, j' < k → k < b → s.Less a k = true := by
      intro k hk1 hk2
      by_cases hkj : j < k
      · exact hhi k hkj hk2
      · exact hj3 k hk1 (by omega)
    split_ifs with hc
    · refine ⟨Within.refl _ _ _, by omega, by omega, hlo', ?_⟩
      intro k hk1 hk2
      exact hhi' k (by omega) hk2
    · have hle : i' ≤ j' := by omega
      have h4 := hi4 (by omega)
      have h5 := hj4 hle
      have hne : i' ≠ j' := by
        intro he; rw [he] at h4; rw [h4] at h5; exact absurd h5 (by decide)
      have hi'L : i' < s.Len := by omega
      have hj'L : j' < s.Len := by omega
      have hK : ∀ k, keyAt (s.Swap i' j') k =
          if k = j' then keyAt s i' else if k = i' then keyAt s j' else keyAt s k :=
        fun k => keyAt_Swap s i' j' k hi'L hj'L
      have hw : Within (a + 1) b s (s.Swap i' j') :=
        Within.swap (a + 1) b s i' j' (by omega) (by omega) (by omega) (by omega) hb
      have := ih (i' + 1) (j' - 1) (s.Swap i' j') (by omega) (by omega) (by omega)
        (by rw [Len_Swap]; exact hb) (by omega) ?_ ?_
      · exact ⟨hw.trans this.1, this.2⟩
      · intro k hk1 hk2
        rw [Less_eq, hK, hK, if_neg (show ¬ a = j' by omega), if_neg (show ¬ a = i' by omega),
          if_neg (show ¬ k = j' by omega)]
        by_cases hki : k = i'
        · rw [if_pos hki]; simpa [Less_eq] using h5
        · rw [if_neg hki]
          simpa [Less_eq] using hlo' k hk1 (by omega)
      · intro k hk1 hk2
        rw [Less_eq, hK, hK]
        rw [if_neg (show ¬ a = j' by omega), if_neg (show ¬ a = i' by omega)]
        by_cases hkj : k = j'
        · rw [if_pos hkj]; simpa [Less_eq] using h4
        · rw [if_neg hkj, if_neg (show ¬ k = i' by omega)]
          simpa [Less_eq] using hhi' k (by omega) hk2

/-- `partitionEqual`, on a range with no element less than the pivot, puts
the elements equal to the pivot first and the greater ones after them. -/
theorem partitionEqual_spec (s : sortedFiles) (a b pivot : Nat) (hap : a ≤ pivot)
    (hpb : pivot < b) (hb : b ≤ s.Len)
    (hge : ∀ k, a ≤ k → k < b → s.Less k pivot = false) :
    Within a b s (partitionEqual s a b pivot).1 ∧
    a < (partitionEqual s a b pivot).2 ∧ (partitionEqual s a b pivot).2 ≤ b ∧
    SortedOn a (partitionEqual s a b pivot).2 (partitionEqual s a b pivot).1 ∧
    (∀ p q, a ≤ p → p < (partitionEqual s a b pivot).2 → (partitionEqual s a b pivot).2 ≤ q →
      q < b → (partitionEqual s a b pivot).1.Less q p = false) := by
  simp only [partitionEqual]
  have hw0 : Within a b s (s.Swap a pivot) :=
    Within.swap a b s a pivot (Nat.le_refl _) (by omega) hap hpb hb
  have hK0 : keyAt (s.Swap a pivot) a = keyAt s pivot := by
    rw [keyAt_Swap s a pivot a (by omega) (by omega)]
    by_cases h : a = pivot
    · rw [if_pos h, h]
    · rw [if_neg h, if_pos rfl]
  obtain ⟨hw, h1, h2, h3, h4⟩ := partitionEqualLoop_spec a b (b - a) (a + 1) (b - 1)
    (s.Swap a pivot) (by omega) (by omega) (by omega) (by rw [Len_Swap]; exact hb) (by omega)
    (fun k hk1 hk2 => by omega) (fun k hk1 hk2 => by omega)
  generalize (partitionEqualLoop a b (b - a) (a + 1) (b - 1) (s.Swap a pivot)).1 = s1 at *
  generalize (partitionEqualLoop a b (b - a) (a + 1) (b - 1) (s.Swap a pivot)).2 = mid at *
  have hwa : Within a b s s1 := hw0.trans (hw.mono (by omega) (Nat.le_refl _))
  have hKa : keyAt s1 a = keyAt s pivot := by
    rw [hw.keyAt_outside a (by omega), hK0]
  -- every element of the range is at least the pivot
  have hge1 : ∀ k, a ≤ k → k < b → lexLess (keyAt s1 k) (keyAt s1 a) = false := by
    rw [hKa]
    exact hwa.forall_keyAt (fun x => lexLess x (keyAt s pivot) = false)
      (fun m hm1 hm2 => by simpa [Less_eq] using hge m hm1 hm2)
  -- the elements before `mid` are at most the pivot
  have hle1 : ∀ k, a ≤ k → k < mid → lexLess (keyAt s1 a) (keyAt s1 k) = false := by
    intro k hk1 hk2
    by_cases hka : k = a
    · rw [hka]; exact lexLess_irrefl _
    · simpa [Less_eq] using h3 k (by omega) hk2
  refine ⟨hwa, h1, h2, ?_, ?_⟩
  · intro p q hp hpq hq
    rw [Less_eq]
    exact lexLess_negtrans _ _ _ (hge1 q (by omega) (by omega)) (hle1 p hp (by omega))
  · intro p q hp hpm hmq hq
    rw [Less_eq]
    cases hqp : lexLess (keyAt s1 q) (keyAt s1 p) with
    | false => rfl
    | true =>
      have hlt : lexLess (keyAt s1 a) (keyAt s1 q) = true := by
        simpa [Less_eq] using h4 q hmq hq
      have := lexLess_trans _ _ _ hlt hqp
      rw [hle1 p hp hpm] at this
      exact absurd this (by decide)

/-! ## `partialInsertionSort` -/

theorem scanSorted_spec (s : sortedFiles) (b : Nat) : ∀ (fuel i : Nat), b - i ≤ fuel →
    i ≤ scanSorted s b fuel i ∧ (i ≤ b → scanSorted s b fuel i ≤ b) ∧
    (∀ k, i ≤ k → k < scanSorted s b fuel i → s.Less k (k - 1) = false) ∧
    (scanSorted s b fuel i < b → s.Less (scanSorted s b fuel i) (scanSorted s b fuel i - 1) = true) := by
  intro fuel
  induction fuel with
  | zero =>
    intro i hf
    simp only [scanSorted]
    exact ⟨Nat.le_refl _, fun h => h, fun k h1 h2 => by omega, fun h => by omega⟩
  | succ fuel ih =>
    intro i hf
    simp only [scanSorted]
    split_ifs with hc
    · obtain ⟨h1, h2, h3, h4⟩ := ih (i + 1) (by omega)
      refine ⟨by omega, fun _ => h2 (by omega), ?_, h4⟩
      intro k hk1 hk2
      by_cases hki : k = i
      · subst hki; simpa using hc.2
      · exact h3 k (by omega) hk2
    · refine ⟨Nat.le_refl _, fun h => h, fun k h1 h2 => by omega, ?_⟩
      intro hib
      by_contra hcon
      exact hc ⟨hib, by simpa using hcon⟩

/-- A sorted prefix grows along adjacent pairs that are in order. -/
theorem SortedOn.extend {a i : Nat} {s : sortedFiles} (hs : SortedOn a i s) (hai : a < i)
    (r : Nat) (hadj : ∀ k, i ≤ k → k < r → s.Less k (k - 1) = false) : SortedOn a r s := by
  intro p q hp hpq hq
  induction q using Nat.strong_induction_on with
  | _ q ih =>
    by_cases hqi : q < i
    · exact hs p q hp hpq hqi
    · have h1 := hadj q (by omega) hq
      by_cases hpq1 : p = q - 1
      · rw [hpq1]; exact h1
      · have h2 := ih (q - 1) (by omega) (by omega) (by omega)
        rw [Less_eq] at h1 h2 ⊢
        exact lexLess_negtrans _ _ _ h1 h2

theorem shiftLeft_eq_insertDown (a : Nat) : ∀ (j : Nat) (s : sortedFiles), a ≤ j → j < s.Len →
    (a = 0 ∨ ∀ k, a ≤ k → k ≤ j → s.Less k (a - 1) = false) →
    shiftLeft j s = insertDown a j s := by
  intro j
  induction j with
  | zero => intro s _ _ _; rfl
  | succ j ih =>
    intro s haj hj hl
    simp only [shiftLeft, insertDown]
    by_cases hja : j + 1 > a
    · by_cases hless : s.Less (j + 1) j = true
      · rw [if_neg (by simpa using hless), if_pos ⟨hja, hless⟩]
        apply ih _ (by omega) (by rw [Len_Swap]; omega)
        rcases hl with h0 | hl
        · exact Or.inl h0
        · by_cases h0 : a = 0
          · exact Or.inl h0
          · right
            intro k hk1 hk2
            have hK := fun k => keyAt_Swap s (j + 1) j k hj (by omega)
            rw [Less_eq, hK, hK, if_neg (show ¬ a - 1 = j by omega),
              if_neg (show ¬ a - 1 = j + 1 by omega)]
            by_cases hkj : k = j
            · rw [if_pos hkj]
              simpa [Less_eq] using hl (j + 1) (by omega) (by omega)
            · rw [if_neg hkj, if_neg (show ¬ k = j + 1 by omega)]
              simpa [Less_eq] using hl k hk1 (by omega)
      · rw [if_pos (by simpa using hless), if_neg (fun h => hless h.2)]
    · have ha : a = j + 1 := by omega
      rcases hl with h0 | hl
      · omega
      · have := hl (j + 1) (by omega) (by omega)
        rw [ha] at this
        simp only [Nat.add_sub_cancel] at this
        rw [if_pos (by simpa using this), if_neg (fun h => hja h.1)]

theorem shiftRight_spec (i b : Nat) : ∀ (fuel j : Nat) (s : sortedFiles), i < j → b ≤ s.Len →
    Within i b s (shiftRight b fuel j s) := by
  intro fuel
  induction fuel with
  | zero => intro j s _ _; exact Within.refl _ _ _
  | succ fuel ih =>
    intro j s hij hb
    simp only [shiftRight]
    by_cases h1 : j < b
    · rw [if_pos h1]
      by_cases h2 : s.Less j (j - 1) = true
      · rw [if_neg (by simpa using h2)]
        have hw : Within i b s (s.Swap j (j - 1)) :=
          Within.swap i b s j (j - 1) (by omega) h1 (by omega) (by omega) hb
        exact hw.trans (ih (j + 1) _ (by omega) (by rw [Len_Swap]; exact hb))
      · rw [if_pos (by simpa using h2)]
        exact Within.refl _ _ _
    · rw [if_neg h1]
      exact Within.refl _ _ _

theorem partialInsertionLoop_spec (a b : Nat) : ∀ (left i : Nat) (s : sortedFiles),
    a < i → i ≤ b → b ≤ s.Len → SortedOn a i s → LowerBounded a b s →
    Within a b s (partialInsertionLoop a b left i s).1 ∧
    ((partialInsertionLoop a b left i s).2 = true →
      SortedOn a b (partialInsertionLoop a b left i s).1) := by
  intro left
  induction left with
  | zero =>
    intro i s _ _ _ _ _
    simp only [partialInsertionLoop]
    exact ⟨Within.refl _ _ _, fun h => absurd h (by decide)⟩
  | succ left ih =>
    intro i s hai hib hb hs hl
    simp only [partialInsertionLoop]
    obtain ⟨h1, h2, h3, h4⟩ := scanSorted_spec s b (b - a) i (by omega)
    generalize scanSorted s b (b - a) i = i' at *
    have h2 := h2 hib
    have hs' : SortedOn a i' s := hs.extend hai i' h3
    by_cases hc1 : i' = b
    · rw [if_pos hc1]
      subst hc1
      exact ⟨Within.refl _ _ _, fun _ => hs'⟩
    rw [if_neg hc1]
    by_cases hc2 : b - a < 50
    · rw [if_pos hc2]
      exact ⟨Within.refl _ _ _, fun h => by simp at h⟩
    rw [if_neg hc2]
    · have hi'b : i' < b := by omega
      have hw1 : Within a b s (s.Swap i' (i' - 1)) :=
        Within.swap a b s i' (i' - 1) (by omega) hi'b (by omega) (by omega) hb
      generalize hs1 : s.Swap i' (i' - 1) = s1 at *
      have hL1 : s1.Len = s.Len := hw1.len
      have hl1 : LowerBounded a b s1 := hl.within hw1
      -- the prefix below the swapped pair is still sorted
      have hsp : SortedOn a (i' - 1) s1 := by
        intro p q hp hpq hq
        have hK := fun k => keyAt_Swap s i' (i' - 1) k (by omega) (by omega)
        rw [← hs1, Less_eq, hK, hK, if_neg (show ¬ q = i' - 1 by omega),
          if_neg (show ¬ q = i' by omega), if_neg (show ¬ p = i' - 1 by omega),
          if_neg (show ¬ p = i' by omega), ← Less_eq]
        exact hs' p q hp hpq (by omega)
      -- shifting the smaller one to the left
      have hleft : ∃ s2, (if i' - a ≥ 2 then shiftLeft (i' - 1) s1 else s1) = s2 ∧
          Within a b s1 s2 ∧ SortedOn a i' s2 := by
        split_ifs with hc3
        · refine ⟨_, rfl, ?_⟩
          rw [shiftLeft_eq_insertDown a (i' - 1) s1 (by omega) (by omega)
            (by
              rcases hl1 with h0 | hl1
              · exact Or.inl h0
              · exact Or.inr fun k hk1 hk2 => hl1 k hk1 (by omega))]
          have := insertDown_sorted a (i' - 1) s1 (by omega) (by omega) hsp
          have e : i' - 1 + 1 = i' := by omega
          rw [e] at this
          exact ⟨this.1.mono (Nat.le_refl _) (by omega), this.2⟩
        · refine ⟨_, rfl, Within.refl _ _ _, ?_⟩
          intro p q hp hpq hq
          omega
      obtain ⟨s2, hs2, hw2, hsort2⟩ := hleft
      rw [hs2]
      -- shifting the greater one to the right
      have hright : ∃ s3, (if b - i' ≥ 2 then shiftRight b (b - a) (i' + 1) s2 else s2) = s3 ∧
          Within i' b s2 s3 := by
        split_ifs with hc4
        · exact ⟨_, rfl, shiftRight_spec i' b (b - a) (i' + 1) s2 (by omega)
            (by rw [hw2.len, hL1]; exact hb)⟩
        · exact ⟨_, rfl, Within.refl _ _ _⟩
      obtain ⟨s3, hs3, hw3⟩ := hright
      rw [hs3]
      have hw13 : Within a b s s3 := (hw1.trans hw2).trans (hw3.mono (by omega) (Nat.le_refl _))
      have := ih i' s3 (by omega) h2 (by rw [hw13.len]; exact hb)
        (hsort2.within_outside hw3 (Or.inr (Nat.le_refl _))) (hl.within hw13)
      exact ⟨hw13.trans this.1, this.2⟩

/-- `partialInsertionSort` only rearranges `data[a:b]`, and when it reports
success the range is sorted. -/
theorem partialInsertionSort_spec (s : sortedFiles) (a b : Nat) (hab : a < b) (hb : b ≤ s.Len)
    (hl : LowerBounded a b s) :
    Within a b s (partialInsertionSort s a b).1 ∧
    ((partialInsertionSort s a b).2 = true → SortedOn a b (partialInsertionSort s a b).1) := by
  unfold partialInsertionSort
  exact partialInsertionLoop_spec a b 5 (a + 1) s (by omega) (by omega) hb
    (fun p q hp hpq hq => by omega) hl

/-! ## `heapSort` -/

theorem HeapFrom_def (lo hi first : Nat) (s : sortedFiles) :
    HeapFrom lo hi first s ↔
      ∀ c, c < hi → 1 ≤ c → lo ≤ (c - 1) / 2 → s.Less (first + (c - 1) / 2) (first + c) = false :=
  Iff.rfl

theorem siftDown_spec (lo hi first : Nat) : ∀ (fuel root : Nat) (s : sortedFiles),
    first + hi ≤ s.Len → lo ≤ root → hi ≤ fuel + root →
    (∀ c, c < hi → 1 ≤ c → lo ≤ (c - 1) / 2 → (c - 1) / 2 ≠ root →
      s.Less (first + (c - 1) / 2) (first + c) = false) →
    (1 ≤ root → lo ≤ (root - 1) / 2 → ∀ c, c < hi → 1 ≤ c → (c - 1) / 2 = root →
      s.Less (first + (root - 1) / 2) (first + c) = false) →
    Within first (first + hi) s (siftDown hi first fuel root s) ∧
    HeapFrom lo hi first (siftDown hi first fuel root s) := by
  intro fuel
  induction fuel with
  | zero =>
    intro root s _ _ hf h1 _
    simp only [siftDown]
    refine ⟨Within.refl _ _ _, ?_⟩
    intro c hc1 hc2 hc3
    exact h1 c hc1 hc2 hc3 (by omega)
  | succ fuel ih =>
    intro root s hL hlo hf h1 h2
    simp only [siftDown]
    by_cases hch : 2 * root + 1 ≥ hi
    · rw [if_pos hch]
      refine ⟨Within.refl _ _ _, ?_⟩
      intro c hc1 hc2 hc3
      exact h1 c hc1 hc2 hc3 (by omega)
    rw [if_neg hch]
    -- the greater child
    have hchild : ∃ child, (if 2 * root + 1 + 1 < hi ∧
          s.Less (first + (2 * root + 1)) (first + (2 * root + 1) + 1) = true
          then 2 * root + 1 + 1 else 2 * root + 1) = child ∧
        (child = 2 * root + 1 ∨ child = 2 * root + 2) ∧ child < hi ∧
        (∀ c, c < hi → 1 ≤ c → (c - 1) / 2 = root →
          s.Less (first + child) (first + c) = false) := by
      split_ifs with hc
      · refine ⟨_, rfl, Or.inr rfl, hc.1, ?_⟩
        intro c hc1 hc2 hc3
        have : c = 2 * root + 1 ∨ c = 2 * root + 2 := by omega
        rcases this with rfl | rfl
        · exact lexLess_asymm _ _ hc.2
        · exact Less_irrefl _ _
      · refine ⟨_, rfl, Or.inl rfl, by omega, ?_⟩
        intro c hc1 hc2 hc3
        have : c = 2 * root + 1 ∨ c = 2 * root + 2 := by omega
        rcases this with rfl | rfl
        · exact Less_irrefl _ _
        · by_contra hcon
          exact hc ⟨hc1, by simpa using hcon⟩
    obtain ⟨child, hce, hcv, hchi, hcmax⟩ := hchild
    rw [hce]
    by_cases hless : s.Less (first + root) (first + child) = true
    · rw [if_neg (by simpa using hless)]
      have hr : first + root < s.Len := by omega
      have hc : first + child < s.Len := by omega
      have hK := fun k => keyAt_Swap s (first + root) (first + child) k hr hc
      have hw : Within first (first + hi) s (s.Swap (first + root) (first + child)) :=
        Within.swap first (first + hi) s _ _ (by omega) (by omega) (by omega) (by omega) hL
      have := ih child (s.Swap (first + root) (first + child)) (by rw [Len_Swap]; exact hL)
        (by omega) (by omega) ?_ ?_
      · exact ⟨hw.trans this.1, this.2⟩
      · intro c hc1 hc2 hc3 hc4
        rw [Less_eq, hK, hK]
        by_cases hpr : (c - 1) / 2 = root
        · -- a child of the old root
          rw [if_neg (show ¬ first + (c - 1) / 2 = first + child by omega),
            if_pos (show first + (c - 1) / 2 = first + root by omega)]
          by_cases hcc : c = child
          · rw [if_pos (show first + c = first + child by omega)]
            simpa [Less_eq] using lexLess_asymm _ _ hless
          · rw [if_neg (show ¬ first + c = first + child by omega),
              if_neg (show ¬ first + c = first + root by omega)]
            simpa [Less_eq] using hcmax c hc1 hc2 hpr
        · rw [if_neg (show ¬ first + (c - 1) / 2 = first + child by omega),
            if_neg (show ¬ first + (c - 1) / 2 = first + root by omega)]
          by_cases hcr : c = root
          · rw [if_neg (show ¬ first + c = first + child by omega),
              if_pos (show first + c = first + root by omega)]
            have := h2 (by omega) (by rw [← hcr]; exact hc3) child hchi (by omega) (by omega)
            rw [hcr]
            simpa [Less_eq] using this
          · rw [if_neg (show ¬ first + c = first + child by omega),
              if_neg (show ¬ first + c = first + root by omega)]
            simpa [Less_eq] using h1 c hc1 hc2 hc3 hpr
      · intro _ _ c hc1 hc2 hc3
        have hpe : (child - 1) / 2 = root := by omega
        rw [hpe, Less_eq, hK, hK, if_neg (show ¬ first + root = first + child by omega),
          if_pos rfl, if_neg (show ¬ first + c = first + child by omega),
          if_neg (show ¬ first + c = first + root by omega)]
        have := h1 c hc1 hc2 (by omega) (by omega)
        rw [hc3] at this
        simpa [Less_eq] using this
    · rw [if_pos (by simpa using hless)]
      refine ⟨Within.refl _ _ _, ?_⟩
      intro c hc1 hc2 hc3
      by_cases hpr : (c - 1) / 2 = root
      · rw [hpr]
        have h3 := hcmax c hc1 hc2 hpr
        have h4 : s.Less (first + root) (first + child) = false := by simpa using hless
        rw [Less_eq] at h3 h4 ⊢
        exact lexLess_negtrans _ _ _ h4 h3
      · exact h1 c hc1 hc2 hc3 hpr

theorem heapBuild_spec (hi first : Nat) : ∀ (n : Nat) (s : sortedFiles),
    first + hi ≤ s.Len → HeapFrom n hi first s →
    Within first (first + hi) s (heapBuild hi first n s) ∧
    HeapFrom 0 hi first (heapBuild hi first n s) := by
  intro n
  induction n with
  | zero =>
    intro s _ h
    exact ⟨Within.refl _ _ _, h⟩
  | succ n ih =>
    intro s hL h
    simp only [heapBuild]
    obtain ⟨hw, hh⟩ := siftDown_spec n hi first hi n s hL (Nat.le_refl _) (by omega)
      (fun c hc1 hc2 hc3 hc4 => h c hc1 hc2 (by omega))
      (fun h1 h2 => by omega)
    have := ih _ (by rw [hw.len]; exact hL) hh
    exact ⟨hw.trans this.1, this.2⟩

/-- In a heap the first element is not less than any other. -/
theorem heap_max (hi first : Nat) (s : sortedFiles) (h : HeapFrom 0 hi first s) :
    ∀ p, p < hi → s.Less first (first + p) = false := by
  intro p
  induction p using Nat.strong_induction_on with
  | _ p ih =>
    intro hp
    by_cases hp0 : p = 0
    · subst hp0; exact Less_irrefl _ _
    · have h1 := ih ((p - 1) / 2) (by omega) (by omega)
      have h2 := h p hp (by omega) (Nat.zero_le _)
      rw [Less_eq] at h1 h2 ⊢
      exact lexLess_negtrans _ _ _ h1 h2

theorem heapPop_spec (hi first : Nat) : ∀ (n : Nat) (s : sortedFiles),
    n ≤ hi → first + hi ≤ s.Len → HeapFrom 0 n first s →
    SortedOn (first + n) (first + hi) s →
    (∀ p q, p < n → n ≤ q → q < hi → s.Less (first + q) (first + p) = false) →
    Within first (first + hi) s (heapPop first n s) ∧
    SortedOn first (first + hi) (heapPop first n s) := by
  intro n
  induction n with
  | zero =>
    intro s _ _ _ hs _
    exact ⟨Within.refl _ _ _, by simpa using hs⟩
  | succ i ih =>
    intro s hn hL hh hs hx
    simp only [heapPop]
    have hmax := heap_max (i + 1) first s hh
    have hf : first < s.Len := by omega
    have hi' : first + i < s.Len := by omega
    have hK := fun k => keyAt_Swap s first (first + i) k hf hi'
    have hw1 : Within first (first + (i + 1)) s (s.Swap first (first + i)) :=
      Within.swap first (first + (i + 1)) s _ _ (Nat.le_refl _) (by omega) (by omega) (by omega)
        (by omega)
    generalize hs1 : s.Swap first (first + i) = s1 at *
    have hL1 : s1.Len = s.Len := hw1.len
    obtain ⟨hw2, hh2⟩ := siftDown_spec 0 i first i 0 s1 (by omega) (Nat.le_refl _) (by omega)
      (by
        intro c hc1 hc2 _ hc4
        rw [Less_eq, hK, hK, if_neg (show ¬ first + (c - 1) / 2 = first + i by omega),
          if_neg (show ¬ first + (c - 1) / 2 = first by omega),
          if_neg (show ¬ first + c = first + i by omega),
          if_neg (show ¬ first + c = first by omega), ← Less_eq]
        exact hh c (by omega) hc2 (Nat.zero_le _))
      (fun h1 _ => by omega)
    generalize siftDown i first i 0 s1 = s2 at *
    have hw12 : Within first (first + hi) s s2 :=
      (hw1.mono (Nat.le_refl _) (by omega)).trans (hw2.mono (Nat.le_refl _) (by omega))
    -- the key moved to place `i` is the greatest of the old heap
    have hKi : keyAt s2 (first + i) = keyAt s first := by
      rw [hw2.keyAt_outside _ (by omega), hK, if_pos rfl]
    have hKout : ∀ q, i < q → keyAt s2 (first + q) = keyAt s (first + q) := by
      intro q hq
      rw [hw2.keyAt_outside _ (by omega), hw1.keyAt_outside _ (by omega)]
    -- every key of the new heap is a key of the old heap
    have hfrom : ∀ p, p < i → ∃ m, m < i + 1 ∧ keyAt s2 (first + p) = keyAt s (first + m) := by
      intro p hp
      obtain ⟨m, hm1, hm2, e⟩ := hw2.keyAt_inside (first + p) (by omega) (by omega)
      obtain ⟨m', hm1', hm2', e'⟩ := hw1.keyAt_inside m hm1 (by omega)
      exact ⟨m' - first, by omega, by rw [e, e']; congr 1; omega⟩
    have := ih s2 (by omega) (by rw [hw12.len]; exact hL) hh2 ?_ ?_
    · exact ⟨hw12.trans this.1, this.2⟩
    · intro p q hp hpq hq
      by_cases hpi : p = first + i
      · subst hpi
        have e1 := hKout (q - first) (by omega)
        rw [show first + (q - first) = q by omega] at e1
        rw [Less_eq, hKi, e1]
        have := hx 0 (q - first) (by omega) (by omega) (by omega)
        rw [show first + (q - first) = q by omega] at this
        simpa [Less_eq] using this
      · have e1 := hKout (q - first) (by omega)
        have e2 := hKout (p - first) (by omega)
        rw [show first + (q - first) = q by omega] at e1
        rw [show first + (p - first) = p by omega] at e2
        rw [Less_eq, e1, e2, ← Less_eq]
        exact hs p q (by omega) hpq hq
    · intro p q hp hiq hq
      obtain ⟨m, hm, e⟩ := hfrom p hp
      rw [Less_eq, e]
      by_cases hqi : q = i
      · subst hqi
        rw [hKi]
        simpa [Less_eq] using hmax m hm
      · rw [hKout q (by omega)]
        simpa [Less_eq] using hx m q hm (by omega) hq

/-- `heapSort` sorts `data[a:b]` and touches nothing else. -/
theorem heapSort_spec (s : sortedFiles) (a b : Nat) (hab : a ≤ b) (hb : b ≤ s.Len) :
    Within a b s (heapSort s a b) ∧ SortedOn a b (heapSort s a b) := by
  simp only [heapSort]
  have e : a + (b - a) = b := by omega
  obtain ⟨hw1, hh1⟩ := heapBuild_spec (b - a) a ((b - a - 1) / 2 + 1) s (by omega)
    (fun c hc1 hc2 hc3 => by omega)
  generalize heapBuild (b - a) a ((b - a - 1) / 2 + 1) s = s1 at *
  obtain ⟨hw2, hs2⟩ := heapPop_spec (b - a) a (b - a) s1 (Nat.le_refl _)
    (by rw [hw1.len]; omega) hh1 (fun p q hp hpq hq => by omega)
    (fun p q hp hq1 hq2 => by omega)
  rw [e] at hw1 hw2 hs2
  exact ⟨hw1.trans hw2, hs2⟩

/-! ## `choosePivot`, `reverseRange`, `breakPatterns` -/

theorem median_cases (s : sortedFiles) (a b c sw : Nat) :
    (median s a b c sw).1 = a ∨ (median s a b c sw).1 = b ∨ (median s a b c sw).1 = c := by
  simp only [median, order2]
  split_ifs <;> simp

theorem medianAdjacent_bounds (s : sortedFiles) (a sw : Nat) :
    a - 1 ≤ (medianAdjacent s a sw).1 ∧ (medianAdjacent s a sw).1 ≤ a + 1 := by
  unfold medianAdjacent
  rcases median_cases s (a - 1) a (a + 1) sw with h | h | h <;> rw [h] <;> omega

theorem choosePivot_bounds (s : sortedFiles) (a b : Nat) (hab : a < b) :
    a ≤ (choosePivot s a b).1 ∧ (choosePivot s a b).1 < b := by
  have key : ∀ (p : Nat × Nat), (a ≤ p.1 ∧ p.1 < b) →
      a ≤ (if p.2 = 0 then (p.1, sortedHint.increasingHint)
        else if p.2 = 4 * 3 then (p.1, sortedHint.decreasingHint)
        else (p.1, sortedHint.unknownHint)).1 ∧
      (if p.2 = 0 then (p.1, sortedHint.increasingHint)
        else if p.2 = 4 * 3 then (p.1, sortedHint.decreasingHint)
        else (p.1, sortedHint.unknownHint)).1 < b := by
    intro p hp
    split_ifs <;> exact hp
  simp only [choosePivot]
  apply key
  by_cases h8 : b - a ≥ 8
  · rw [if_pos h8]
    by_cases h50 : b - a ≥ 50
    · rw [if_pos h50]
      have h1 := medianAdjacent_bounds s (a + (b - a) / 4 * 1) 0
      generalize medianAdjacent s (a + (b - a) / 4 * 1) 0 = m1 at *
      have h2 := medianAdjacent_bounds s (a + (b - a) / 4 * 2) m1.2
      generalize medianAdjacent s (a + (b - a) / 4 * 2) m1.2 = m2 at *
      have h3 := medianAdjacent_bounds s (a + (b - a) / 4 * 3) m2.2
      generalize medianAdjacent s (a + (b - a) / 4 * 3) m2.2 = m3 at *
      rcases median_cases s m1.1 m2.1 m3.1 m3.2 with h | h | h <;> simp only [h] <;> omega
    · rw [if_neg h50]
      rcases median_cases s (a + (b - a) / 4 * 1) (a + (b - a) / 4 * 2) (a + (b - a) / 4 * 3) 0
        with h | h | h <;> simp only [h] <;> omega
  · rw [if_neg h8]
    simp only
    omega

theorem reverseLoop_spec (a b : Nat) : ∀ (fuel i j : Nat) (s : sortedFiles),
    a ≤ i → j < b → b ≤ s.Len → Within a b s (reverseLoop fuel i j s) := by
  intro fuel
  induction fuel with
  | zero => intro i j s _ _ _; exact Within.refl _ _ _
  | succ fuel ih =>
    intro i j s hai hjb hb
    simp only [reverseLoop]
    split_ifs with hc
    · have hw : Within a b s (s.Swap i j) :=
        Within.swap a b s i j hai (by omega) (by omega) hjb hb
      exact hw.trans (ih (i + 1) (j - 1) _ (by omega) (by omega) (by rw [Len_Swap]; exact hb))
    · exact Within.refl _ _ _

theorem reverseRange_spec (s : sortedFiles) (a b : Nat) (hab : a < b) (hb : b ≤ s.Len) :
    Within a b s (reverseRange s a b) :=
  reverseLoop_spec a b (b - a) a (b - 1) s (Nat.le_refl _) (by omega) hb

theorem bitsLenAux_zero (fuel : Nat) : bitsLenAux fuel 0 = 0 := by
  cases fuel <;> simp [bitsLenAux]

theorem two_pow_bitsLenAux (fuel : Nat) : ∀ x, 1 ≤ x → x ≤ fuel →
    2 ^ bitsLenAux fuel x ≤ 2 * x := by
  induction fuel with
  | zero => intro x h1 h2; omega
  | succ fuel ih =>
    intro x h1 h2
    simp only [bitsLenAux]
    rw [if_neg (by omega), pow_succ]
    by_cases hx : x / 2 = 0
    · rw [hx, bitsLenAux_zero]
      omega
    · have := ih (x / 2) (by omega) (by omega)
      omega

theorem nextPowerOfTwo_le (length : Nat) (h : 1 ≤ length) :
    nextPowerOfTwo length ≤ 2 * length := by
  unfold nextPowerOfTwo bitsLen
  rw [Nat.one_shiftLeft]
  exact two_pow_bitsLenAux length length h (Nat.le_refl _)

theorem breakLoop_spec (a b length modulus idx : Nat) (hlen : 1 ≤ length) (hb : b = a + length)
    (hm : modulus ≤ 2 * length) : ∀ (left i random : Nat) (s : sortedFiles),
    (∀ t, i ≤ t → t < i + left → a ≤ idx + t ∧ idx + t < b) → b ≤ s.Len →
    Within a b s (breakLoop a length modulus idx left i random s) := by
  intro left
  induction left with
  | zero => intro i random s _ _; exact Within.refl _ _ _
  | succ left ih =>
    intro i random s hidx hL
    simp only [breakLoop]
    have hand : xorshiftNext random &&& (modulus - 1) ≤ modulus - 1 := Nat.and_le_right
    generalize xorshiftNext random &&& (modulus - 1) = other at *
    have hother : (if other ≥ length then other - length else other) < length := by
      split_ifs <;> omega
    generalize (if other ≥ length then other - length else other) = other' at *
    have h1 := hidx i (Nat.le_refl _) (by omega)
    have hw : Within a b s (s.Swap (idx + i) (a + other')) :=
      Within.swap a b s _ _ h1.1 h1.2 (by omega) (by omega) hL
    exact hw.trans (ih (i + 1) _ _ (fun t ht1 ht2 => hidx t (by omega) (by omega))
      (by rw [Len_Swap]; exact hL))

theorem breakPatterns_spec (s : sortedFiles) (a b : Nat) (hab : a ≤ b) (hb : b ≤ s.Len) :
    Within a b s (breakPatterns s a b) := by
  simp only [breakPatterns]
  split_ifs with h8
  · exact breakLoop_spec a b (b - a) (nextPowerOfTwo (b - a)) (a + (b - a) / 4 * 2 - 1)
      (by omega) (by omega) (nextPowerOfTwo_le _ (by omega)) 3 0 (b - a) s
      (fun t ht1 ht2 => by omega) hb
  · exact Within.refl _ _ _

/-! ## `pdqsort` and `sort.Sort` -/

/-- One round of `pdqsort`, with the intermediate values named. -/
theorem pdqsort_succ (fuel : Nat) (s : sortedFiles) (a b limit : Nat) (wb wp : Bool) :
    pdqsort (fuel + 1) s a b limit wb wp =
      if b - a ≤ 12 then insertionSort s a b
      else if limit = 0 then heapSort s a b
      else
        let s1 := if wb = false then breakPatterns s a b else s
        let limit1 := if wb = false then limit - 1 else limit
        let cp := choosePivot s1 a b
        let s2 := if cp.2 = sortedHint.decreasingHint then reverseRange s1 a b else s1
        let pivot := if cp.2 = sortedHint.decreasingHint then (b - 1) - (cp.1 - a) else cp.1
        let hint := if cp.2 = sortedHint.decreasingHint then sortedHint.increasingHint else cp.2
        let pis := if wb = true ∧ wp = true ∧ hint = sortedHint.increasingHint
          then partialInsertionSort s2 a b else (s2, false)
        if pis.2 = true then pis.1
        else if a > 0 ∧ ¬ pis.1.Less (a - 1) pivot = true then
          pdqsort fuel (partitionEqual pis.1 a b pivot).1 (partitionEqual pis.1 a b pivot).2 b
            limit1 wb wp
        else
          let pt := partition pis.1 a b pivot
          if pt.2.1 - a < b - pt.2.1 then
            pdqsort fuel (pdqsort fuel pt.1 a pt.2.1 limit1 true true) (pt.2.1 + 1) b limit1
              (decide (pt.2.1 - a ≥ (b - a) / 8)) pt.2.2
          else
            pdqsort fuel (pdqsort fuel pt.1 (pt.2.1 + 1) b limit1 true true) a pt.2.1 limit1
              (decide (b - pt.2.1 ≥ (b - a) / 8)) pt.2.2 := by
  rw [pdqsort]
  by_cases h12 : b - a ≤ 12
  · rw [if_pos h12, if_pos h12]
  rw [if_neg h12, if_neg h12]
  by_cases hl : limit = 0
  · rw [if_pos hl, if_pos hl]
  rw [if_neg hl, if_neg hl]
  cases wb
  · simp only [Bool.false_eq_true, not_false_eq_true, if_true, false_and, if_false]
    generalize choosePivot (breakPatterns s a b) a b = cp
    by_cases hd : cp.2 = sortedHint.decreasingHint
    · simp only [hd, if_true]
    · simp only [hd, if_false]
  · simp only [not_true_eq_false, if_false, Bool.true_eq_false, true_and]
    generalize choosePivot s a b = cp
    by_cases hd : cp.2 = sortedHint.decreasingHint
    · simp only [hd, if_true]
    · simp only [hd, if_false]

/-- Two sorted parts around a pivot that separates them make a sorted range. -/
theorem SortedOn.of_parts {a b mid : Nat} {s r : sortedFiles}
    (hlt : ∀ k, a ≤ k → k < mid → s.Less k mid = true)
    (hge : ∀ k, mid < k → k < b → s.Less k mid = false)
    (hL : ∀ k, a ≤ k → k < mid → ∃ m, a ≤ m ∧ m < mid ∧ keyAt r k = keyAt s m)
    (hR : ∀ k, mid < k → k < b → ∃ m, mid < m ∧ m < b ∧ keyAt r k = keyAt s m)
    (hM : keyAt r mid = keyAt s mid)
    (hsL : SortedOn a mid r) (hsR : SortedOn (mid + 1) b r) : SortedOn a b r := by
  have hleft : ∀ k, a ≤ k → k < mid → lexLess (keyAt r k) (keyAt r mid) = true := by
    intro k hk1 hk2
    obtain ⟨m, hm1, hm2, e⟩ := hL k hk1 hk2
    rw [e, hM]
    simpa [Less_eq] using hlt m hm1 hm2
  have hright : ∀ k, mid < k → k < b → lexLess (keyAt r k) (keyAt r mid) = false := by
    intro k hk1 hk2
    obtain ⟨m, hm1, hm2, e⟩ := hR k hk1 hk2
    rw [e, hM]
    simpa [Less_eq] using hge m hm1 hm2
  intro p q hp hpq hq
  rw [Less_eq]
  by_cases hqm : q < mid
  · simpa [Less_eq] using hsL p q hp hpq hqm
  by_cases hpm : mid < p
  · simpa [Less_eq] using hsR p q (by omega) hpq hq
  by_cases hq' : q = mid
  · rw [hq']
    exact lexLess_asymm _ _ (hleft p hp (by omega))
  by_cases hp' : p = mid
  · rw [hp']
    exact hright q (by omega) hq
  · exact lexLess_negtrans _ _ _ (hright q (by omega) hq)
      (lexLess_asymm _ _ (hleft p hp (by omega)))

/-- `pdqsort` sorts `data[a:b]` and touches nothing else, when the element
before the range, if any, is not greater than any element of the range. -/
theorem pdqsort_spec : ∀ (fuel : Nat) (s : sortedFiles) (a b limit : Nat) (wb wp : Bool),
    a ≤ b → b ≤ s.Len → b - a < fuel → LowerBounded a b s →
    Within a b s (pdqsort fuel s a b limit wb wp) ∧
    SortedOn a b (pdqsort fuel s a b limit wb wp) := by
  intro fuel
  induction fuel with
  | zero => intro s a b limit wb wp _ _ hf _; omega
  | succ fuel ih =>
    intro s a b limit wb wp hab hb hf hl
    rw [pdqsort_succ]
    by_cases h12 : b - a ≤ 12
    · rw [if_pos h12]
      exact insertionSort_spec s a b hb
    rw [if_neg h12]
    by_cases hlim : limit = 0
    · rw [if_pos hlim]
      exact heapSort_spec s a b hab hb
    rw [if_neg hlim]
    dsimp only
    -- breaking patterns
    have hw1 : Within a b s (if wb = false then breakPatterns s a b else s) := by
      split_ifs
      · exact breakPatterns_spec s a b hab hb
      · exact Within.refl _ _ _
    generalize (if wb = false then breakPatterns s a b else s) = s1 at *
    generalize (if wb = false then limit - 1 else limit) = limit1
    -- choosing the pivot
    have hcp := choosePivot_bounds s1 a b (by omega)
    generalize choosePivot s1 a b = cp at *
    have hw2 : Within a b s1
        (if cp.2 = sortedHint.decreasingHint then reverseRange s1 a b else s1) := by
      split_ifs
      · exact reverseRange_spec s1 a b (by omega) (by rw [hw1.len]; exact hb)
      · exact Within.refl _ _ _
    generalize (if cp.2 = sortedHint.decreasingHint then reverseRange s1 a b else s1) = s2 at *
    have hpiv : a ≤ (if cp.2 = sortedHint.decreasingHint then b - 1 - (cp.1 - a) else cp.1) ∧
        (if cp.2 = sortedHint.decreasingHint then b - 1 - (cp.1 - a) else cp.1) < b := by
      split_ifs <;> omega
    generalize (if cp.2 = sortedHint.decreasingHint then b - 1 - (cp.1 - a) else cp.1) = pivot at *
    generalize (if cp.2 = sortedHint.decreasingHint then sortedHint.increasingHint else cp.2)
      = hint
    have hw12 : Within a b s s2 := hw1.trans hw2
    have hL2 : s2.Len = s.Len := hw12.len
    -- the attempt to finish by insertion
    have hpis : Within a b s2 (if wb = true ∧ wp = true ∧ hint = sortedHint.increasingHint
          then partialInsertionSort s2 a b else (s2, false)).1 ∧
        ((if wb = true ∧ wp = true ∧ hint = sortedHint.increasingHint
          then partialInsertionSort s2 a b else (s2, false)).2 = true →
        SortedOn a b (if wb = true ∧ wp = true ∧ hint = sortedHint.increasingHint
          then partialInsertionSort s2 a b else (s2, false)).1) := by
      split_ifs
      · exact partialInsertionSort_spec s2 a b (by omega) (by omega) (hl.within hw12)
      · exact ⟨Within.refl _ _ _, fun h => by simp at h⟩
    generalize (if wb = true ∧ wp = true ∧ hint = sortedHint.increasingHint
          then partialInsertionSort s2 a b else (s2, false)) = pis at *
    obtain ⟨hw3, hdone⟩ := hpis
    have hw13 : Within a b s pis.1 := hw12.trans hw3
    have hL3 : pis.1.Len = s.Len := hw13.len
    have hl3 : LowerBounded a b pis.1 := hl.within hw13
    by_cases hd : pis.2 = true
    · rw [if_pos hd]
      exact ⟨hw13, hdone hd⟩
    rw [if_neg hd]
    by_cases heq : a > 0 ∧ ¬ pis.1.Less (a - 1) pivot = true
    · -- the elements equal to the pivot come first
      rw [if_pos heq]
      have hge : ∀ k, a ≤ k → k < b → pis.1.Less k pivot = false := by
        intro k hk1 hk2
        rcases hl3 with h0 | hl3
        · omega
        · have h1 := hl3 k hk1 hk2
          have h2 : pis.1.Less (a - 1) pivot = false := by simpa using heq.2
          rw [Less_eq] at h1 h2 ⊢
          exact lexLess_negtrans _ _ _ h1 h2
      obtain ⟨hwe, hm1, hm2, hse, hcross⟩ :=
        partitionEqual_spec pis.1 a b pivot hpiv.1 hpiv.2 (by omega) hge
      generalize (partitionEqual pis.1 a b pivot).1 = se at *
      generalize (partitionEqual pis.1 a b pivot).2 = mid at *
      obtain ⟨hwr, hsr⟩ := ih se mid b limit1 wb wp hm2 (by rw [hwe.len]; omega) (by omega)
        (Or.inr fun k hk1 hk2 => hcross (mid - 1) k (by omega) (by omega) hk1 hk2)
      generalize pdqsort fuel se mid b limit1 wb wp = r at *
      refine ⟨(hw13.trans hwe).trans (hwr.mono (by omega) (Nat.le_refl _)), ?_⟩
      intro p q hp hpq hq
      by_cases hqm : q < mid
      · exact (hse.within_outside hwr (Or.inr (Nat.le_refl _))) p q hp hpq hqm
      by_cases hpm : mid ≤ p
      · exact hsr p q hpm hpq hq
      · obtain ⟨m, hm1', hm2', e⟩ := hwr.keyAt_inside q (by omega) hq
        rw [Less_eq, e, hwr.keyAt_outside p (by omega), ← Less_eq]
        exact hcross p m hp (by omega) hm1' hm2'
    · -- partition around the pivot and sort both sides
      rw [if_neg heq]
      obtain ⟨hwp, hm1, hm2, hlt, hge⟩ :=
        partition_spec pis.1 a b pivot hpiv.1 hpiv.2 (by omega)
      generalize partition pis.1 a b pivot = pt at *
      have hwp' : Within a b s pt.1 := hw13.trans hwp
      have hLp : pt.1.Len = s.Len := hwp'.len
      have hlp : LowerBounded a b pt.1 := hl.within hwp'
      have hlR : LowerBounded (pt.2.1 + 1) b pt.1 :=
        Or.inr fun k hk1 hk2 => by simpa using hge k (by omega) hk2
      by_cases hside : pt.2.1 - a < b - pt.2.1
      · rw [if_pos hside]
        obtain ⟨hwA, hsA⟩ := ih pt.1 a pt.2.1 limit1 true true hm1 (by omega) (by omega)
          (hlp.sub rfl (by omega))
        generalize pdqsort fuel pt.1 a pt.2.1 limit1 true true = sA at *
        have hlRA : LowerBounded (pt.2.1 + 1) b sA := by
          right
          intro k hk1 hk2
          simp only [Nat.add_sub_cancel]
          rw [Less_eq, hwA.keyAt_outside k (by omega), hwA.keyAt_outside pt.2.1 (by omega),
            ← Less_eq]
          exact hge k (by omega) hk2
        obtain ⟨hwB, hsB⟩ := ih sA (pt.2.1 + 1) b limit1 (decide (pt.2.1 - a ≥ (b - a) / 8))
          pt.2.2 (by omega) (by rw [hwA.len]; omega) (by omega) hlRA
        generalize pdqsort fuel sA (pt.2.1 + 1) b limit1 (decide (pt.2.1 - a ≥ (b - a) / 8))
          pt.2.2 = sB at *
        refine ⟨(hwp'.trans (hwA.mono (Nat.le_refl _) (by omega))).trans
          (hwB.mono (by omega) (Nat.le_refl _)), ?_⟩
        apply SortedOn.of_parts hlt hge
        · intro k hk1 hk2
          obtain ⟨m, h1, h2, e⟩ := hwA.keyAt_inside k hk1 hk2
          exact ⟨m, h1, h2, by rw [hwB.keyAt_outside k (by omega), e]⟩
        · intro k hk1 hk2
          obtain ⟨m, h1, h2, e⟩ := hwB.keyAt_inside k (by omega) hk2
          exact ⟨m, by omega, h2, by rw [e, hwA.keyAt_outside m (by omega)]⟩
        · rw [hwB.keyAt_outside _ (by omega), hwA.keyAt_outside _ (by omega)]
        · exact hsA.within_outside hwB (Or.inr (by omega))
        · exact hsB
      · rw [if_neg hside]
        obtain ⟨hwA, hsA⟩ := ih pt.1 (pt.2.1 + 1) b limit1 true true (by omega) (by omega)
          (by omega) hlR
        generalize pdqsort fuel pt.1 (pt.2.1 + 1) b limit1 true true = sA at *
        have hlLA : LowerBounded a pt.2.1 sA :=
          (hlp.within (hwA.mono (by omega) (Nat.le_refl _))).sub rfl (by omega)
        obtain ⟨hwB, hsB⟩ := ih sA a pt.2.1 limit1 (decide (b - pt.2.1 ≥ (b - a) / 8))
          pt.2.2 hm1 (by rw [hwA.len]; omega) (by omega) hlLA
        generalize pdqsort fuel sA a pt.2.1 limit1 (decide (b - pt.2.1 ≥ (b - a) / 8))
          pt.2.2 = sB at *
        refine ⟨(hwp'.trans (hwA.mono (by omega) (Nat.le_refl _))).trans
          (hwB.mono (Nat.le_refl _) (by omega)), ?_⟩
        apply SortedOn.of_parts hlt hge
        · intro k hk1 hk2
          obtain ⟨m, h1, h2, e⟩ := hwB.keyAt_inside k hk1 hk2
          exact ⟨m, h1, h2, by rw [e, hwA.keyAt_outside m (by omega)]⟩
        · intro k hk1 hk2
          obtain ⟨m, h1, h2, e⟩ := hwA.keyAt_inside k (by omega) hk2
          exact ⟨m, by omega, h2, by rw [hwB.keyAt_outside k (by omega), e]⟩
        · rw [hwB.keyAt_outside _ (by omega), hwA.keyAt_outside _ (by omega)]
        · exact hsB
        · exact hsA.within_outside hwB (Or.inl (by omega))

/-- `sort.Sort` returns a permutation of the list that is in ascending order
for `Less`. -/
theorem goSort_spec (s : sortedFiles) :
    (goSort s).list.Perm s.list ∧ SortedOn 0 s.Len (goSort s) := by
  unfold goSort
  simp only
  split_ifs with h
  · refine ⟨List.Perm.refl _, ?_⟩
    intro p q hp hpq hq
    omega
  · obtain ⟨hw, hs⟩ := pdqsort_spec (s.Len + 1) s 0 s.Len (bitsLen s.Len) true true
      (Nat.zero_le _) (Nat.le_refl _) (by omega) (Or.inl rfl)
    exact ⟨hw.perm, hs⟩

/-! ## The filter -/

theorem dirTreeFilter_foldl (l : List FileInfo) : ∀ acc : List FileInfo,
    l.foldl (fun tmpList v => if v.IsDir then tmpList ++ [v] else tmpList) acc =
      acc ++ l.filter (fun v => v.IsDir) := by
  induction l with
  | nil => intro acc; simp
  | cons v l ih =>
    intro acc
    simp only [List.foldl_cons, ih, List.filter_cons]
    cases v.IsDir <;> simp

theorem dirTreeFilter_eq (list : List FileInfo) (fl : flags) :
    dirTreeFilter list fl = if fl.d = true then list.filter (fun v => v.IsDir) else list := by
  unfold dirTreeFilter
  cases fl.d
  · simp
  · simp [dirTreeFilter_foldl]

theorem dirTreeFilter_sublist (list : List FileInfo) (fl : flags) :
    (dirTreeFilter list fl).Sublist list := by
  rw [dirTreeFilter_eq]
  split_ifs
  · exact List.filter_sublist _
  · exact List.Sublist.refl _

theorem mem_sortedList {d : List FileInfo} {fl : flags} {v : FileInfo}
    (h : v ∈ sortedList d fl) : v ∈ d := by
  have h1 := (dirTreeFilter_sublist (goSort ⟨[] ++ d⟩).list fl).subset h
  have h2 := (goSort_spec ⟨[] ++ d⟩).1.subset h1
  simpa using h2

/-! ## States and effects -/

theorem addState_start (st : counts × List Write) : addState st startState = st := by
  simp [addState, startState]

theorem start_addState (e : counts × List Write) : addState startState e = e := by
  simp [addState, startState]

theorem addState_assoc (st e1 e2 : counts × List Write) :
    addState (addState st e1) e2 = addState st (addState e1 e2) := by
  simp [addState, Nat.add_assoc]

theorem dirTreePrint_frame (v : FileInfo) (sep fullPath : String) (fl : flags)
    (out : List Write) :
    dirTreePrint v sep fullPath fl out = out ++ dirTreePrint v sep fullPath fl [] := by
  unfold dirTreePrint
  cases fl.h <;> simp

theorem glyph_eq (count k : Nat) (h : k < count) :
    (if count = 1 ∨ k = count - 1 then "└── " else "├── ") = glyph count k := by
  unfold glyph
  by_cases h1 : k = count - 1
  · rw [if_pos (Or.inr h1), if_pos h1]
  · rw [if_neg (by omega), if_neg h1]

/-- The loop of `dirTree` returns, and its effect is the effects of its
entries one after the other. -/
theorem dirTreeLoop_eq (walk : String → String → counts × List Write → Option (counts × List Write))
    (hw : Framed walk) (dirName sep : String) (fl : flags) (count : Nat) :
    ∀ (l : List FileInfo) (k : Nat) (st : counts × List Write), k + l.length = count →
    (∀ v ∈ l, v.IsDir = true → ∀ s, (walk (fullPathOf dirName v) s startState).isSome = true) →
    dirTreeLoop walk dirName sep fl count k l st =
      some (addState st (listingEffect walk dirName sep fl count k l)) := by
  intro l
  induction l with
  | nil =>
    intro k st _ _
    simp [dirTreeLoop, listingEffect, addState_start]
  | cons v rest ih =>
    intro k st hk hsome
    obtain ⟨c, out⟩ := st
    have hg := glyph_eq count k (by simp at hk; omega)
    have hrest : ∀ v ∈ rest, v.IsDir = true →
        ∀ s, (walk (fullPathOf dirName v) s startState).isSome = true :=
      fun v' hv' => hsome v' (List.mem_cons_of_mem _ hv')
    have hk' : k + 1 + rest.length = count := by simp at hk; omega
    simp only [dirTreeLoop, listingEffect, hg]
    rw [dirTreePrint_frame]
    by_cases hdir : v.IsDir = true
    · have hs := hsome v (List.mem_cons_self _ _) hdir (childSep sep count k)
      obtain ⟨r, hr⟩ := Option.isSome_iff_exists.1 hs
      have hwalk := hw (fullPathOf dirName v) (childSep sep count k)
        (⟨c.dirs + 1, c.files⟩,
          out ++ dirTreePrint v (sep ++ glyph count k) (fullPathOf dirName v) fl [])
      rw [hr] at hwalk
      simp only [Option.map_some'] at hwalk
      simp only [hdir, if_true, entryEffect, resultOf, hr, Option.getD_some]
      change (match walk (fullPathOf dirName v) (childSep sep count k)
        (⟨c.dirs + 1, c.files⟩,
          out ++ dirTreePrint v (sep ++ glyph count k) (fullPathOf dirName v) fl []) with
        | none => none
        | some st => dirTreeLoop walk dirName sep fl count (k + 1) rest st) = _
      rw [hwalk]
      simp only
      rw [ih (k + 1) _ hk' hrest]
      congr 1
      simp [addState, Nat.add_assoc]
    · have hdir' : v.IsDir = false := by simpa using hdir
      simp only [hdir', entryEffect, Bool.false_eq_true, if_false]
      rw [ih (k + 1) _ hk' hrest]
      congr 1
      simp [addState, Nat.add_assoc, fullPathOf]

/-- `dirTree` is framed: the state it starts from is only added to. -/
theorem dirTreeLoop_frame (walk : String → String → counts × List Write → Option (counts × List Write))
    (hw : Framed walk) (dirName sep : String) (fl : flags) (count : Nat) :
    ∀ (l : List FileInfo) (k : Nat) (st : counts × List Write),
    dirTreeLoop walk dirName sep fl count k l st =
      (dirTreeLoop walk dirName sep fl count k l startState).map (addState st) := by
  intro l
  induction l with
  | nil =>
    intro k st
    simp [dirTreeLoop, addState_start]
  | cons v rest ih =>
    intro k st
    obtain ⟨c, out⟩ := st
    simp only [dirTreeLoop, startState]
    by_cases hdir : v.IsDir = true
    · simp only [hdir, if_true]
      rw [hw _ _ (_, dirTreePrint v _ _ fl out), hw _ _ (_, dirTreePrint v _ _ fl [])]
      cases hres : walk (dirName ++ String.singleton Separator ++ v.Name)
        (if k = count - 1 then sep ++ " \u00a0\u00a0 " else sep ++ "│\u00a0\u00a0 ") startState with
      | none => simp
      | some r =>
        simp only [Option.map_some']
        rw [ih (k + 1) (addState _ r), ih (k + 1) (addState (_, dirTreePrint v _ _ fl []) r)]
        simp only [Option.map_map]
        congr 1
        funext e
        simp only [Function.comp, addState]
        rw [dirTreePrint_frame]
        simp [Nat.add_assoc, Nat.add_comm, Nat.add_left_comm]
    · have hdir' : v.IsDir = false := by simpa using hdir
      simp only [hdir', Bool.false_eq_true, if_false]
      rw [ih (k + 1) (_, dirTreePrint v _ _ fl out), ih (k + 1) (_, dirTreePrint v _ _ fl [])]
      simp only [Option.map_map]
      congr 1
      funext e
      simp only [Function.comp, addState]
      rw [dirTreePrint_frame]
      simp [Nat.add_assoc, Nat.add_comm, Nat.add_left_comm]

theorem dirTree_framed (fs : FS) (fl : flags) : ∀ n : Nat,
    Framed (fun p s st => dirTree fs n p s fl st) := by
  intro n
  induction n with
  | zero => intro p s st; simp [dirTree]
  | succ n ih =>
    intro p s st
    simp only [dirTree]
    cases fs p with
    | none => simp [addState_start]
    | some d =>
      simp only
      exact dirTreeLoop_frame _ ih p s fl _ _ 0 st

/-- Totality: with enough fuel for the depth of the directories below
`dirName`, `dirTree` returns. -/
theorem dirTree_isSome (fs : FS) (fl : flags) : ∀ (n : Nat) (dirName sep : String)
    (st : counts × List Write), depthWithin fs n dirName = true →
    (dirTree fs n dirName sep fl st).isSome = true := by
  intro n
  induction n with
  | zero => intro dirName sep st h; simp [depthWithin] at h
  | succ n ih =>
    intro dirName sep st h
    simp only [depthWithin] at h
    simp only [dirTree]
    cases hd : fs dirName with
    | none => simp
    | some d =>
      rw [hd] at h
      simp only [List.all_eq_true, Bool.or_eq_true, Bool.not_eq_true'] at h
      simp only
      rw [dirTreeLoop_eq _ (dirTree_framed fs fl n) dirName sep fl _ _ 0 st (by simp)]
      · simp
      · intro v hv hdir s
        have hv' : v ∈ d := mem_sortedList hv
        rcases h v hv' with h1 | h1
        · rw [hdir] at h1; exact absurd h1 (by decide)
        · exact ih _ _ _ h1

/-- One call of `dirTree` on a directory that can be read: it returns, and
its effect is that of its sorted and filtered listing. -/
theorem dirTree_eq (fs : FS) (fl : flags) (n : Nat) (dirName sep : String)
    (st : counts × List Write) (d : List FileInfo) (hd : fs dirName = some d)
    (h : depthWithin fs (n + 1) dirName = true) :
    dirTree fs (n + 1) dirName sep fl st =
      some (addState st (listingEffect (fun p s st => dirTree fs n p s fl st) dirName sep fl
        (sortedList d fl).length 0 (sortedList d fl))) := by
  simp only [depthWithin, hd, List.all_eq_true, Bool.or_eq_true, Bool.not_eq_true'] at h
  simp only [dirTree, hd]
  rw [dirTreeLoop_eq _ (dirTree_framed fs fl n) dirName sep fl _ _ 0 st (by simp)]
  · rfl
  · intro v hv hdir s
    have hv' : v ∈ d := mem_sortedList hv
    rcases h v hv' with h1 | h1
    · rw [hdir] at h1; exact absurd h1 (by decide)
    · exact dirTree_isSome fs fl n _ _ _ h1

/-! ## The sorted listing -/

theorem elem_eq_getElem (s : sortedFiles) (i : Nat) (h : i < s.list.length) :
    s.elem i = s.list[i] := by
  simp [sortedFiles.elem, List.getElem?_eq_getElem h]

/-- A list that is `SortedOn` its whole length is pairwise in order. -/
theorem pairwise_of_SortedOn (s : sortedFiles) (h : SortedOn 0 s.Len s) :
    s.list.Pairwise (fun x y => stringLess (ToLower y.Name) (ToLower x.Name) = false) := by
  rw [List.pairwise_iff_getElem]
  intro i j hi hj hij
  have := h i j (Nat.zero_le _) hij hj
  simp only [sortedFiles.Less, elem_eq_getElem s i hi, elem_eq_getElem s j hj] at this
  exact this

theorem goSort_pairwise (d : List FileInfo) :
    (goSort ⟨[] ++ d⟩).list.Pairwise
      (fun x y => stringLess (ToLower y.Name) (ToLower x.Name) = false) := by
  have h := goSort_spec ⟨[] ++ d⟩
  apply pairwise_of_SortedOn
  have hlen : (goSort ⟨[] ++ d⟩).Len = (⟨[] ++ d⟩ : sortedFiles).Len := h.1.length_eq
  rw [hlen]
  exact h.2

theorem goSort_perm (d : List FileInfo) : (goSort ⟨[] ++ d⟩).list.Perm d := by
  simpa using (goSort_spec ⟨[] ++ d⟩).1

theorem sortedList_pairwise (d : List FileInfo) (fl : flags) :
    (sortedList d fl).Pairwise
      (fun x y => stringLess (ToLower y.Name) (ToLower x.Name) = false) :=
  (goSort_pairwise d).sublist (dirTreeFilter_sublist _ fl)

/-! ## Stability of the insertion sort -/

theorem stringLess_ne {a b : String} (h : stringLess a b = true) : a ≠ b := by
  intro e
  subst e
  simp [stringLess, lexLess_irrefl] at h

theorem withKey_swap_adjacent (key : String) : ∀ (l : List FileInfo) (j : Nat),
    j + 1 < l.length →
    ToLower (l.getD (j + 1) default).Name ≠ ToLower (l.getD j default).Name →
    withKey key ((l.set (j + 1) (l.getD j default)).set j (l.getD (j + 1) default)) =
      withKey key l := by
  intro l
  induction l with
  | nil => intro j h _; simp at h
  | cons x t ih =>
    intro j h hne
    cases j with
    | zero =>
      cases t with
      | nil => simp at h
      | cons y t' =>
        simp only [List.getD_cons_zero, List.getD_cons_succ, List.set_cons_succ,
          List.set_cons_zero] at hne ⊢
        simp only [withKey, List.filter_cons]
        by_cases hx : ToLower x.Name = key
        · have hy : ¬ ToLower y.Name = key := fun hy => hne (hy.trans hx.symm)
          simp [hx, hy]
        · simp [hx]
    | succ j =>
      simp only [List.getD_cons_succ, List.set_cons_succ] at hne ⊢
      have := ih j (by simpa using h) hne
      simp only [withKey, List.filter_cons] at this ⊢
      rw [this]

theorem withKey_Swap_adjacent (key : String) (s : sortedFiles) (j : Nat) (h : j + 1 < s.Len)
    (hless : s.Less (j + 1) j = true) :
    withKey key (s.Swap (j + 1) j).list = withKey key s.list := by
  unfold sortedFiles.Swap sortedFiles.elem
  exact withKey_swap_adjacent key s.list j h (stringLess_ne hless)

theorem insertDown_withKey (key : String) (a : Nat) : ∀ (j : Nat) (s : sortedFiles),
    j < s.Len → withKey key (insertDown a j s).list = withKey key s.list := by
  intro j
  induction j with
  | zero => intro s _; rfl
  | succ j ih =>
    intro s h
    simp only [insertDown]
    split_ifs with hc
    · rw [ih _ (by rw [Len_Swap]; omega), withKey_Swap_adjacent key s j h hc.2]
    · rfl

theorem Len_insertDown (a : Nat) : ∀ (j : Nat) (s : sortedFiles),
    (insertDown a j s).Len = s.Len := by
  intro j
  induction j with
  | zero => intro s; rfl
  | succ j ih =>
    intro s
    simp only [insertDown]
    split_ifs
    · rw [ih, Len_Swap]
    · rfl

theorem insertionSortLoop_withKey (key : String) (a b : Nat) : ∀ (fuel i : Nat)
    (s : sortedFiles), b ≤ s.Len →
    withKey key (insertionSortLoop a b fuel i s).list = withKey key s.list := by
  intro fuel
  induction fuel with
  | zero => intro i s _; rfl
  | succ fuel ih =>
    intro i s hb
    simp only [insertionSortLoop]
    split_ifs with hc
    · rw [ih _ _ (by rw [Len_insertDown]; exact hb), insertDown_withKey key a i s (by omega)]
    · rfl

/-- On a listing of at most 12 entries `sort.Sort` is the insertion sort,
which keeps the entries of equal key in the order they had. -/
theorem goSort_withKey_small (key : String) (s : sortedFiles) (h : s.Len ≤ 12) :
    withKey key (goSort s).list = withKey key s.list := by
  unfold goSort
  simp only
  split_ifs with h1
  · rfl
  · rw [pdqsort_succ, if_pos (by omega)]
    exact insertionSortLoop_withKey key 0 s.Len _ _ s (Nat.le_refl _)

/-! ## Counting the lines -/

theorem countP_isLine (l : List Write) :
    l.countP isLine = l.countP isDirLine + l.countP isFileLine := by
  induction l with
  | nil => rfl
  | cons w l ih =>
    simp only [List.countP_cons, ih]
    cases w with
    | printf t => simp [isLine, isDirLine, isFileLine]
    | println c t => cases c <;> simp [isLine, isDirLine, isFileLine] <;> omega
    | print c t => simp [isLine, isDirLine, isFileLine]

theorem dirTreePrint_counts (v : FileInfo) (sep fullPath : String) (fl : flags) :
    (dirTreePrint v sep fullPath fl []).countP isDirLine = (if v.IsDir = true then 1 else 0) ∧
    (dirTreePrint v sep fullPath fl []).countP isFileLine = (if v.IsDir = true then 0 else 1) := by
  unfold dirTreePrint
  dsimp only
  split_ifs <;> simp [List.countP_cons, isDirLine, isFileLine]

theorem Counted_start : Counted startState := by
  simp [Counted, startState]

theorem Counted.add {e1 e2 : counts × List Write} (h1 : Counted e1) (h2 : Counted e2) :
    Counted (addState e1 e2) := by
  obtain ⟨a1, b1⟩ := h1
  obtain ⟨a2, b2⟩ := h2
  simp [Counted, addState, List.countP_append, a1, a2, b1, b2]

theorem entryEffect_counted
    (walk : String → String → counts × List Write → Option (counts × List Write))
    (dirName sep : String) (fl : flags) (count k : Nat) (v : FileInfo)
    (hw : v.IsDir = true → ∀ s, Counted (resultOf (walk (fullPathOf dirName v) s startState))) :
    Counted (entryEffect walk dirName sep fl count k v) := by
  unfold entryEffect
  have hp := dirTreePrint_counts v (sep ++ glyph count k) (fullPathOf dirName v) fl
  by_cases hd : v.IsDir = true
  · rw [if_pos hd]
    apply Counted.add _ (hw hd _)
    simp [Counted, hp.1, hp.2, hd]
  · rw [if_neg hd]
    simp [Counted, hp.1, hp.2, hd]

theorem listingEffect_counted
    (walk : String → String → counts × List Write → Option (counts × List Write))
    (dirName sep : String) (fl : flags) (count : Nat) : ∀ (l : List FileInfo) (k : Nat),
    (∀ v ∈ l, v.IsDir = true →
      ∀ s, Counted (resultOf (walk (fullPathOf dirName v) s startState))) →
    Counted (listingEffect walk dirName sep fl count k l) := by
  intro l
  induction l with
  | nil => intro k _; exact Counted_start
  | cons v rest ih =>
    intro k hw
    simp only [listingEffect]
    exact (entryEffect_counted walk dirName sep fl count k v
      (hw v (List.mem_cons_self _ _))).add
      (ih (k + 1) fun v' hv' => hw v' (List.mem_cons_of_mem _ hv'))

theorem dirTree_counted (fs : FS) (fl : flags) : ∀ (n : Nat) (dirName sep : String),
    depthWithin fs n dirName = true →
    Counted (resultOf (dirTree fs n dirName sep fl startState)) := by
  intro n
  induction n with
  | zero => intro dirName sep h; simp [depthWithin] at h
  | succ n ih =>
    intro dirName sep h
    cases hd : fs dirName with
    | none =>
      simp only [dirTree, hd, resultOf, Option.getD_some]
      exact Counted_start
    | some d =>
      rw [dirTree_eq fs fl n dirName sep startState d hd h]
      simp only [resultOf, Option.getD_some, start_addState]
      apply listingEffect_counted
      intro v hv hdir s
      simp only [depthWithin, hd, List.all_eq_true, Bool.or_eq_true, Bool.not_eq_true'] at h
      rcases h v (mem_sortedList hv) with h1 | h1
      · rw [hdir] at h1; exact absurd h1 (by decide)
      · exact ih _ _ h1

/-! ## Directories that cannot be read -/

theorem sortedList_nil (fl : flags) : sortedList [] fl = [] := by
  unfold sortedList
  rw [dirTreeFilter_eq]
  have : (goSort ⟨[] ++ []⟩).list = [] := by decide
  rw [this]
  split_ifs <;> rfl

theorem dirTree_readableEmpty (fs : FS) (fl : flags) : ∀ (n : Nat) (dirName sep : String)
    (st : counts × List Write),
    dirTree (readableEmpty fs) n dirName sep fl st = dirTree fs n dirName sep fl st := by
  intro n
  induction n with
  | zero => intro dirName sep st; rfl
  | succ n ih =>
    intro dirName sep st
    have hwalk : (fun p s st => dirTree (readableEmpty fs) n p s fl st) =
        (fun p s st => dirTree fs n p s fl st) := by
      funext p s st; exact ih p s st
    simp only [dirTree, readableEmpty, hwalk]
    cases fs dirName with
    | none =>
      have := sortedList_nil fl
      unfold sortedList at this
      simp only [Option.getD_none, this, List.length_nil, dirTreeLoop]
    | some d => simp only [Option.getD_some]

theorem depthWithin_readableEmpty (fs : FS) : ∀ (n : Nat) (dirName : String),
    depthWithin (readableEmpty fs) n dirName = depthWithin fs n dirName := by
  intro n
  induction n with
  | zero => intro dirName; rfl
  | succ n ih =>
    intro dirName
    simp only [depthWithin, readableEmpty]
    cases fs dirName with
    | none => simp
    | some d => simp only [Option.getD_some, ih]

/-! ## Decimal rendering -/

theorem digitChar_isDigit (d : Nat) (h : d < 10) : (Nat.digitChar d).isDigit = true := by
  interval_cases d <;> decide

theorem toDigitsCore_isDigit (f : Nat) : ∀ (n : Nat) (ds : List Char),
    (∀ c ∈ ds, c.isDigit = true) → ∀ c ∈ Nat.toDigitsCore 10 f n ds, c.isDigit = true := by
  induction f with
  | zero => intro n ds h; simpa [Nat.toDigitsCore] using h
  | succ f ih =>
    intro n ds h
    have hd : (Nat.digitChar (n % 10)).isDigit = true :=
      digitChar_isDigit _ (Nat.mod_lt _ (by decide))
    have hcons : ∀ c ∈ Nat.digitChar (n % 10) :: ds, c.isDigit = true := by
      intro c hc
      rcases List.mem_cons.1 hc with rfl | hc
      · exact hd
      · exact h c hc
    simp only [Nat.toDigitsCore]
    split
    · exact hcons
    · exact ih _ _ hcons

theorem repr_isDigit (n : Nat) : ∀ c ∈ (Nat.repr n).data, c.isDigit = true := by
  simp only [Nat.repr, Nat.toDigits, List.asString]
  exact toDigitsCore_isDigit _ _ _ (by simp)

theorem toString_nat_digit (d : Nat) (h : d < 10) :
    toString d = String.singleton (Nat.digitChar d) := by
  interval_cases d <;> decide


theorem roundTenths_near (size unit : Nat) (hu : 0 < unit) :
    2 * |(10 * (size : Int)) - (roundTenths size unit : Int) * unit| ≤ (unit : Int) := by
  have hdm := Nat.div_add_mod (10 * size) unit
  have hr := Nat.mod_lt (10 * size) hu
  have hdm' : (10 * (size : Int)) = (unit : Int) * ((10 * size / unit : Nat) : Int)
      + ((10 * size % unit : Nat) : Int) := by
    have := congrArg (fun x : Nat => (x : Int)) hdm
    simp only [Nat.cast_add, Nat.cast_mul] at this
    push_cast at this ⊢
    linarith
  have habs : ∀ x : Int, 2 * |x| = |2 * x| := by
    intro x; rw [abs_mul]; norm_num
  unfold roundTenths
  simp only
  generalize 10 * size / unit = q at *
  generalize 10 * size % unit = r at *
  have hr' : (r : Int) < unit := by exact_mod_cast hr
  have hr0 : (0 : Int) ≤ r := by positivity
  rw [habs, abs_le]
  split_ifs with h1 h2 h3
  · have : (2 : Int) * r < unit := by exact_mod_cast h1
    constructor <;> linarith
  · have : (unit : Int) < 2 * r := by exact_mod_cast h2
    push_cast
    constructor <;> linarith
  · have : 2 * r = unit := by omega
    have : (2 : Int) * r = unit := by exact_mod_cast this
    constructor <;> linarith
  · have : 2 * r = unit := by omega
    have : (2 : Int) * r = unit := by exact_mod_cast this
    push_cast
    constructor <;> linarith

theorem sprintf1f_eq (size unit : Nat) :
    sprintf1f size unit = toString (roundTenths size unit / 10) ++ "."
      ++ String.singleton (Nat.digitChar (roundTenths size unit % 10)) := by
  unfold sprintf1f
  rw [toString_nat_digit _ (Nat.mod_lt _ (by decide))]

/-- C2: for `1024^k < size ≤ 1024^(k+1)`, `k = 1..4`, `formatSize size` is a
nearest tenth `t/10` of `size / 1024^k` written as integer part, point and
exactly one decimal digit, followed by the unit letter K, M, G or T; the upper
threshold itself stays in the smaller unit; `formatSize 1025 = "1.0K"`. -/
theorem formatSize_scaled (size : Int) (k : Nat) (hk1 : 1 ≤ k) (hk4 : k ≤ 4)
    (hlo : (1024 : Int) ^ k < size) (hhi : size ≤ (1024 : Int) ^ (k + 1)) :
    (∃ t : Nat, 2 * |10 * size - (t : Int) * (1024 : Int) ^ k| ≤ (1024 : Int) ^ k ∧
      formatSize size = toString (t / 10) ++ "." ++ String.singleton (Nat.digitChar (t % 10))
        ++ unitSuffix k) ∧
    formatSize 1025 = "1.0K" := by
  refine ⟨?_, by decide⟩
  have hpos : 0 ≤ size := le_trans (by positivity) hlo.le
  obtain ⟨n, rfl⟩ := Int.eq_ofNat_of_zero_le hpos
  have key : ∀ u : Nat, 0 < u → (1024 : Int) ^ k = (u : Int) →
      formatSize (n : Int) = sprintf1f n u ++ unitSuffix k →
      ∃ t : Nat, 2 * |10 * (n : Int) - (t : Int) * (1024 : Int) ^ k| ≤ (1024 : Int) ^ k ∧
      formatSize (n : Int) = toString (t / 10) ++ "." ++ String.singleton (Nat.digitChar (t % 10))
        ++ unitSuffix k := by
    intro u hu hku hf
    refine ⟨roundTenths n u, ?_, ?_⟩
    · rw [hku]; exact roundTenths_near n u hu
    · rw [hf, sprintf1f_eq]
  interval_cases k
  · norm_num at hlo hhi
    refine key 1024 (by decide) (by norm_num) ?_
    unfold formatSize
    simp only [unitSuffix]
    rw [if_neg (by omega), if_pos (by omega)]
    rfl
  · norm_num at hlo hhi
    refine key (1024 * 1024) (by decide) (by norm_num) ?_
    unfold formatSize
    simp only [unitSuffix]
    rw [if_neg (by omega), if_neg (by omega), if_pos (by omega)]
    rfl
  · norm_num at hlo hhi
    refine key (1024 * 1024 * 1024) (by decide) (by norm_num) ?_
    unfold formatSize
    simp only [unitSuffix]
    rw [if_neg (by omega), if_neg (by omega), if_neg (by omega), if_pos (by omega)]
    rfl
  · norm_num at hlo hhi
    refine key (1024 * 1024 * 1024 * 1024) (by decide) (by norm_num) ?_
    unfold formatSize
    simp only [unitSuffix]
    rw [if_neg (by omega), if_neg (by omega), if_neg (by omega), if_neg (by omega),
      if_pos (by omega)]
    rfl


theorem formatSize_scaled_witness :
    (∃ t : Nat, 2 * |10 * (1280 : Int) - (t : Int) * (1024 : Int) ^ 1| ≤ (1024 : Int) ^ 1 ∧
      formatSize 1280 = toString (t / 10) ++ "." ++ String.singleton (Nat.digitChar (t % 10))
        ++ unitSuffix 1) ∧
    formatSize 1025 = "1.0K" :=
  formatSize_scaled 1280 1 (by decide) (by decide) (by norm_num) (by norm_num)

theorem toString_int_ne_gt1P (size : Int) : toString size ≠ ">1P" := by
  intro h
  have hd := congrArg String.data h
  cases size with
  | ofNat n =>
    have h1 : toString (Int.ofNat n) = Nat.repr n := rfl
    rw [h1] at hd
    have := repr_isDigit n '>' (by rw [hd]; decide)
    exact absurd this (by decide)
  | negSucc n =>
    have h1 : toString (Int.negSucc n) = "-" ++ Nat.repr (n + 1) := rfl
    rw [h1, String.data_append] at hd
    have := congrArg List.head? hd
    simp at this

theorem append_unit_ne_gt1P (s : String) (c : Char) (hc : c ≠ 'P') :
    s ++ String.singleton c ≠ ">1P" := by
  intro h
  have hd := congrArg String.data h
  rw [String.data_append] at hd
  have := congrArg List.getLast? hd
  simp [String.singleton] at this
  exact hc this

theorem formatSize_le_kilo (size : Int) (h : size ≤ 1024) : formatSize size = toString size := by
  unfold formatSize
  simp only
  rw [if_pos h]

/-- C1 (amended): the threshold `1048576 = 1024^2` stays in the
K unit, so `formatSize 1048576 = "1024.0K"`; the first size rendered in M is
`1048577`, for which the result is `"1.0M"`. -/
theorem formatSize_mega_threshold :
    formatSize 1048576 = "1024.0K" ∧ formatSize 1048577 = "1.0M" := by
  constructor <;> decide

/-- C1 fails as stated: `formatSize 1048576` is not `"1.0M"`. -/
theorem formatSize_mega_not_1M : formatSize 1048576 ≠ "1.0M" := by decide

/-- C3: for `0 ≤ size ≤ 1024`, `formatSize size` is the decimal numeral of
`size`: it consists of decimal digits only (no suffix, no point); and
`formatSize 1024 = "1024"`. -/
theorem formatSize_small (size : Int) (h0 : 0 ≤ size) (h1 : size ≤ 1024) :
    formatSize size = Nat.repr size.toNat ∧
    (∀ c ∈ (formatSize size).data, c.isDigit = true) ∧
    formatSize 1024 = "1024" := by
  obtain ⟨n, rfl⟩ := Int.eq_ofNat_of_zero_le h0
  have h : formatSize (n : Int) = Nat.repr n := by
    rw [formatSize_le_kilo _ h1]; rfl
  refine ⟨by simpa using h, ?_, by decide⟩
  rw [h]
  exact repr_isDigit n

theorem formatSize_small_witness :
    formatSize 1000 = Nat.repr (1000 : Int).toNat ∧
    (∀ c ∈ (formatSize 1000).data, c.isDigit = true) ∧
    formatSize 1024 = "1024" :=
  formatSize_small 1000 (by decide) (by decide)

/-- C4: `formatSize size` is the literal `">1P"` exactly for the sizes above
`1024^5`; in particular for `1024^5 + 1`. -/
theorem formatSize_peta (size : Int) :
    (formatSize size = ">1P" ↔ (1024 : Int) ^ 5 < size) ∧
    formatSize ((1024 : Int) ^ 5 + 1) = ">1P" := by
  refine ⟨⟨?_, ?_⟩, by decide⟩
  · intro h
    by_contra hle
    have hle : size ≤ 1125899906842624 := by norm_num at hle; exact hle
    revert h
    unfold formatSize
    simp only
    split_ifs
    · exact toString_int_ne_gt1P size
    · exact append_unit_ne_gt1P _ 'K' (by decide)
    · exact append_unit_ne_gt1P _ 'M' (by decide)
    · exact append_unit_ne_gt1P _ 'G' (by decide)
    · exact append_unit_ne_gt1P _ 'T' (by decide)
    · omega
  · intro h
    have h : 1125899906842624 < size := by norm_num at h; exact h
    unfold formatSize
    simp only
    rw [if_neg (by omega), if_neg (by omega), if_neg (by omega), if_neg (by omega),
      if_neg (by omega)]

/-! ## The claims about the filter and the sort -/

/-- C5: `dirTreeFilter` returns the list unchanged when `flags.d` is false,
and otherwise the sub-sequence of its entries with `IsDir`, in their order
(the `filter` of the list, which is a sublist of it). -/
theorem dirTreeFilter_spec (list : List FileInfo) (fl : flags) :
    dirTreeFilter list fl = (if fl.d = true then list.filter (fun v => v.IsDir) else list) ∧
    (dirTreeFilter list fl).Sublist list :=
  ⟨dirTreeFilter_eq list fl, dirTreeFilter_sublist list fl⟩

/-- C6 fails as stated: in directories-only mode the list that is iterated
is not a permutation of what `Readdir` delivered when a file is among it. -/
theorem sortedList_not_perm :
    ¬ (sortedList [plainFile "a"] ⟨false, false, true⟩).Perm [plainFile "a"] := by
  have h : sortedList [plainFile "a"] ⟨false, false, true⟩ = [] := by decide
  rw [h]
  intro hp
  simpa using hp.length_eq

/-- C6 (amended): the list that `sort.Sort` leaves is a permutation of the
entries delivered by `Readdir`; the list that is iterated is that list, or in
directories-only mode its sub-sequence of directories, so it is a permutation
of the delivered entries when the mode is off; in both modes it is in
ascending order of `ToLower(name)`: no entry, adjacent or not, is followed by
one with a smaller lower-cased name.  Of the two siblings `B` and `a`, in
either order of delivery, `a` comes first. -/
theorem sortedList_sorted (d : List FileInfo) (fl : flags) :
    (goSort ⟨[] ++ d⟩).list.Perm d ∧
    sortedList d fl = (if fl.d = true then (goSort ⟨[] ++ d⟩).list.filter (fun v => v.IsDir)
      else (goSort ⟨[] ++ d⟩).list) ∧
    (sortedList d ⟨fl.f, fl.h, false⟩).Perm d ∧
    (sortedList d fl).Chain' (fun x y => stringLess (ToLower y.Name) (ToLower x.Name) = false) ∧
    (sortedList d fl).Pairwise
      (fun x y => stringLess (ToLower y.Name) (ToLower x.Name) = false) ∧
    sortedList [plainFile "B", plainFile "a"] ⟨fl.f, fl.h, false⟩ =
      [plainFile "a", plainFile "B"] ∧
    sortedList [plainFile "a", plainFile "B"] ⟨fl.f, fl.h, false⟩ =
      [plainFile "a", plainFile "B"] := by
  refine ⟨goSort_perm d, dirTreeFilter_eq _ fl, ?_, (sortedList_pairwise d fl).chain',
    sortedList_pairwise d fl, ?_, ?_⟩
  · unfold sortedList
    rw [dirTreeFilter_eq]
    exact goSort_perm d
  · unfold sortedList
    rw [dirTreeFilter_eq]
    simp only [Bool.false_eq_true, if_false]
    decide
  · unfold sortedList
    rw [dirTreeFilter_eq]
    simp only [Bool.false_eq_true, if_false]
    decide

/-- C7 fails as stated: of the 13 entries of `listing13`, `m` is delivered
before `M`, and `sort.Sort` leaves `M` before `m`, in the list that `dirTree`
then iterates over. -/
theorem sort_unstable_13 :
    withKey "m" listing13 = [plainFile "m", plainFile "M"] ∧
    withKey "m" (goSort ⟨[] ++ listing13⟩).list = [plainFile "M", plainFile "m"] ∧
    withKey "m" (sortedList listing13 ⟨false, false, false⟩) =
      [plainFile "M", plainFile "m"] := by
  refine ⟨?_, ?_, ?_⟩ <;> decide

/-- C7 (amended): on a directory listing of at most 12 entries the sort of
`dirTree` keeps, for every lower-cased name, the entries of that name in the
relative order in which `Readdir` delivered them, before and after the
filter. -/
theorem sort_stable_small (d : List FileInfo) (fl : flags) (key : String)
    (h : d.length ≤ 12) :
    withKey key (goSort ⟨[] ++ d⟩).list = withKey key d ∧
    withKey key (sortedList d fl) = withKey key (dirTreeFilter d fl) := by
  have h1 : withKey key (goSort ⟨[] ++ d⟩).list = withKey key d := by
    have := goSort_withKey_small key ⟨[] ++ d⟩ (by simpa [sortedFiles.Len] using h)
    simpa using this
  refine ⟨h1, ?_⟩
  unfold sortedList
  rw [dirTreeFilter_eq, dirTreeFilter_eq]
  split_ifs
  · unfold withKey at h1 ⊢
    rw [List.filter_filter, List.filter_filter]
    have := congrArg (List.filter fun v => v.IsDir) h1
    rw [List.filter_filter, List.filter_filter] at this
    simpa [Bool.and_comm] using this
  · exact h1

theorem sort_stable_small_witness :
    withKey "a" (goSort ⟨[] ++ [plainFile "b", plainFile "a", plainFile "A"]⟩).list =
      withKey "a" [plainFile "b", plainFile "a", plainFile "A"] ∧
    withKey "a" (sortedList [plainFile "b", plainFile "a", plainFile "A"] ⟨false, false, false⟩) =
      withKey "a" (dirTreeFilter [plainFile "b", plainFile "a", plainFile "A"]
        ⟨false, false, false⟩) :=
  sort_stable_small [plainFile "b", plainFile "a", plainFile "A"] ⟨false, false, false⟩ "a"
    (by decide)

/-! ## The claims about the walk -/

/-- C8: a call of `dirTree` on a readable directory returns, and what it
does is the effect of its filtered listing of `N` entries, in which the line
of the entry at index `k` starts with the prefix followed by `glyph N k`:
the corner `└── ` for `k = N - 1` and for no other index, the tee `├── ` for
every other index; a single entry takes the corner. -/
theorem dirTree_glyphs (fs : FS) (fl : flags) (n : Nat) (dirName sep : String)
    (st : counts × List Write) (d : List FileInfo) (hd : fs dirName = some d)
    (h : depthWithin fs (n + 1) dirName = true) :
    dirTree fs (n + 1) dirName sep fl st =
      some (addState st (listingEffect (fun p s st => dirTree fs n p s fl st) dirName sep fl
        (sortedList d fl).length 0 (sortedList d fl))) ∧
    (∀ walk k v, (entryEffect walk dirName sep fl (sortedList d fl).length k v).2.head? =
      some (Write.printf (sep ++ glyph (sortedList d fl).length k))) ∧
    (∀ k, k < (sortedList d fl).length →
      (glyph (sortedList d fl).length k = "└── " ↔ k = (sortedList d fl).length - 1) ∧
      (glyph (sortedList d fl).length k = "├── " ↔ k ≠ (sortedList d fl).length - 1)) ∧
    glyph 1 0 = "└── " := by
  refine ⟨dirTree_eq fs fl n dirName sep st d hd h, ?_, ?_, by decide⟩
  · intro walk k v
    unfold entryEffect dirTreePrint
    split_ifs <;> simp [addState]
  · intro k _
    unfold glyph
    by_cases hk : k = (sortedList d fl).length - 1
    · rw [if_pos hk]
      exact ⟨⟨fun _ => hk, fun _ => rfl⟩,
        ⟨fun hc => absurd hc (by decide), fun hc => absurd hk hc⟩⟩
    · rw [if_neg hk]
      exact ⟨⟨fun hc => absurd hc (by decide), fun hc => absurd hc hk⟩,
        ⟨fun _ => hk, fun _ => rfl⟩⟩

theorem dirTree_glyphs_witness :
    exampleFS "." = some exampleRoot ∧ depthWithin exampleFS 2 "." = true ∧
    dirTree exampleFS 2 "." "" exampleFlags startState =
      some (addState startState (listingEffect
        (fun p s st => dirTree exampleFS 1 p s exampleFlags st) "." "" exampleFlags
        (sortedList exampleRoot exampleFlags).length 0 (sortedList exampleRoot exampleFlags))) :=
  ⟨rfl, by decide,
    (dirTree_glyphs exampleFS exampleFlags 1 "." "" startState exampleRoot rfl (by decide)).1⟩

/-- The walk of `exampleFS` from `.` with `-h`: the unreadable directory
`locked` has its line and is counted, and nothing is written below it. -/
theorem exampleFS_walk :
    dirTree exampleFS 2 "." "" exampleFlags startState =
      some (⟨2, 2⟩,
        [Write.printf "├── ", Write.printf "[4.0K]  ", Write.println Color.hiBlueBold "A",
         Write.printf "│\u00a0\u00a0 └── ", Write.printf "[2.0K]  ",
         Write.println Color.hiGreenBold "x.sh",
         Write.printf "├── ", Write.printf "[  10]  ", Write.println Color.plain "b.txt",
         Write.printf "└── ", Write.printf "[4.0K]  ",
         Write.println Color.hiBlueBold "locked"]) := by
  decide

/-- C9: a call of `dirTree` with enough fuel returns; it only appends to the
output, and it adds to `counts.dirs` the number of lines it wrote for
directory entries and to `counts.files` the number of lines it wrote for the
other entries, so the two increments sum to the number of lines written and
neither counter decreases.  (`dirTreePrint` writes one line per entry, a
directory line exactly for an entry with `IsDir`.) -/
theorem dirTree_counts (fs : FS) (fl : flags) (n : Nat) (dirName sep : String) (c : counts)
    (out : List Write) (h : depthWithin fs n dirName = true) :
    (∃ c' lines, dirTree fs n dirName sep fl (c, out) = some (c', out ++ lines) ∧
      c'.dirs = c.dirs + lines.countP isDirLine ∧
      c'.files = c.files + lines.countP isFileLine ∧
      lines.countP isDirLine + lines.countP isFileLine = lines.countP isLine ∧
      c.dirs ≤ c'.dirs ∧ c.files ≤ c'.files) ∧
    (∀ (v : FileInfo) (sp fullPath : String),
      (dirTreePrint v sp fullPath fl []).countP isDirLine = (if v.IsDir = true then 1 else 0) ∧
      (dirTreePrint v sp fullPath fl []).countP isFileLine =
        (if v.IsDir = true then 0 else 1)) := by
  refine ⟨?_, fun v sp fullPath => dirTreePrint_counts v sp fullPath fl⟩
  have hsome := dirTree_isSome fs fl n dirName sep startState h
  obtain ⟨r, hr⟩ := Option.isSome_iff_exists.1 hsome
  have hc := dirTree_counted fs fl n dirName sep h
  rw [hr] at hc
  simp only [resultOf, Option.getD_some] at hc
  have hf := dirTree_framed fs fl n dirName sep (c, out)
  simp only [hr, Option.map_some'] at hf
  refine ⟨⟨c.dirs + r.1.dirs, c.files + r.1.files⟩, r.2, hf, ?_, ?_, ?_, ?_, ?_⟩
  · simp only; rw [hc.1]
  · simp only; rw [hc.2]
  · exact (countP_isLine r.2).symm
  · simp only; omega
  · simp only; omega

theorem dirTree_counts_witness :
    depthWithin exampleFS 2 "." = true ∧
    ∃ c' lines, dirTree exampleFS 2 "." "" exampleFlags (⟨0, 0⟩, []) = some (c', [] ++ lines) ∧
      c'.dirs = 0 + lines.countP isDirLine ∧
      c'.files = 0 + lines.countP isFileLine ∧
      lines.countP isDirLine + lines.countP isFileLine = lines.countP isLine ∧
      0 ≤ c'.dirs ∧ 0 ≤ c'.files :=
  ⟨by decide, (dirTree_counts exampleFS exampleFlags 2 "." "" ⟨0, 0⟩ [] (by decide)).1⟩

/-- C10: a call of `dirTree` on a directory that cannot be opened or listed
returns at once with the counters and the output as they were; and every
walk, with any fuel, has the same result in the file system where each such
directory is a readable empty directory instead (which needs the same fuel):
the entries beside and above an unreadable directory are visited, printed
and counted as they would be then, the unreadable directory itself
included. -/
theorem dirTree_unreadable (fs : FS) (fl : flags) (n : Nat) (dirName sep : String)
    (st : counts × List Write) (h : fs dirName = none) :
    dirTree fs (n + 1) dirName sep fl st = some st ∧
    readableEmpty fs dirName = some [] ∧
    (∀ m p s st', dirTree fs m p s fl st' = dirTree (readableEmpty fs) m p s fl st') ∧
    (∀ m p, depthWithin (readableEmpty fs) m p = depthWithin fs m p) := by
  refine ⟨?_, ?_, fun m p s st' => (dirTree_readableEmpty fs fl m p s st').symm,
    depthWithin_readableEmpty fs⟩
  · simp only [dirTree, h]
  · simp only [readableEmpty, h, Option.getD_none]

theorem dirTree_unreadable_witness :
    exampleFS "./locked" = none ∧
    dirTree exampleFS 1 "./locked" "    " exampleFlags (⟨2, 1⟩, []) = some (⟨2, 1⟩, []) :=
  ⟨rfl, (dirTree_unreadable exampleFS exampleFlags 0 "./locked" "    " (⟨2, 1⟩, []) rfl).1⟩

/-! ## Directories-only mode and the summary -/

theorem isDir_of_mem_sortedList {d : List FileInfo} {fl : flags} {v : FileInfo}
    (hd : fl.d = true) (h : v ∈ sortedList d fl) : v.IsDir = true := by
  unfold sortedList at h
  rw [dirTreeFilter_eq, if_pos hd] at h
  exact (List.mem_filter.1 h).2

theorem listingEffect_files_zero
    (walk : String → String → counts × List Write → Option (counts × List Write))
    (dirName sep : String) (fl : flags) (count : Nat) : ∀ (l : List FileInfo) (k : Nat),
    (∀ v ∈ l, v.IsDir = true ∧
      ∀ s, (resultOf (walk (fullPathOf dirName v) s startState)).1.files = 0) →
    (listingEffect walk dirName sep fl count k l).1.files = 0 := by
  intro l
  induction l with
  | nil => intro k _; rfl
  | cons v rest ih =>
    intro k hw
    obtain ⟨hdir, hsub⟩ := hw v (List.mem_cons_self _ _)
    have hrest := ih (k + 1) fun v' hv' => hw v' (List.mem_cons_of_mem _ hv')
    simp only [listingEffect, entryEffect, hdir, if_true, addState, hrest,
      hsub (childSep sep count k)]

theorem dirTree_files_zero (fs : FS) (fl : flags) (hd : fl.d = true) :
    ∀ (n : Nat) (dirName sep : String), depthWithin fs n dirName = true →
    (resultOf (dirTree fs n dirName sep fl startState)).1.files = 0 := by
  intro n
  induction n with
  | zero => intro dirName sep h; simp [depthWithin] at h
  | succ n ih =>
    intro dirName sep h
    cases hfs : fs dirName with
    | none => simp [dirTree, hfs, resultOf, startState]
    | some d =>
      rw [dirTree_eq fs fl n dirName sep startState d hfs h]
      simp only [resultOf, Option.getD_some, start_addState]
      apply listingEffect_files_zero
      intro v hv
      have hdir := isDir_of_mem_sortedList hd hv
      refine ⟨hdir, fun s => ?_⟩
      simp only [depthWithin, hfs, List.all_eq_true, Bool.or_eq_true, Bool.not_eq_true'] at h
      rcases h v (mem_sortedList hv) with h1 | h1
      · rw [hdir] at h1; exact absurd h1 (by decide)
      · exact ih _ _ h1

/-- A call of `dirTree` with enough fuel returns the start state advanced by
its effect, which is counted line by line. -/
theorem dirTree_result (fs : FS) (fl : flags) (n : Nat) (dirName sep : String)
    (st : counts × List Write) (h : depthWithin fs n dirName = true) :
    dirTree fs n dirName sep fl st =
      some (addState st (resultOf (dirTree fs n dirName sep fl startState))) ∧
    Counted (resultOf (dirTree fs n dirName sep fl startState)) := by
  have hsome := dirTree_isSome fs fl n dirName sep startState h
  obtain ⟨r, hr⟩ := Option.isSome_iff_exists.1 hsome
  have hf := dirTree_framed fs fl n dirName sep st
  simp only [hr, Option.map_some'] at hf
  refine ⟨?_, dirTree_counted fs fl n dirName sep h⟩
  rw [hf, hr]
  rfl

/-- What `main` writes when the directory can be opened and the walk
returns. -/
theorem main_eq (canOpen : String → Bool) (fs : FS) (fuel : Nat) (f h d : Bool)
    (args : List String) (c : counts) (out : List Write)
    (hopen : canOpen (rootArg args) = true)
    (hwalk : dirTree fs fuel (rootArg args) "" ⟨f, h, d⟩
      (⟨0, 0⟩, [Write.println Color.hiBlueBold (rootArg args)]) = some (c, out)) :
    main canOpen fs fuel f h d args = some (0, out ++ [Write.printf (summaryText d c)]) := by
  cases args with
  | nil =>
    simp only [rootArg] at hopen hwalk
    simp only [main, hopen, not_true_eq_false, if_false, hwalk, summaryText]
    cases d <;> rfl
  | cons a rest =>
    simp only [rootArg] at hopen hwalk
    simp only [main, hopen, not_true_eq_false, if_false, hwalk, summaryText]
    cases d <;> rfl

/-! ## The letters of a mode string -/

theorem letters_head (q : Nat × Char → Bool) (x : Nat × Char) (xs : List (Nat × Char)) :
    (((x :: xs).filter q).map Prod.snd).head? =
      if q x = true then some x.2 else ((xs.filter q).map Prod.snd).head? := by
  rw [List.filter_cons]
  split_ifs <;> rfl

theorem letters_mem (q : Nat × Char → Bool) (xs : List (Nat × Char)) (c : Char)
    (h : c ∈ (xs.filter q).map Prod.snd) : c ∈ xs.map Prod.snd := by
  obtain ⟨p, hp, rfl⟩ := List.mem_map.1 h
  exact List.mem_map.2 ⟨p, (List.mem_filter.1 hp).1, rfl⟩

theorem hasPrefix_L_iff (buf perm : List Char) :
    HasPrefix ⟨(if buf.length = 0 then ['-'] else buf) ++ perm⟩ "L" = true ↔
      buf.head? = some 'L' := by
  have hL : "L".data = ['L'] := rfl
  cases buf with
  | nil => simp [HasPrefix, hL]
  | cons c t =>
    simp only [HasPrefix, hL]
    simp
    exact eq_comm

theorem hasPrefix_L (m : Nat) :
    HasPrefix (FileModeString m) "L" = true ↔
      (m.testBit 27 = true ∧ m.testBit 31 = false ∧ m.testBit 30 = false ∧
        m.testBit 29 = false ∧ m.testBit 28 = false) := by
  have hs : "dalTLDpSugct?".data.enum =
      [(0, 'd'), (1, 'a'), (2, 'l'), (3, 'T'), (4, 'L'), (5, 'D'), (6, 'p'), (7, 'S'),
        (8, 'u'), (9, 'g'), (10, 'c'), (11, 't'), (12, '?')] := rfl
  unfold FileModeString
  simp only []
  rw [hasPrefix_L_iff, hs]
  rw [letters_head, letters_head, letters_head, letters_head, letters_head]
  simp only [show 32 - 1 - 0 = 31 from rfl, show 32 - 1 - 1 = 30 from rfl,
    show 32 - 1 - 2 = 29 from rfl, show 32 - 1 - 3 = 28 from rfl, show 32 - 1 - 4 = 27 from rfl]
  cases m.testBit 31 <;> cases m.testBit 30 <;> cases m.testBit 29 <;> cases m.testBit 28 <;>
    cases h27 : m.testBit 27 <;> simp

theorem mem_of_contains (s : String) (c : Char) :
    Contains s (String.singleton c) = true ↔ c ∈ s.data := by
  have hc : (String.singleton c).data = [c] := rfl
  simp only [Contains, hc, List.any_eq_true]
  constructor
  · rintro ⟨t, ht, hp⟩
    cases t with
    | nil => simp at hp
    | cons x xs =>
      have hx : c = x := by simpa using hp
      have hsuf : (x :: xs) <:+ s.data := (List.mem_tails _ _).1 ht
      exact hsuf.subset (by rw [hx]; exact List.mem_cons_self _ _)
  · intro hmem
    obtain ⟨a, b, hab⟩ := List.append_of_mem hmem
    refine ⟨c :: b, (List.mem_tails _ _).2 ⟨a, hab.symm⟩, by simp⟩

theorem x_eq_ite (b : Bool) (c : Char) :
    ('x' = if b = true then c else '-') ↔ (b = true ∧ c = 'x') := by
  cases b
  · simp only [Bool.false_eq_true, if_false, false_and, iff_false]
    decide
  · simp only [if_true, true_and]
    exact eq_comm

theorem contains_x (m : Nat) :
    Contains (FileModeString m) "x" = true ↔
      (m.testBit 6 = true ∨ m.testBit 3 = true ∨ m.testBit 0 = true) := by
  have hx : "x" = String.singleton 'x' := rfl
  have hs : "dalTLDpSugct?".data.enum =
      [(0, 'd'), (1, 'a'), (2, 'l'), (3, 'T'), (4, 'L'), (5, 'D'), (6, 'p'), (7, 'S'),
        (8, 'u'), (9, 'g'), (10, 'c'), (11, 't'), (12, '?')] := rfl
  have hr : "rwxrwxrwx".data.enum =
      [(0, 'r'), (1, 'w'), (2, 'x'), (3, 'r'), (4, 'w'), (5, 'x'), (6, 'r'), (7, 'w'),
        (8, 'x')] := rfl
  rw [hx, mem_of_contains]
  unfold FileModeString
  simp only [hs, hr, List.mem_append]
  have hno : ¬ 'x' ∈ (if ((List.filter (fun p : Nat × Char => m.testBit (32 - 1 - p.1))
      [(0, 'd'), (1, 'a'), (2, 'l'), (3, 'T'), (4, 'L'), (5, 'D'), (6, 'p'), (7, 'S'),
        (8, 'u'), (9, 'g'), (10, 'c'), (11, 't'), (12, '?')]).map Prod.snd).length = 0
      then ['-'] else (List.filter (fun p : Nat × Char => m.testBit (32 - 1 - p.1))
      [(0, 'd'), (1, 'a'), (2, 'l'), (3, 'T'), (4, 'L'), (5, 'D'), (6, 'p'), (7, 'S'),
        (8, 'u'), (9, 'g'), (10, 'c'), (11, 't'), (12, '?')]).map Prod.snd) := by
    intro hmem
    split_ifs at hmem
    · simp at hmem
    · have := letters_mem _ _ _ hmem
      simp at this
  have hperm : 'x' ∈ List.map (fun p : Nat × Char => if m.testBit (9 - 1 - p.1) = true then p.2
      else '-') [(0, 'r'), (1, 'w'), (2, 'x'), (3, 'r'), (4, 'w'), (5, 'x'), (6, 'r'), (7, 'w'),
        (8, 'x')] ↔ (m.testBit 6 = true ∨ m.testBit 3 = true ∨ m.testBit 0 = true) := by
    simp only [List.map_cons, List.map_nil, List.mem_cons, List.not_mem_nil, x_eq_ite,
      show 9 - 1 - 2 = 6 from rfl, show 9 - 1 - 5 = 3 from rfl, show 9 - 1 - 8 = 0 from rfl,
      show (('r' : Char) = 'x') = False from by decide,
      show (('w' : Char) = 'x') = False from by decide, and_false, and_true, false_or, or_false]
  rw [hperm]
  constructor
  · rintro (h | h)
    · exact absurd h hno
    · exact h
  · intro h
    exact Or.inr h

/-! ## The lines of a walk -/

/-- The three writes of `dirTreePrint`. -/
theorem dirTreePrint_eq (v : FileInfo) (sep fullPath : String) (fl : flags) (out : List Write) :
    dirTreePrint v sep fullPath fl out =
      out ++ (Write.printf sep :: (if fl.h = true then [Write.printf (sizeField v)] else []) ++
        [Write.println (colorOf v) (if fl.f = true then fullPath else v.Name)]) := by
  unfold dirTreePrint colorOf sizeField
  cases fl.h <;> simp

theorem addState_snd (a b : counts × List Write) : (addState a b).2 = a.2 ++ b.2 := rfl

theorem addState_fst (a b : counts × List Write) :
    (addState a b).1 = ⟨a.1.dirs + b.1.dirs, a.1.files + b.1.files⟩ := rfl

theorem entryEffect_snd
    (walk : String → String → counts × List Write → Option (counts × List Write))
    (dirName sep : String) (fl : flags) (count k : Nat) (v : FileInfo) :
    (entryEffect walk dirName sep fl count k v).2 =
      dirTreePrint v (sep ++ glyph count k) (fullPathOf dirName v) fl [] ++
        if v.IsDir = true then
          (resultOf (walk (fullPathOf dirName v) (childSep sep count k) startState)).2
        else [] := by
  unfold entryEffect
  cases v.IsDir <;> simp [addState]

/-- The effect of a listing is the effect of its first part followed by the
effect of the rest. -/
theorem listingEffect_append
    (walk : String → String → counts × List Write → Option (counts × List Write))
    (dirName sep : String) (fl : flags) (count : Nat) : ∀ (l1 l2 : List FileInfo) (k : Nat),
    listingEffect walk dirName sep fl count k (l1 ++ l2) =
      addState (listingEffect walk dirName sep fl count k l1)
        (listingEffect walk dirName sep fl count (k + l1.length) l2) := by
  intro l1
  induction l1 with
  | nil => intro l2 k; simp [listingEffect, start_addState]
  | cons v rest ih =>
    intro l2 k
    have e : k + (rest.length + 1) = k + 1 + rest.length := by omega
    rw [List.cons_append]
    simp only [listingEffect, List.length_cons]
    rw [ih l2 (k + 1), e, addState_assoc]

/-- The output of a listing is the outputs of its entries, one after the
other. -/
theorem listingEffect_out
    (walk : String → String → counts × List Write → Option (counts × List Write))
    (dirName sep : String) (fl : flags) (count : Nat) (g : Nat → FileInfo → List Write) :
    ∀ (l : List FileInfo) (k : Nat),
    (∀ v ∈ l, ∀ j, (entryEffect walk dirName sep fl count j v).2 = g j v) →
    (listingEffect walk dirName sep fl count k l).2 =
      ((l.enumFrom k).map fun p => g p.1 p.2).flatten := by
  intro l
  induction l with
  | nil => intro k _; rfl
  | cons v rest ih =>
    intro k hg
    simp only [listingEffect, addState_snd, List.enumFrom_cons, List.map_cons, List.flatten_cons]
    rw [hg v (List.mem_cons_self _ _) k, ih (k + 1) fun v' hv' => hg v' (List.mem_cons_of_mem _ hv')]

/-- A directory entry of a listing within depth `n + 1` is within depth `n`. -/
theorem depthWithin_child (fs : FS) (fl : flags) (n : Nat) (dirName : String) (d : List FileInfo)
    (hfs : fs dirName = some d) (h : depthWithin fs (n + 1) dirName = true) (v : FileInfo)
    (hv : v ∈ sortedList d fl) (hdir : v.IsDir = true) :
    depthWithin fs n (fullPathOf dirName v) = true := by
  simp only [depthWithin, hfs, List.all_eq_true, Bool.or_eq_true, Bool.not_eq_true'] at h
  rcases h v (mem_sortedList hv) with h1 | h1
  · rw [hdir] at h1; exact absurd h1 (by decide)
  · exact h1

/-- The output of one call of `dirTree`, entry by entry. -/
theorem dirTree_out (fs : FS) (fl : flags) (n : Nat) (dirName sep : String) (d : List FileInfo)
    (hfs : fs dirName = some d) (h : depthWithin fs (n + 1) dirName = true) :
    (resultOf (dirTree fs (n + 1) dirName sep fl startState)).2 =
      ((sortedList d fl).enum.map fun p =>
        dirTreePrint p.2 (sep ++ glyph (sortedList d fl).length p.1) (fullPathOf dirName p.2) fl
            [] ++
          if p.2.IsDir = true then
            (resultOf (dirTree fs n (fullPathOf dirName p.2)
              (childSep sep (sortedList d fl).length p.1) fl startState)).2
          else []).flatten := by
  rw [dirTree_eq fs fl n dirName sep startState d hfs h]
  simp only [resultOf, Option.getD_some, start_addState]
  exact listingEffect_out _ dirName sep fl _ _ _ 0 fun v _ j => entryEffect_snd _ _ _ _ _ _ _

/-! ## Every line of a walk starts with the prefix of the walk -/

theorem hasPrefix_iff (t p : String) : HasPrefix t p = true ↔ p.data <+: t.data := by
  unfold HasPrefix
  exact List.isPrefixOf_iff_prefix

theorem hasPrefix_append (p q : String) : HasPrefix (p ++ q) p = true := by
  rw [hasPrefix_iff, String.data_append]
  exact List.prefix_append _ _

theorem hasPrefix_trans {t p q : String} (h1 : HasPrefix t p = true) (h2 : HasPrefix p q = true) :
    HasPrefix t q = true := by
  rw [hasPrefix_iff] at *
  exact h2.trans h1

/-- The one line of `dirTreePrint`. -/
theorem lineTextsFrom_print (acc : String) (v : FileInfo) (sep fullPath : String) (fl : flags)
    (rest : List Write) :
    lineTextsFrom acc (dirTreePrint v sep fullPath fl [] ++ rest) =
      (acc ++ sep ++ (if fl.h = true then sizeField v else "") ++
        (if fl.f = true then fullPath else v.Name)) :: lineTextsFrom "" rest := by
  rw [dirTreePrint_eq]
  cases fl.h
  · simp [lineTextsFrom]
  · simp [lineTextsFrom]

theorem LinesStartWith_nil (p : String) : LinesStartWith p [] := by
  constructor
  · intro rest; simp [lineTexts, lineTextsFrom]
  · intro t ht; simp [lineTexts, lineTextsFrom] at ht

theorem LinesStartWith_append {p : String} {a b : List Write} (ha : LinesStartWith p a)
    (hb : LinesStartWith p b) : LinesStartWith p (a ++ b) := by
  constructor
  · intro rest
    rw [List.append_assoc, ha.1, hb.1, ha.1, List.append_assoc]
  · intro t ht
    rw [ha.1] at ht
    rcases List.mem_append.1 ht with h | h
    · exact ha.2 t h
    · exact hb.2 t h

theorem LinesStartWith_mono {p q : String} {a : List Write} (ha : LinesStartWith p a)
    (hq : HasPrefix p q = true) : LinesStartWith q a :=
  ⟨ha.1, fun t ht => hasPrefix_trans (ha.2 t ht) hq⟩

theorem LinesStartWith_print (v : FileInfo) (sep g fullPath : String) (fl : flags) :
    LinesStartWith sep (dirTreePrint v (sep ++ g) fullPath fl []) := by
  have h1 := lineTextsFrom_print "" v (sep ++ g) fullPath fl []
  rw [List.append_nil] at h1
  constructor
  · intro rest
    simp only [lineTexts]
    rw [lineTextsFrom_print, h1]
    simp [lineTextsFrom]
  · intro t ht
    simp only [lineTexts] at ht
    rw [h1] at ht
    simp only [lineTextsFrom, List.mem_singleton] at ht
    rw [ht, hasPrefix_iff]
    simp only [String.data_append]
    exact ⟨_, by simp [List.append_assoc]; rfl⟩

theorem childSep_hasPrefix (sep : String) (count k : Nat) :
    HasPrefix (childSep sep count k) sep = true := by
  unfold childSep
  split_ifs <;> exact hasPrefix_append _ _

theorem listingEffect_lines
    (walk : String → String → counts × List Write → Option (counts × List Write))
    (dirName sep : String) (fl : flags) (count : Nat) : ∀ (l : List FileInfo) (k : Nat),
    (∀ v ∈ l, v.IsDir = true → ∀ s,
      LinesStartWith s (resultOf (walk (fullPathOf dirName v) s startState)).2) →
    LinesStartWith sep (listingEffect walk dirName sep fl count k l).2 := by
  intro l
  induction l with
  | nil => intro k _; exact LinesStartWith_nil _
  | cons v rest ih =>
    intro k hw
    simp only [listingEffect, addState_snd, entryEffect_snd]
    refine LinesStartWith_append (LinesStartWith_append (LinesStartWith_print _ _ _ _ _) ?_)
      (ih (k + 1) fun v' hv' => hw v' (List.mem_cons_of_mem _ hv'))
    by_cases hdir : v.IsDir = true
    · rw [if_pos hdir]
      exact LinesStartWith_mono (hw v (List.mem_cons_self _ _) hdir _) (childSep_hasPrefix _ _ _)
    · rw [if_neg hdir]
      exact LinesStartWith_nil _

theorem listingEffect_lines_of_mem (fs : FS) (fl : flags) (n : Nat) (dirName sep : String)
    (d : List FileInfo) (hfs : fs dirName = some d) (h : depthWithin fs (n + 1) dirName = true)
    (ih : ∀ (dirName sep : String), depthWithin fs n dirName = true →
      LinesStartWith sep (resultOf (dirTree fs n dirName sep fl startState)).2) (k : Nat) :
    LinesStartWith sep (listingEffect (fun p s st => dirTree fs n p s fl st) dirName sep fl
      (sortedList d fl).length k (sortedList d fl)).2 := by
  apply listingEffect_lines
  intro v hv hdir s
  exact ih _ s (depthWithin_child fs fl n dirName d hfs h v hv hdir)

/-- Every line that a walk writes starts with the prefix the walk was
called with. -/
theorem dirTree_lines (fs : FS) (fl : flags) : ∀ (n : Nat) (dirName sep : String),
    depthWithin fs n dirName = true →
    LinesStartWith sep (resultOf (dirTree fs n dirName sep fl startState)).2 := by
  intro n
  induction n with
  | zero => intro dirName sep _; exact LinesStartWith_nil _
  | succ n ih =>
    intro dirName sep hdepth
    cases hfs : fs dirName with
    | none =>
      have : dirTree fs (n + 1) dirName sep fl startState = some startState := by
        simp [dirTree, hfs]
      rw [this]
      exact LinesStartWith_nil _
    | some d =>
      rw [dirTree_eq fs fl n dirName sep startState d hfs hdepth]
      simp only [resultOf, Option.getD_some, start_addState]
      exact listingEffect_lines_of_mem fs fl n dirName sep d hfs hdepth ih 0

/-! ## Indentation -/

theorem foldl_append_data : ∀ (l : List String) (acc : String),
    (l.foldl (fun a b => a ++ b) acc).data = acc.data ++ (l.map String.data).flatten := by
  intro l
  induction l with
  | nil => intro acc; simp
  | cons s rest ih =>
    intro acc
    simp only [List.foldl_cons, ih, String.data_append, List.map_cons, List.flatten_cons,
      List.append_assoc]

theorem segsOf_data (anc : List Bool) :
    (segsOf anc).data = (anc.map fun b => (segment b).data).flatten := by
  unfold segsOf String.join
  rw [foldl_append_data]
  simp only [List.map_map]
  rfl

theorem segment_length (b : Bool) : (segment b).data.length = 4 := by
  cases b <;> rfl

theorem segsOf_append (anc : List Bool) (b : Bool) :
    segsOf (anc ++ [b]) = segsOf anc ++ segment b := by
  apply String.ext
  rw [String.data_append, segsOf_data, segsOf_data]
  simp

theorem childSep_segsOf (anc : List Bool) (count k : Nat) :
    childSep (segsOf anc) count k = segsOf (anc ++ [decide (k = count - 1)]) := by
  rw [segsOf_append]
  unfold childSep segment
  by_cases h : k = count - 1
  · simp [h]
  · simp [h]

theorem segsOf_length (anc : List Bool) : (segsOf anc).length = 4 * anc.length := by
  show (segsOf anc).data.length = _
  rw [segsOf_data]
  induction anc with
  | nil => rfl
  | cons b rest ih =>
    simp only [List.map_cons, List.flatten_cons, List.length_append, segment_length, ih,
      List.length_cons]
    omega

theorem glyph_length (count k : Nat) : (glyph count k).length = 4 := by
  unfold glyph
  split_ifs <;> rfl

/-- The `i`-th segment of an indentation is the one of the `i`-th
ancestor. -/
theorem segsOf_segment : ∀ (anc : List Bool) (i : Nat) (b : Bool), anc.get? i = some b →
    ((segsOf anc).data.drop (4 * i)).take 4 = (segment b).data := by
  intro anc
  induction anc with
  | nil => intro i b h; simp at h
  | cons a rest ih =>
    intro i b h
    rw [segsOf_data]
    simp only [List.map_cons, List.flatten_cons]
    cases i with
    | zero =>
      simp only [List.get?_cons_zero, Option.some.injEq] at h
      subst h
      simp only [Nat.mul_zero, List.drop_zero]
      rw [List.take_append_of_le_length (by rw [segment_length])]
      exact List.take_of_length_le (by rw [segment_length])
    | succ j =>
      simp only [List.get?_cons_succ] at h
      have := ih j b h
      rw [segsOf_data] at this
      rw [show 4 * (j + 1) = (segment a).data.length + 4 * j by rw [segment_length]; omega,
        List.drop_append]
      exact this

/-- The output of a walk called with the indentation of the ancestors
`anc` is the tree of the indentation invariant. -/
theorem dirTree_indent (fs : FS) (fl : flags) : ∀ (n : Nat) (dirName : String) (anc : List Bool),
    depthWithin fs n dirName = true →
    (resultOf (dirTree fs n dirName (segsOf anc) fl startState)).2 =
      indentWalk fs fl n dirName anc := by
  intro n
  induction n with
  | zero => intro dirName anc h; simp [depthWithin] at h
  | succ n ih =>
    intro dirName anc h
    cases hfs : fs dirName with
    | none => simp [dirTree, indentWalk, hfs, resultOf, startState]
    | some d =>
      rw [dirTree_eq fs fl n dirName (segsOf anc) startState d hfs h]
      simp only [resultOf, Option.getD_some, start_addState, indentWalk, hfs]
      refine listingEffect_out _ dirName (segsOf anc) fl _ (fun j v =>
        dirTreePrint v (segsOf anc ++ glyph (sortedList d fl).length j) (fullPathOf dirName v) fl
            [] ++
          if v.IsDir = true then
            indentWalk fs fl n (fullPathOf dirName v)
              (anc ++ [decide (j = (sortedList d fl).length - 1)])
          else []) _ 0 ?_
      intro v hv j
      rw [entryEffect_snd]
      by_cases hdir : v.IsDir = true
      · simp only [hdir, if_true]
        rw [childSep_segsOf, ih _ _ (depthWithin_child fs fl n dirName d hfs h v hv hdir)]
      · simp only [if_neg hdir]

/-! ## The counters of a walk -/

theorem sum_map_filter (p : FileInfo → Bool) (f : FileInfo → Nat)
    (h : ∀ v, p v = false → f v = 0) : ∀ l : List FileInfo,
    ((l.filter p).map f).sum = (l.map f).sum := by
  intro l
  induction l with
  | nil => rfl
  | cons v rest ih =>
    rw [List.filter_cons]
    cases hp : p v with
    | true => simp [ih]
    | false => simp [ih, h v hp]

/-- A sum over the listing that `dirTree` ranges over, of a function that
is zero on the entries that are not directories, is the sum over the listing
as delivered. -/
theorem sum_sortedList (d : List FileInfo) (fl : flags) (f : FileInfo → Nat)
    (h : fl.d = true → ∀ v, v.IsDir = false → f v = 0) :
    ((sortedList d fl).map f).sum = (d.map f).sum := by
  unfold sortedList
  rw [dirTreeFilter_eq]
  by_cases hd : fl.d = true
  · rw [if_pos hd, sum_map_filter _ f (h hd)]
    exact ((goSort_perm d).map f).sum_eq
  · rw [if_neg hd]
    exact ((goSort_perm d).map f).sum_eq

theorem listingEffect_fst
    (walk : String → String → counts × List Write → Option (counts × List Write))
    (dirName sep : String) (fl : flags) (count : Nat) (D F : FileInfo → Nat) :
    ∀ (l : List FileInfo) (k : Nat),
    (∀ v ∈ l, v.IsDir = true → ∀ s,
      (resultOf (walk (fullPathOf dirName v) s startState)).1 = ⟨D v, F v⟩) →
    (listingEffect walk dirName sep fl count k l).1 =
      ⟨(l.map fun v => if v.IsDir = true then 1 + D v else 0).sum,
        (l.map fun v => if v.IsDir = true then F v else 1).sum⟩ := by
  intro l
  induction l with
  | nil => intro k _; rfl
  | cons v rest ih =>
    intro k hw
    have hrest := ih (k + 1) fun v' hv' => hw v' (List.mem_cons_of_mem _ hv')
    simp only [listingEffect, addState_fst, hrest, List.map_cons, List.sum_cons]
    by_cases hdir : v.IsDir = true
    · have h1 := hw v (List.mem_cons_self _ _) hdir (childSep sep count k)
      simp only [entryEffect, hdir, if_true, addState_fst, h1]
      simp [Nat.add_comm]
    · simp only [entryEffect, if_neg hdir]

/-- The counters of a walk are the numbers of directories and of other
entries below the directory, whatever the options `-f` and `-h` and the
prefix; under `-d` no file is counted. -/
theorem dirTree_fst (fs : FS) (fl : flags) : ∀ (n : Nat) (dirName sep : String),
    depthWithin fs n dirName = true →
    (resultOf (dirTree fs n dirName sep fl startState)).1 =
      ⟨dirCount fs n dirName, if fl.d = true then 0 else fileCount fs n dirName⟩ := by
  intro n
  induction n with
  | zero => intro dirName sep h; simp [depthWithin] at h
  | succ n ih =>
    intro dirName sep h
    cases hfs : fs dirName with
    | none => simp [dirTree, dirCount, fileCount, hfs, resultOf, startState]
    | some d =>
      rw [dirTree_eq fs fl n dirName sep startState d hfs h]
      simp only [resultOf, Option.getD_some, start_addState]
      rw [listingEffect_fst _ dirName sep fl _ (fun v => dirCount fs n (fullPathOf dirName v))
        (fun v => if fl.d = true then 0 else fileCount fs n (fullPathOf dirName v)) _ 0
        (fun v hv hdir s => ih _ s (depthWithin_child fs fl n dirName d hfs h v hv hdir))]
      simp only [dirCount, fileCount, hfs]
      congr 1
      · rw [sum_sortedList d fl _ (fun _ v hv => by simp [hv])]
      · by_cases hd : fl.d = true
        · simp only [hd, if_true]
          apply List.sum_eq_zero
          intro x hx
          obtain ⟨v, hv, rfl⟩ := List.mem_map.1 hx
          simp [isDir_of_mem_sortedList hd hv]
        · simp only [if_neg hd]
          rw [sum_sortedList d fl _ (fun hd' => absurd hd' hd)]

/-! ## The option `-f` changes the names only -/

theorem eraseNames_append (a b : List Write) :
    eraseNames (a ++ b) = eraseNames a ++ eraseNames b := List.map_append _ _ _

theorem eraseNames_print (v : FileInfo) (sep p1 p2 : String) (f1 f2 h d : Bool) :
    eraseNames (dirTreePrint v sep p1 ⟨f1, h, d⟩ []) =
      eraseNames (dirTreePrint v sep p2 ⟨f2, h, d⟩ []) := by
  rw [dirTreePrint_eq, dirTreePrint_eq]
  cases h <;> simp [eraseNames]

theorem sortedList_flags (l : List FileInfo) (f1 f2 h1 h2 d : Bool) :
    sortedList l ⟨f1, h1, d⟩ = sortedList l ⟨f2, h2, d⟩ := by
  unfold sortedList
  rw [dirTreeFilter_eq, dirTreeFilter_eq]

theorem listingEffect_erase
    (walk1 walk2 : String → String → counts × List Write → Option (counts × List Write))
    (dirName sep : String) (f1 f2 h d : Bool) (count : Nat) : ∀ (l : List FileInfo) (k : Nat),
    (∀ v ∈ l, v.IsDir = true → ∀ s,
      (resultOf (walk1 (fullPathOf dirName v) s startState)).1 =
        (resultOf (walk2 (fullPathOf dirName v) s startState)).1 ∧
      eraseNames (resultOf (walk1 (fullPathOf dirName v) s startState)).2 =
        eraseNames (resultOf (walk2 (fullPathOf dirName v) s startState)).2) →
    (listingEffect walk1 dirName sep ⟨f1, h, d⟩ count k l).1 =
        (listingEffect walk2 dirName sep ⟨f2, h, d⟩ count k l).1 ∧
      eraseNames (listingEffect walk1 dirName sep ⟨f1, h, d⟩ count k l).2 =
        eraseNames (listingEffect walk2 dirName sep ⟨f2, h, d⟩ count k l).2 := by
  intro l
  induction l with
  | nil => intro k _; exact ⟨rfl, rfl⟩
  | cons v rest ih =>
    intro k hw
    obtain ⟨ih1, ih2⟩ := ih (k + 1) fun v' hv' => hw v' (List.mem_cons_of_mem _ hv')
    have hp := eraseNames_print v (sep ++ glyph count k) (fullPathOf dirName v)
      (fullPathOf dirName v) f1 f2 h d
    simp only [listingEffect, addState_fst, addState_snd, eraseNames_append, ih1, ih2,
      entryEffect_snd, hp]
    by_cases hdir : v.IsDir = true
    · obtain ⟨h1, h2⟩ := hw v (List.mem_cons_self _ _) hdir (childSep sep count k)
      simp only [entryEffect, hdir, if_true, addState_fst, h1, h2, and_self]
    · simp only [entryEffect, if_neg hdir, and_self]

/-- Two walks that differ in the option `-f` only have the same counters
and, the names apart, the same output. -/
theorem dirTree_erase (fs : FS) (f1 f2 h d : Bool) : ∀ (n : Nat) (dirName sep : String),
    depthWithin fs n dirName = true →
    (resultOf (dirTree fs n dirName sep ⟨f1, h, d⟩ startState)).1 =
        (resultOf (dirTree fs n dirName sep ⟨f2, h, d⟩ startState)).1 ∧
      eraseNames (resultOf (dirTree fs n dirName sep ⟨f1, h, d⟩ startState)).2 =
        eraseNames (resultOf (dirTree fs n dirName sep ⟨f2, h, d⟩ startState)).2 := by
  intro n
  induction n with
  | zero => intro dirName sep hd; simp [depthWithin] at hd
  | succ n ih =>
    intro dirName sep hdepth
    cases hfs : fs dirName with
    | none => simp [dirTree, hfs]
    | some l =>
      rw [dirTree_eq fs _ n dirName sep startState l hfs hdepth,
        dirTree_eq fs _ n dirName sep startState l hfs hdepth]
      simp only [resultOf, Option.getD_some, start_addState]
      rw [sortedList_flags l f1 f2 h h d]
      exact listingEffect_erase _ _ dirName sep f1 f2 h d _ _ 0 fun v hv hdir s =>
        ih _ s (depthWithin_child fs _ n dirName l hfs hdepth v hv hdir)

/-! ## The order of delivery -/

/-- A sorted listing without equal keys is strictly ascending. -/
theorem goSort_strict (d : List FileInfo) (hk : (d.map fun v => ToLower v.Name).Nodup) :
    (goSort ⟨[] ++ d⟩).list.Pairwise
      (fun x y => stringLess (ToLower x.Name) (ToLower y.Name) = true) := by
  have hperm := goSort_perm d
  have hk' : ((goSort ⟨[] ++ d⟩).list.map fun v => ToLower v.Name).Nodup :=
    (hperm.map _).nodup_iff.2 hk
  have hne : (goSort ⟨[] ++ d⟩).list.Pairwise (fun x y => ToLower x.Name ≠ ToLower y.Name) := by
    unfold List.Nodup at hk'
    rw [List.pairwise_map] at hk'
    exact hk'
  refine ((goSort_pairwise d).and hne).imp ?_
  intro x y ⟨h1, h2⟩
  cases hxy : stringLess (ToLower x.Name) (ToLower y.Name) with
  | true => rfl
  | false =>
    exfalso
    apply h2
    apply String.ext
    exact lexLess_total _ _ hxy h1

/-- Two deliveries of the same entries without equal keys are sorted to the
same list. -/
theorem goSort_unique (d1 d2 : List FileInfo) (hp : d1.Perm d2)
    (hk : (d1.map fun v => ToLower v.Name).Nodup) :
    (goSort ⟨[] ++ d1⟩).list = (goSort ⟨[] ++ d2⟩).list := by
  have hk2 : (d2.map fun v => ToLower v.Name).Nodup := (hp.map _).nodup_iff.1 hk
  have h1 := goSort_strict d1 hk
  have h2 := goSort_strict d2 hk2
  have hperm : (goSort ⟨[] ++ d1⟩).list.Perm (goSort ⟨[] ++ d2⟩).list :=
    ((goSort_perm d1).trans hp).trans (goSort_perm d2).symm
  haveI : IsAntisymm FileInfo
      (fun x y => stringLess (ToLower x.Name) (ToLower y.Name) = true) :=
    ⟨fun a b hab hba => by
      have := lexLess_asymm _ _ hab
      simp only [stringLess] at hba
      rw [hba] at this
      exact absurd this (by decide)⟩
  exact List.eq_of_perm_of_sorted hperm h1 h2

/-- A walk does not depend on the order in which the entries are delivered,
when no two entries of a directory have the same sort key. -/
theorem dirTree_perm (fs1 fs2 : FS) (hs : SameEntries fs1 fs2) (hk : DistinctKeys fs1)
    (fl : flags) : ∀ (n : Nat) (dirName sep : String) (st : counts × List Write),
    dirTree fs1 n dirName sep fl st = dirTree fs2 n dirName sep fl st := by
  intro n
  induction n with
  | zero => intro dirName sep st; rfl
  | succ n ih =>
    intro dirName sep st
    have hw : (fun p s st => dirTree fs1 n p s fl st) = (fun p s st => dirTree fs2 n p s fl st) := by
      funext p s st
      exact ih p s st
    obtain ⟨hsome, hperm⟩ := hs dirName
    simp only [dirTree]
    cases h1 : fs1 dirName with
    | none =>
      cases h2 : fs2 dirName with
      | none => rfl
      | some d2 => rw [h1, h2] at hsome; simp at hsome
    | some d1 =>
      cases h2 : fs2 dirName with
      | none => rw [h1, h2] at hsome; simp at hsome
      | some d2 =>
        have hu := goSort_unique d1 d2 (hperm d1 h1 d2 h2) (hk dirName d1 h1)
        simp only [hu, hw]

/-- The listing that `dirTree` ranges over holds the delivered entries that
pass the filter, each once. -/
theorem sortedList_perm_filter (d : List FileInfo) (fl : flags) :
    (sortedList d fl).Perm (dirTreeFilter d fl) := by
  unfold sortedList
  rw [dirTreeFilter_eq, dirTreeFilter_eq]
  split_ifs
  · exact (goSort_perm d).filter _
  · exact goSort_perm d

/-- The sort key of a name with letters outside ASCII, and the two orders of
delivery of `é` and `É`: the entries are printed as they are delivered. -/
theorem unicode_key_examples :
    ToLower "ÉCOLE" = "école" ∧ ToLower "Straße" = "straße" ∧
    sortedList [plainFile "ß", plainFile "É"] ⟨false, false, false⟩ =
      [plainFile "ß", plainFile "É"] ∧
    sortedList [plainFile "é", plainFile "É"] ⟨false, false, false⟩ =
      [plainFile "é", plainFile "É"] ∧
    sortedList [plainFile "É", plainFile "é"] ⟨false, false, false⟩ =
      [plainFile "É", plainFile "é"] ∧
    dirTree accentFS 1 "." "" ⟨false, false, false⟩ startState =
      some (⟨0, 2⟩, [Write.printf "├── ", Write.println Color.plain "é",
        Write.printf "└── ", Write.println Color.plain "É"]) ∧
    dirTree accentFSrev 1 "." "" ⟨false, false, false⟩ startState =
      some (⟨0, 2⟩, [Write.printf "├── ", Write.println Color.plain "É",
        Write.printf "└── ", Write.println Color.plain "é"]) := by
  refine ⟨?_, ?_, ?_, ?_, ?_, ?_, ?_⟩ <;> decide

theorem sameEntries_reverse (fs : FS) : SameEntries fs (fun p => (fs p).map List.reverse) := by
  intro p
  constructor
  · simp
  · intro a ha b hb
    simp only [Option.mem_def] at ha hb
    rw [ha] at hb
    simp only [Option.map_some', Option.some.injEq] at hb
    rw [← hb]
    exact (List.reverse_perm a).symm

theorem exampleFS_distinct : DistinctKeys exampleFS := by
  intro p d hd
  simp only [exampleFS, Option.mem_def] at hd
  split_ifs at hd
  · simp only [Option.some.injEq] at hd
    subst hd
    decide
  · simp only [Option.some.injEq] at hd
    subst hd
    decide

/-! ## Directories-only mode -/

/-- C11: with the option `-d`, every entry of the listing that `dirTree`
ranges over is a directory; a walk with enough fuel returns, writes no line
of an entry that is not a directory and leaves `counts.files` as it was while
`counts.dirs` grows by the number of lines written; and `main` ends with
`counts.files = 0` and the summary `<N> directories` without a file count. -/
theorem dirTree_dirsOnly (canOpen : String → Bool) (fs : FS) (n : Nat) (f h : Bool)
    (args : List String) (hopen : canOpen (rootArg args) = true)
    (hdepth : depthWithin fs n (rootArg args) = true) :
    (∀ d, ∀ v ∈ sortedList d ⟨f, h, true⟩, v.IsDir = true) ∧
    (∀ sep c out, ∃ N lines,
      dirTree fs n (rootArg args) sep ⟨f, h, true⟩ (c, out) =
        some (⟨c.dirs + N, c.files⟩, out ++ lines) ∧
      lines.countP isFileLine = 0 ∧ N = lines.countP isDirLine) ∧
    ∃ N lines,
      dirTree fs n (rootArg args) "" ⟨f, h, true⟩
          (⟨0, 0⟩, [Write.println Color.hiBlueBold (rootArg args)]) =
        some (⟨N, 0⟩, Write.println Color.hiBlueBold (rootArg args) :: lines) ∧
      lines.countP isFileLine = 0 ∧
      main canOpen fs n f h true args =
        some (0, Write.println Color.hiBlueBold (rootArg args) :: lines ++
          [Write.printf ("\n" ++ Nat.repr N ++ " directories\n")]) := by
  have key : ∀ sep st, ∃ N lines,
      dirTree fs n (rootArg args) sep ⟨f, h, true⟩ st =
        some (⟨st.1.dirs + N, st.1.files⟩, st.2 ++ lines) ∧
      lines.countP isFileLine = 0 ∧ N = lines.countP isDirLine := by
    intro sep st
    obtain ⟨hr, hc⟩ := dirTree_result fs ⟨f, h, true⟩ n (rootArg args) sep st hdepth
    have hz := dirTree_files_zero fs ⟨f, h, true⟩ rfl n (rootArg args) sep hdepth
    refine ⟨_, _, ?_, ?_, hc.1⟩
    · rw [hr]
      simp only [addState, hz, Nat.add_zero]
    · rw [← hc.2, hz]
  refine ⟨fun d v hv => isDir_of_mem_sortedList rfl hv, fun sep c out => key sep (c, out), ?_⟩
  obtain ⟨N, lines, hw, hfile, _⟩ :=
    key "" (⟨0, 0⟩, [Write.println Color.hiBlueBold (rootArg args)])
  simp only [Nat.zero_add, List.singleton_append] at hw
  refine ⟨N, lines, hw, hfile, ?_⟩
  rw [main_eq canOpen fs n f h true args _ _ hopen hw]
  rfl

theorem dirTree_dirsOnly_witness :
    depthWithin exampleFS 2 "." = true ∧
    ∃ N lines,
      dirTree exampleFS 2 "." "" ⟨false, false, true⟩
          (⟨0, 0⟩, [Write.println Color.hiBlueBold "."]) =
        some (⟨N, 0⟩, Write.println Color.hiBlueBold "." :: lines) ∧
      lines.countP isFileLine = 0 ∧
      main (fun _ => true) exampleFS 2 false false true [] =
        some (0, Write.println Color.hiBlueBold "." :: lines ++
          [Write.printf ("\n" ++ Nat.repr N ++ " directories\n")]) :=
  ⟨by decide,
    (dirTree_dirsOnly (fun _ => true) exampleFS 2 false false [] rfl (by decide)).2.2⟩

/-! ## The size annotation -/

/-- C12 (amended): under `-h` the second write of `dirTreePrint`, between
the branch prefix and the name, is `[` + field + `]` and two blanks, where
the field is `formatSize(size)` behind as many blanks as it lacks to 4
characters: its width is the larger of 4 and the length of the formatted
size, so it is 4 only when the formatted size has at most 4 characters. -/
theorem size_field_min_width (v : FileInfo) (sep fullPath : String) (f d : Bool)
    (out : List Write) :
    dirTreePrint v sep fullPath ⟨f, true, d⟩ out =
      out ++ [Write.printf sep, Write.printf ("[" ++ pad4 (formatSize v.Size) ++ "]  "),
        Write.println (colorOf v) (if f = true then fullPath else v.Name)] ∧
    (pad4 (formatSize v.Size)).data =
      List.replicate (4 - (formatSize v.Size).length) ' ' ++ (formatSize v.Size).data ∧
    (pad4 (formatSize v.Size)).length = max 4 (formatSize v.Size).length := by
  refine ⟨?_, rfl, ?_⟩
  · rw [dirTreePrint_eq]
    simp [sizeField]
  · show (pad4 (formatSize v.Size)).data.length = _
    unfold pad4
    simp only [List.length_append, List.length_replicate]
    have : (formatSize v.Size).data.length = (formatSize v.Size).length := rfl
    omega

/-- C12 (counterexample): for a file of 1048576 bytes the field is
`1024.0K`, which is 7 characters wide. -/
theorem size_field_wider_than_4 :
    dirTreePrint ⟨"big", 1048576, 0o644, false⟩ "├── " "./big" ⟨false, true, false⟩ [] =
      [Write.printf "├── ", Write.printf "[1024.0K]  ", Write.println Color.plain "big"] ∧
    (pad4 (formatSize 1048576)).length = 7 := by
  decide

/-! ## The child prefix -/

/-- C13 (amended): in a walk with prefix `sep` of a readable directory, the
directory entry `v` at index `k` of the filtered listing of `count` entries
has its line followed by the output of the recursive walk of its path, called
with the child prefix `sep` + vertical bar, two no-break spaces (U+00A0) and
a blank when `k` is not the last index, and `sep` + blank, two no-break spaces
and a blank when `k = count - 1`; that recursive walk returns, and every line
it writes (every line of a descendant of `v`) starts with that child
prefix. -/
theorem dirTree_child_sep (fs : FS) (fl : flags) (n : Nat) (dirName sep : String) (d : List FileInfo)
    (k : Nat) (v : FileInfo) (hfs : fs dirName = some d)
    (hdepth : depthWithin fs (n + 1) dirName = true)
    (hk : (sortedList d fl).get? k = some v) (hdir : v.IsDir = true) :
    (resultOf (dirTree fs (n + 1) dirName sep fl startState)).2 =
      (listingEffect (fun p s st => dirTree fs n p s fl st) dirName sep fl
          (sortedList d fl).length 0 ((sortedList d fl).take k)).2 ++
        dirTreePrint v (sep ++ glyph (sortedList d fl).length k) (fullPathOf dirName v) fl [] ++
        (resultOf (dirTree fs n (fullPathOf dirName v)
          (if k = (sortedList d fl).length - 1 then sep ++ " \u00a0\u00a0 " else sep ++ "│\u00a0\u00a0 ") fl
          startState)).2 ++
        (listingEffect (fun p s st => dirTree fs n p s fl st) dirName sep fl
          (sortedList d fl).length (k + 1) ((sortedList d fl).drop (k + 1))).2 ∧
    (dirTree fs n (fullPathOf dirName v)
      (if k = (sortedList d fl).length - 1 then sep ++ " \u00a0\u00a0 " else sep ++ "│\u00a0\u00a0 ") fl
      startState).isSome = true ∧
    ∀ t ∈ lineTexts (resultOf (dirTree fs n (fullPathOf dirName v)
        (if k = (sortedList d fl).length - 1 then sep ++ " \u00a0\u00a0 " else sep ++ "│\u00a0\u00a0 ") fl
        startState)).2,
      HasPrefix t (if k = (sortedList d fl).length - 1 then sep ++ " \u00a0\u00a0 " else sep ++ "│\u00a0\u00a0 ") =
        true := by
  have hv : v ∈ sortedList d fl := List.get?_mem hk
  have hchild := depthWithin_child fs fl n dirName d hfs hdepth v hv hdir
  refine ⟨?_, dirTree_isSome fs fl n _ _ _ hchild, (dirTree_lines fs fl n _ _ hchild).2⟩
  have hklt : k < (sortedList d fl).length := by
    rcases Nat.lt_or_ge k (sortedList d fl).length with h | h
    · exact h
    · rw [List.get?_eq_none.2 h] at hk
      exact absurd hk (by simp)
  have hsplit : sortedList d fl =
      (sortedList d fl).take k ++ (v :: (sortedList d fl).drop (k + 1)) := by
    rw [List.get?_eq_get hklt] at hk
    have hget : (sortedList d fl).get ⟨k, hklt⟩ = v := Option.some.inj hk
    conv_lhs => rw [← List.take_append_drop k (sortedList d fl)]
    rw [← hget]
    congr 1
    exact List.drop_eq_getElem_cons hklt
  have hlen : ((sortedList d fl).take k).length = k := by
    rw [List.length_take]; omega
  have hgen : ∀ count : Nat,
      (listingEffect (fun p s st => dirTree fs n p s fl st) dirName sep fl count 0
        (sortedList d fl)).2 =
      (listingEffect (fun p s st => dirTree fs n p s fl st) dirName sep fl count 0
          ((sortedList d fl).take k)).2 ++
        dirTreePrint v (sep ++ glyph count k) (fullPathOf dirName v) fl [] ++
        (resultOf (dirTree fs n (fullPathOf dirName v)
          (if k = count - 1 then sep ++ " \u00a0\u00a0 " else sep ++ "│\u00a0\u00a0 ") fl startState)).2 ++
        (listingEffect (fun p s st => dirTree fs n p s fl st) dirName sep fl count (k + 1)
          ((sortedList d fl).drop (k + 1))).2 := by
    intro count
    conv_lhs => rw [hsplit]
    rw [listingEffect_append]
    simp only [listingEffect, addState_snd, entryEffect_snd, hdir, if_true, hlen, Nat.zero_add,
      childSep, List.append_assoc]
  rw [dirTree_eq fs fl n dirName sep startState d hfs hdepth]
  simp only [resultOf, Option.getD_some, start_addState]
  exact hgen _

theorem dirTree_child_sep_witness :
    exampleFS "." = some exampleRoot ∧ depthWithin exampleFS 2 "." = true ∧
    (sortedList exampleRoot exampleFlags).get? 0 = some ⟨"A", 4096, 2 ^ 31 + 0o755, true⟩ ∧
    ∀ t ∈ lineTexts (resultOf (dirTree exampleFS 1
        (fullPathOf "." ⟨"A", 4096, 2 ^ 31 + 0o755, true⟩)
        (if 0 = (sortedList exampleRoot exampleFlags).length - 1 then "" ++ " \u00a0\u00a0 "
          else "" ++ "│\u00a0\u00a0 ") exampleFlags startState)).2,
      HasPrefix t (if 0 = (sortedList exampleRoot exampleFlags).length - 1
        then "" ++ " \u00a0\u00a0 " else "" ++ "│\u00a0\u00a0 ") = true :=
  ⟨rfl, by decide, by decide,
    (dirTree_child_sep exampleFS exampleFlags 1 "." "" exampleRoot 0 ⟨"A", 4096, 2 ^ 31 + 0o755, true⟩
      rfl (by decide) (by decide) rfl).2.2⟩

/-- C13 (counterexample): in the walk of `exampleFS` the directory `A` is
the first of three entries, and the one line below it starts with a vertical
bar, two no-break spaces (U+00A0) and a blank: it does not start with the
vertical bar and three blanks of the claim. -/
theorem child_sep_not_blanks :
    (sortedList exampleRoot exampleFlags).get? 0 = some ⟨"A", 4096, 2 ^ 31 + 0o755, true⟩ ∧
    (sortedList exampleRoot exampleFlags).length = 3 ∧
    dirTree exampleFS 2 "." "" exampleFlags startState =
      some (⟨2, 2⟩,
        [Write.printf "├── ", Write.printf "[4.0K]  ", Write.println Color.hiBlueBold "A",
         Write.printf "│\u00a0\u00a0 └── ", Write.printf "[2.0K]  ",
         Write.println Color.hiGreenBold "x.sh",
         Write.printf "├── ", Write.printf "[  10]  ", Write.println Color.plain "b.txt",
         Write.printf "└── ", Write.printf "[4.0K]  ",
         Write.println Color.hiBlueBold "locked"]) ∧
    lineTexts (resultOf (dirTree exampleFS 1 "./A" ("" ++ "│\u00a0\u00a0 ") exampleFlags
      startState)).2 = ["│\u00a0\u00a0 └── [2.0K]  x.sh"] ∧
    HasPrefix "│\u00a0\u00a0 └── [2.0K]  x.sh" ("" ++ "│   ") = false := by
  refine ⟨?_, ?_, ?_, ?_, ?_⟩ <;> decide

/-! ## Styles -/

/-- C14: for an entry as `Readdir` delivers it, `dirTreePrint` ends the line
with a `Println` through exactly one colour object, chosen by fixed priority:
the directory style for a directory; else the link style when the mode has
the bit `ModeSymlink`; else the executable style when the mode has one of the
three execute bits; else the default style.  So an entry that is not a
directory and is a symbolic link gets the link style, whatever its other mode
bits, the execute bits included. -/
theorem dirTreePrint_style_priority (v : FileInfo) (sep fullPath : String) (fl : flags)
    (out : List Write) (hv : fromReaddir v = true) :
    (dirTreePrint v sep fullPath fl out).getLast? =
      some (Write.println
        (if v.IsDir = true then Color.hiBlueBold
         else if v.Mode.testBit 27 = true then Color.hiCyanBold
         else if v.Mode.testBit 6 = true ∨ v.Mode.testBit 3 = true ∨ v.Mode.testBit 0 = true
          then Color.hiGreenBold
         else Color.plain)
        (if fl.f = true then fullPath else v.Name)) ∧
    ((dirTreePrint v sep fullPath fl out).drop out.length).countP isLine = 1 ∧
    (v.IsDir = false → v.Mode.testBit 27 = true →
      (dirTreePrint v sep fullPath fl out).getLast? =
        some (Write.println Color.hiCyanBold (if fl.f = true then fullPath else v.Name))) := by
  simp only [fromReaddir, Bool.and_eq_true, beq_iff_eq, Bool.not_eq_true'] at hv
  obtain ⟨⟨⟨h31, h30⟩, h29⟩, h28⟩ := hv
  have hcol : colorOf v =
      (if v.IsDir = true then Color.hiBlueBold
       else if v.Mode.testBit 27 = true then Color.hiCyanBold
       else if v.Mode.testBit 6 = true ∨ v.Mode.testBit 3 = true ∨ v.Mode.testBit 0 = true
        then Color.hiGreenBold
       else Color.plain) := by
    unfold colorOf
    by_cases hd : v.IsDir = true
    · rw [if_pos hd, if_pos hd]
    · rw [if_neg hd, if_neg hd]
      have h31' : v.Mode.testBit 31 = false := by
        rw [h31]; simpa using hd
      by_cases hl : HasPrefix (FileModeString v.Mode) "L" = true
      · rw [if_pos hl, if_pos ((hasPrefix_L v.Mode).1 hl).1]
      · rw [if_neg hl, if_neg (fun hc => hl ((hasPrefix_L v.Mode).2 ⟨hc, h31', h30, h29, h28⟩))]
        by_cases hx : Contains (FileModeString v.Mode) "x" = true
        · rw [if_pos hx, if_pos ((contains_x v.Mode).1 hx)]
        · rw [if_neg hx, if_neg (fun hc => hx ((contains_x v.Mode).2 hc))]
  have hlast : (dirTreePrint v sep fullPath fl out).getLast? =
      some (Write.println (colorOf v) (if fl.f = true then fullPath else v.Name)) := by
    rw [dirTreePrint_eq]
    cases fl.h <;> simp
  refine ⟨?_, ?_, ?_⟩
  · rw [hlast, hcol]
  · rw [dirTreePrint_eq]
    cases fl.h <;> simp [isLine]
  · intro hd hl
    rw [hlast, hcol, if_neg (by rw [hd]; decide), if_pos hl]

theorem dirTreePrint_style_priority_witness :
    fromReaddir executableLink = true ∧
    executableLink.IsDir = false ∧ executableLink.Mode.testBit 27 = true ∧
    executableLink.Mode.testBit 6 = true ∧
    (dirTreePrint executableLink "└── " "./ln" ⟨false, false, false⟩ []).getLast? =
      some (Write.println Color.hiCyanBold
        (if (⟨false, false, false⟩ : flags).f = true then "./ln" else executableLink.Name)) :=
  ⟨by decide, by decide, by decide, by decide,
    (dirTreePrint_style_priority executableLink "└── " "./ln" ⟨false, false, false⟩ []
      (by decide)).2.2 (by decide) (by decide)⟩

/-! ## The order of the lines -/

/-- C15: a call of `dirTree` on a readable directory, with enough fuel,
returns and appends to the output the concatenation, over the sorted and
filtered entries `e_0 .. e_(N-1)` in this order, of the line of `e_k`
followed at once by the whole output of the recursive walk of `e_k` when
`e_k` is a directory and by nothing otherwise; each of these recursive walks
returns, so the lines of the subtree of `e_k` all come before the line of
`e_(k+1)`.  The entries `e_0 .. e_(N-1)` are the delivered entries that pass
the filter, each once, in ascending order of the lower-cased name: no entry
is followed, at any distance, by one with a smaller lower-cased name. -/
theorem dirTree_preorder (fs : FS) (fl : flags) (n : Nat) (dirName sep : String) (c : counts)
    (out : List Write) (d : List FileInfo) (hfs : fs dirName = some d)
    (hdepth : depthWithin fs (n + 1) dirName = true) :
    (∃ c', dirTree fs (n + 1) dirName sep fl (c, out) =
      some (c', out ++ ((sortedList d fl).enum.map fun p =>
        dirTreePrint p.2 (sep ++ glyph (sortedList d fl).length p.1) (fullPathOf dirName p.2) fl
            [] ++
          if p.2.IsDir = true then
            (resultOf (dirTree fs n (fullPathOf dirName p.2)
              (childSep sep (sortedList d fl).length p.1) fl startState)).2
          else []).flatten)) ∧
    (∀ v ∈ sortedList d fl, v.IsDir = true → ∀ s st,
      dirTree fs n (fullPathOf dirName v) s fl st =
        some (addState st (resultOf (dirTree fs n (fullPathOf dirName v) s fl startState)))) ∧
    (sortedList d fl).Perm (dirTreeFilter d fl) ∧
    (sortedList d fl).Pairwise
      (fun x y => stringLess (ToLower y.Name) (ToLower x.Name) = false) := by
  refine ⟨?_, ?_, sortedList_perm_filter d fl, sortedList_pairwise d fl⟩
  · obtain ⟨hr, _⟩ := dirTree_result fs fl (n + 1) dirName sep (c, out) hdepth
    refine ⟨(addState (c, out) (resultOf (dirTree fs (n + 1) dirName sep fl startState))).1, ?_⟩
    rw [hr, ← dirTree_out fs fl n dirName sep d hfs hdepth]
    rfl
  · intro v hv hdir s st
    exact (dirTree_result fs fl n _ s st
      (depthWithin_child fs fl n dirName d hfs hdepth v hv hdir)).1

theorem dirTree_preorder_witness :
    exampleFS "." = some exampleRoot ∧ depthWithin exampleFS 2 "." = true ∧
    ∃ c', dirTree exampleFS 2 "." "" exampleFlags (⟨0, 0⟩, []) =
      some (c', [] ++ ((sortedList exampleRoot exampleFlags).enum.map fun p =>
        dirTreePrint p.2 ("" ++ glyph (sortedList exampleRoot exampleFlags).length p.1)
            (fullPathOf "." p.2) exampleFlags [] ++
          if p.2.IsDir = true then
            (resultOf (dirTree exampleFS 1 (fullPathOf "." p.2)
              (childSep "" (sortedList exampleRoot exampleFlags).length p.1) exampleFlags
              startState)).2
          else []).flatten) :=
  ⟨rfl, by decide,
    (dirTree_preorder exampleFS exampleFlags 1 "." "" ⟨0, 0⟩ [] exampleRoot rfl (by decide)).1⟩

/-! ## The displayed name -/

/-- C16: in a walk of a readable directory `dirName` the line of every entry
is the branch prefix (the prefix of the walk and the glyph), then under `-h`
the size annotation, then through the colour object of the entry the display
name and a line terminator; the display name is the name of the entry
without `-f` and `dirName` + separator + name with `-f`.  The option `-f`
changes nothing else: two walks that differ in it alone end with the same
counters and, the names apart, the same output. -/
theorem dirTreePrint_display_name (fs : FS) (f h d : Bool) (n : Nat) (dirName sep : String)
    (l : List FileInfo) (hfs : fs dirName = some l)
    (hdepth : depthWithin fs (n + 1) dirName = true) :
    (resultOf (dirTree fs (n + 1) dirName sep ⟨f, h, d⟩ startState)).2 =
      ((sortedList l ⟨f, h, d⟩).enum.map fun p =>
        (Write.printf (sep ++ glyph (sortedList l ⟨f, h, d⟩).length p.1) ::
          (if h = true then [Write.printf ("[" ++ pad4 (formatSize p.2.Size) ++ "]  ")] else []) ++
          [Write.println (colorOf p.2)
            (if f = true then dirName ++ "/" ++ p.2.Name else p.2.Name)]) ++
          if p.2.IsDir = true then
            (resultOf (dirTree fs n (fullPathOf dirName p.2)
              (childSep sep (sortedList l ⟨f, h, d⟩).length p.1) ⟨f, h, d⟩ startState)).2
          else []).flatten ∧
    (resultOf (dirTree fs (n + 1) dirName sep ⟨true, h, d⟩ startState)).1 =
      (resultOf (dirTree fs (n + 1) dirName sep ⟨false, h, d⟩ startState)).1 ∧
    eraseNames (resultOf (dirTree fs (n + 1) dirName sep ⟨true, h, d⟩ startState)).2 =
      eraseNames (resultOf (dirTree fs (n + 1) dirName sep ⟨false, h, d⟩ startState)).2 := by
  refine ⟨?_, dirTree_erase fs true false h d (n + 1) dirName sep hdepth⟩
  rw [dirTree_out fs ⟨f, h, d⟩ n dirName sep l hfs hdepth]
  congr 1
  apply List.map_congr_left
  intro p _
  rw [dirTreePrint_eq]
  rfl

theorem dirTreePrint_display_name_witness :
    exampleFS "." = some exampleRoot ∧ depthWithin exampleFS 2 "." = true ∧
    (resultOf (dirTree exampleFS 2 "." "" ⟨true, true, false⟩ startState)).1 =
      (resultOf (dirTree exampleFS 2 "." "" ⟨false, true, false⟩ startState)).1 ∧
    eraseNames (resultOf (dirTree exampleFS 2 "." "" ⟨true, true, false⟩ startState)).2 =
      eraseNames (resultOf (dirTree exampleFS 2 "." "" ⟨false, true, false⟩ startState)).2 :=
  ⟨rfl, by decide,
    (dirTreePrint_display_name exampleFS true true false 1 "." "" exampleRoot rfl (by decide)).2⟩

/-! ## Determinism -/

/-- C17 (amended): when no two entries of a directory have the same name up
to the case of the letters, two walks of the same tree, in which each
directory is delivered in any two orders, both return, with the same counters
and the same output. -/
theorem walk_deterministic (fs1 fs2 : FS) (fl : flags) (n : Nat) (dirName sep : String)
    (st : counts × List Write) (hs : SameEntries fs1 fs2) (hk : DistinctKeys fs1)
    (hdepth : depthWithin fs1 n dirName = true) :
    ∃ r, dirTree fs1 n dirName sep fl st = some r ∧ dirTree fs2 n dirName sep fl st = some r := by
  obtain ⟨r, hr⟩ := Option.isSome_iff_exists.1 (dirTree_isSome fs1 fl n dirName sep st hdepth)
  refine ⟨r, hr, ?_⟩
  rw [← dirTree_perm fs1 fs2 hs hk fl n dirName sep st]
  exact hr

theorem walk_deterministic_witness :
    SameEntries exampleFS exampleFSrev ∧ DistinctKeys exampleFS ∧
    depthWithin exampleFS 2 "." = true ∧
    ∃ r, dirTree exampleFS 2 "." "" exampleFlags startState = some r ∧
      dirTree exampleFSrev 2 "." "" exampleFlags startState = some r :=
  ⟨sameEntries_reverse exampleFS, exampleFS_distinct, by decide,
    walk_deterministic exampleFS exampleFSrev exampleFlags 2 "." "" startState
      (sameEntries_reverse exampleFS) exampleFS_distinct (by decide)⟩

/-- C17 (counterexample): a directory holds the two files `a` and `A`.
Delivered as `a`, `A` it is printed in this order, delivered as `A`, `a` in
that order: the two runs write different lines. -/
theorem walk_depends_on_delivery :
    SameEntries caseFS caseFSrev ∧ depthWithin caseFS 1 "." = true ∧
    dirTree caseFS 1 "." "" ⟨false, false, false⟩ startState =
      some (⟨0, 2⟩, [Write.printf "├── ", Write.println Color.plain "a",
        Write.printf "└── ", Write.println Color.plain "A"]) ∧
    dirTree caseFSrev 1 "." "" ⟨false, false, false⟩ startState =
      some (⟨0, 2⟩, [Write.printf "├── ", Write.println Color.plain "A",
        Write.printf "└── ", Write.println Color.plain "a"]) := by
  refine ⟨?_, by decide, by decide, by decide⟩
  intro p
  unfold caseFS caseFSrev
  by_cases hp : p = "."
  · rw [if_pos hp, if_pos hp]
    refine ⟨rfl, ?_⟩
    intro a ha b hb
    simp only [Option.mem_def, Option.some.injEq] at ha hb
    rw [← ha, ← hb]
    exact List.Perm.swap _ _ _
  · rw [if_neg hp, if_neg hp]
    refine ⟨rfl, ?_⟩
    intro a ha
    simp at ha

/-! ## The summary -/

/-- C18: when the directory can be opened and the walk returns with the
counters `(N, M)`, `main` returns the status 0 and the last thing it writes
is a line feed followed by `<N> directories` and a line feed under `-d`, and
by `<N> directories, <M> files` and a line feed otherwise, both numbers in
decimal. -/
theorem main_summary_line (canOpen : String → Bool) (fs : FS) (n : Nat) (f h d : Bool)
    (args : List String) (hopen : canOpen (rootArg args) = true)
    (hdepth : depthWithin fs n (rootArg args) = true) :
    ∃ N M lines,
      dirTree fs n (rootArg args) "" ⟨f, h, d⟩
          (⟨0, 0⟩, [Write.println Color.hiBlueBold (rootArg args)]) =
        some (⟨N, M⟩, Write.println Color.hiBlueBold (rootArg args) :: lines) ∧
      main canOpen fs n f h d args =
        some (0, Write.println Color.hiBlueBold (rootArg args) :: lines ++
          [Write.printf (if d = true then "\n" ++ Nat.repr N ++ " directories\n"
            else "\n" ++ Nat.repr N ++ " directories, " ++ Nat.repr M ++ " files\n")]) := by
  obtain ⟨hr, _⟩ := dirTree_result fs ⟨f, h, d⟩ n (rootArg args) ""
    (⟨0, 0⟩, [Write.println Color.hiBlueBold (rootArg args)]) hdepth
  refine ⟨_, _, _, hr, ?_⟩
  rw [main_eq canOpen fs n f h d args _ _ hopen hr]
  rfl

theorem main_summary_line_witness :
    depthWithin exampleFS 2 "." = true ∧
    ∃ N M lines,
      dirTree exampleFS 2 "." "" ⟨false, true, false⟩
          (⟨0, 0⟩, [Write.println Color.hiBlueBold "."]) =
        some (⟨N, M⟩, Write.println Color.hiBlueBold "." :: lines) ∧
      main (fun _ => true) exampleFS 2 false true false [] =
        some (0, Write.println Color.hiBlueBold "." :: lines ++
          [Write.printf (if false = true then "\n" ++ Nat.repr N ++ " directories\n"
            else "\n" ++ Nat.repr N ++ " directories, " ++ Nat.repr M ++ " files\n")]) :=
  ⟨by decide, main_summary_line (fun _ => true) exampleFS 2 false true false [] rfl (by decide)⟩

/-! ## The counters and the options -/

/-- C19: a walk with enough fuel returns, and it adds to `counts.dirs` the
number of directories below the directory, whatever the three options and
the prefix, and to `counts.files` the number of the other entries below it
without `-d` and nothing with `-d`: the options `-f` and `-h` never change
the counters, and `-d` changes `counts.files` only. -/
theorem dirTree_counters_flags (fs : FS) (n : Nat) (dirName : String)
    (hdepth : depthWithin fs n dirName = true) (f h d : Bool) (sep : String) (c : counts)
    (out : List Write) :
    ∃ lines, dirTree fs n dirName sep ⟨f, h, d⟩ (c, out) =
      some (⟨c.dirs + dirCount fs n dirName,
        c.files + (if d = true then 0 else fileCount fs n dirName)⟩, out ++ lines) := by
  obtain ⟨hr, _⟩ := dirTree_result fs ⟨f, h, d⟩ n dirName sep (c, out) hdepth
  refine ⟨(resultOf (dirTree fs n dirName sep ⟨f, h, d⟩ startState)).2, ?_⟩
  rw [hr]
  simp only [addState, dirTree_fst fs ⟨f, h, d⟩ n dirName sep hdepth]

theorem dirTree_counters_flags_witness :
    depthWithin exampleFS 2 "." = true ∧
    (∃ lines, dirTree exampleFS 2 "." "" ⟨true, true, false⟩ (⟨0, 0⟩, []) =
      some (⟨0 + dirCount exampleFS 2 ".",
        0 + (if false = true then 0 else fileCount exampleFS 2 ".")⟩, [] ++ lines)) ∧
    dirCount exampleFS 2 "." = 2 ∧ fileCount exampleFS 2 "." = 2 :=
  ⟨by decide, dirTree_counters_flags exampleFS 2 "." (by decide) true true false "" ⟨0, 0⟩ [],
    by decide, by decide⟩

/-! ## The indentation invariant -/

/-- C20 (amended): a walk started with the empty prefix, with enough fuel,
returns with the output `indentWalk`, in which the line of an entry at depth
`n` (below the ancestors `anc`, `n` of them) is written behind `segsOf anc`
followed by one glyph `├── ` or `└── `; this text is `4 * (n + 1)`
characters long and consists of `n` segments, the `i`-th of which is a blank,
two no-break spaces (U+00A0) and a blank when the `i`-th ancestor was the last
entry of its listing, and a vertical bar, two no-break spaces and a blank when
it was not. -/
theorem dirTree_indentation_invariant (fs : FS) (fl : flags) (n : Nat) (dirName : String)
    (hdepth : depthWithin fs n dirName = true) :
    (∃ c, dirTree fs n dirName "" fl startState = some (c, indentWalk fs fl n dirName [])) ∧
    (∀ (anc : List Bool) (count k : Nat),
      (segsOf anc ++ glyph count k).length = 4 * (anc.length + 1)) ∧
    (∀ (anc : List Bool) (i : Nat) (b : Bool), anc.get? i = some b →
      ((segsOf anc).data.drop (4 * i)).take 4 =
        (if b = true then " \u00a0\u00a0 " else "│\u00a0\u00a0 ").data) ∧
    (∀ count k : Nat, glyph count k = "├── " ∨ glyph count k = "└── ") := by
  refine ⟨?_, ?_, ?_, ?_⟩
  · obtain ⟨hr, _⟩ := dirTree_result fs fl n dirName "" startState hdepth
    refine ⟨(resultOf (dirTree fs n dirName "" fl startState)).1, ?_⟩
    rw [hr, start_addState, ← dirTree_indent fs fl n dirName [] hdepth]
    rfl
  · intro anc count k
    rw [String.length_append, segsOf_length, glyph_length]
    omega
  · intro anc i b hb
    exact segsOf_segment anc i b hb
  · intro count k
    unfold glyph
    split_ifs
    · exact Or.inr rfl
    · exact Or.inl rfl

theorem dirTree_indentation_invariant_witness :
    depthWithin exampleFS 2 "." = true ∧
    (∃ c, dirTree exampleFS 2 "." "" exampleFlags startState =
      some (c, indentWalk exampleFS exampleFlags 2 "." [])) ∧
    indentWalk exampleFS exampleFlags 2 "." [] =
      [Write.printf "├── ", Write.printf "[4.0K]  ", Write.println Color.hiBlueBold "A",
       Write.printf "│\u00a0\u00a0 └── ", Write.printf "[2.0K]  ",
       Write.println Color.hiGreenBold "x.sh",
       Write.printf "├── ", Write.printf "[  10]  ", Write.println Color.plain "b.txt",
       Write.printf "└── ", Write.printf "[4.0K]  ", Write.println Color.hiBlueBold "locked"] :=
  ⟨by decide, (dirTree_indentation_invariant exampleFS exampleFlags 2 "." (by decide)).1, by decide⟩

/-- C20 (counterexample): in the walk of `lastDirFS` the file `f` is at
depth 1 below the directory `d`, the last entry of its listing; its line
starts with the segment blank, no-break space, no-break space, blank, which
is neither the four blanks nor the vertical bar and three blanks of the
claim. -/
theorem indentation_not_blanks :
    dirTree lastDirFS 2 "." "" ⟨false, false, false⟩ startState =
      some (⟨1, 1⟩,
        [Write.printf "└── ", Write.println Color.hiBlueBold "d",
         Write.printf " \u00a0\u00a0 └── ", Write.println Color.plain "f"]) ∧
    HasPrefix " \u00a0\u00a0 └── " "    " = false ∧
    HasPrefix " \u00a0\u00a0 └── " "│   " = false ∧
    (" \u00a0\u00a0 └── ".data.take 4 ≠ "    ".data) := by
  refine ⟨?_, ?_, ?_, ?_⟩ <;> decide

end LinuxTree
